import Mathlib

/-!
# Verification of the influx-metrics-visualiser metrics core

This development gives a shallow embedding, in Lean, of the Prometheus
exposition parser and the distribution-engine functions of the
influx-metrics-visualiser repository (`client/src/formatters.js` and the
dashboard component), and proves properties of that embedding.

Modelling conventions:
* JavaScript numbers are modelled exactly: a number is either a rational,
  `+Infinity`, `-Infinity`, or `NaN` (inductive type `JsNum`).  All JS
  arithmetic used by the code (addition, subtraction, division, `Math.max`,
  comparisons, truthiness) is given the corresponding exact semantics.
* JS strings are modelled as `String` / `List Char`; JS `Map` and plain
  objects are modelled as association lists in insertion order, since the
  code relies on insertion-order iteration of `Map` and object keys.
* The regular expressions used by the parser are embedded as deterministic
  maximal-munch scanners.  For each regex of the source this is
  behaviourally equivalent because every quantified class in those regexes
  is disjoint from the character that must follow it, so backtracking can
  never produce a different outcome than greedy scanning.
-/

namespace IMV

/-- A JavaScript number: an exact rational, an infinity, or `NaN`. -/
inductive JsNum where
  | finite (q : ℚ)
  | inf
  | negInf
  | nan
deriving DecidableEq, Repr

namespace JsNum

/-- JS addition. -/
def add : JsNum → JsNum → JsNum
  | nan, _ => nan
  | _, nan => nan
  | inf, negInf => nan
  | negInf, inf => nan
  | inf, _ => inf
  | _, inf => inf
  | negInf, _ => negInf
  | _, negInf => negInf
  | finite a, finite b => finite (a + b)

/-- JS subtraction. -/
def sub : JsNum → JsNum → JsNum
  | nan, _ => nan
  | _, nan => nan
  | inf, inf => nan
  | negInf, negInf => nan
  | inf, _ => inf
  | _, inf => negInf
  | negInf, _ => negInf
  | _, negInf => inf
  | finite a, finite b => finite (a - b)

/-- JS division (as used with a positive-count guard in the code). -/
def div : JsNum → JsNum → JsNum
  | nan, _ => nan
  | _, nan => nan
  | inf, inf => nan
  | inf, negInf => nan
  | negInf, inf => nan
  | negInf, negInf => nan
  | inf, finite b => if 0 ≤ b then inf else negInf
  | negInf, finite b => if 0 ≤ b then negInf else inf
  | finite _, inf => finite 0
  | finite _, negInf => finite 0
  | finite a, finite b =>
      if b = 0 then (if a = 0 then nan else if 0 < a then inf else negInf)
      else finite (a / b)

/-- JS `Math.max` of two numbers (`NaN` absorbs). -/
def max2 : JsNum → JsNum → JsNum
  | nan, _ => nan
  | _, nan => nan
  | inf, _ => inf
  | _, inf => inf
  | negInf, b => b
  | a, negInf => a
  | finite a, finite b => finite (max a b)

/-- JS truthiness of a number (`0` and `NaN` are falsy). -/
def truthy : JsNum → Bool
  | finite q => q ≠ 0
  | nan => false
  | _ => true

/-- JS `x || y` for numbers. -/
def jsOr (x y : JsNum) : JsNum := if x.truthy then x else y

/-- JS `<` comparison (`false` whenever `NaN` is involved). -/
def ltb : JsNum → JsNum → Bool
  | nan, _ => false
  | _, nan => false
  | inf, _ => false
  | negInf, negInf => false
  | negInf, _ => true
  | finite _, inf => true
  | finite _, negInf => false
  | finite a, finite b => a < b

/-- JS `>` comparison. -/
def gtb (a b : JsNum) : Bool := ltb b a

/-- A total `≤`-style ordering used to model ascending numeric sorts.
`NaN` never occurs in the sorted inputs of the theorems below. -/
def leb : JsNum → JsNum → Bool
  | nan, _ => true
  | _, nan => false
  | negInf, _ => true
  | _, negInf => false
  | _, inf => true
  | inf, _ => false
  | finite a, finite b => a ≤ b

/-- Descending comparison for `sort((a, b) => b.value - a.value)`. -/
def geb (a b : JsNum) : Bool := leb b a

/-- Is the number a finite rational? -/
def isFinite : JsNum → Bool
  | finite _ => true
  | _ => false

/-- The rational carried by a finite number (`0` otherwise). -/
def toQ : JsNum → ℚ
  | finite q => q
  | _ => 0

end JsNum

/-! ## Character classes of the source regexes -/

/-- `[a-zA-Z_:]`: first character of a metric name. -/
def isNameStart (c : Char) : Bool :=
  (('a' ≤ c ∧ c ≤ 'z') ∨ ('A' ≤ c ∧ c ≤ 'Z') ∨ c = '_' ∨ c = ':')

/-- `[a-zA-Z0-9_:]`: later characters of a metric name. -/
def isNameChar (c : Char) : Bool :=
  (isNameStart c ∨ ('0' ≤ c ∧ c ≤ '9'))

/-- `[a-zA-Z_]`: first character of a label key. -/
def isKeyStart (c : Char) : Bool :=
  (('a' ≤ c ∧ c ≤ 'z') ∨ ('A' ≤ c ∧ c ≤ 'Z') ∨ c = '_')

/-- `[a-zA-Z0-9_]`: later characters of a label key. -/
def isKeyChar (c : Char) : Bool :=
  (isKeyStart c ∨ ('0' ≤ c ∧ c ≤ '9'))

/-- `[0-9eE.+\-NaNInf]`: the value-token character class of the data regex. -/
def isValueChar (c : Char) : Bool :=
  (('0' ≤ c ∧ c ≤ '9') ∨ c = 'e' ∨ c = 'E' ∨ c = '.' ∨ c = '+' ∨ c = '-' ∨
    c = 'N' ∨ c = 'a' ∨ c = 'I' ∨ c = 'n' ∨ c = 'f')

/-- `\s` of the source regexes / `trim`, restricted to the whitespace that can
occur in exposition text. -/
def isSpaceChar (c : Char) : Bool :=
  (c = ' ' ∨ c = '\t' ∨ c = '\r' ∨ c = '\x0b' ∨ c = '\x0c')

/-- `[0-9]`. -/
def isDigitChar (c : Char) : Bool :=
  ('0' ≤ c ∧ c ≤ '9')

/-! ## Digit strings -/

/-- Numeric value of a digit list, most significant first. -/
def parseDigits (l : List Char) : ℕ :=
  l.foldl (fun a c => 10 * a + (c.toNat - 48)) 0

/-- Decimal digits of a natural number, most significant first (fuel-based
so that it reduces definitionally; `natToChars` supplies enough fuel). -/
def natToCharsAux : ℕ → ℕ → List Char
  | 0, _ => []
  | fuel + 1, n =>
    if n < 10 then [Char.ofNat (48 + n)]
    else natToCharsAux fuel (n / 10) ++ [Char.ofNat (48 + n % 10)]

/-- Decimal digits of a natural number, most significant first. -/
def natToChars (n : ℕ) : List Char := natToCharsAux (n + 1) n

/-- Decimal digits of an integer, with a leading minus sign when negative. -/
def intToChars (m : ℤ) : List Char :=
  if m < 0 then '-' :: natToChars m.natAbs else natToChars m.natAbs

/-! ## `Number.parseFloat` -/

/-- The result of `Number.parseFloat` on a character list: the longest prefix
that forms a decimal literal (optionally signed, with optional fraction and
exponent, or an `Infinity` keyword) is parsed exactly; if there is none the
result is `NaN`. -/
def jsParseFloatC (l0 : List Char) : JsNum :=
  let l := l0.dropWhile isSpaceChar
  let sgn : ℤ := match l with
    | '-' :: _ => -1
    | _ => 1
  let l1 : List Char := match l with
    | '+' :: r => r
    | '-' :: r => r
    | r => r
  if List.isPrefixOf "Infinity".data l1 then
    (if sgn = 1 then .inf else .negInf)
  else
    let ip := l1.takeWhile isDigitChar
    let r1 := l1.dropWhile isDigitChar
    let fp : List Char := match r1 with
      | '.' :: r => r.takeWhile isDigitChar
      | _ => []
    let r2 : List Char := match r1 with
      | '.' :: r => r.dropWhile isDigitChar
      | _ => r1
    if ip = [] ∧ fp = [] then .nan
    else
      let mant : ℚ := (parseDigits ip : ℚ) + (parseDigits fp : ℚ) / ((10 : ℚ) ^ fp.length)
      let ex : ℤ := match r2 with
        | 'e' :: r | 'E' :: r =>
          let es : ℤ := match r with
            | '-' :: _ => -1
            | _ => 1
          let rd : List Char := match r with
            | '+' :: t => t
            | '-' :: t => t
            | t => t
          let ed := rd.takeWhile isDigitChar
          if ed = [] then 0 else es * (parseDigits ed : ℤ)
        | _ => 0
      .finite ((sgn : ℚ) * mant * (10 : ℚ) ^ ex)

/-- `Number.parseFloat` on a string. -/
def jsParseFloat (s : String) : JsNum := jsParseFloatC s.data

/-- The value stored for a data line: `parseFloat` of the token, with the
source's fallback when that is `NaN` (`+Inf`/`Inf` ↦ `+∞`, `-Inf` ↦ `-∞`,
anything else ↦ `0`). -/
def fallbackVal (tok : List Char) : JsNum :=
  match jsParseFloatC tok with
  | .nan =>
      if tok = "+Inf".data ∨ tok = "Inf".data then .inf
      else if tok = "-Inf".data then .negInf
      else .finite 0
  | v => v

/-! ## JS number-to-string

`numToStr` models the JS `Number`-to-`String` conversion for the values that
occur in the claims: `NaN`, the infinities, integers, and finite decimal
fractions (printed as the shortest exact decimal, which agrees with JS for
the magnitudes involved).  Rationals without a finite decimal expansion do
not arise from `parseFloat`; for totality they print via their numerator. -/

/-- The least exponent `k ≤ bound` with `d ∣ 10 ^ k`, if any. -/
def decExpAux (d : ℕ) : ℕ → Option ℕ
  | 0 => if d ∣ 1 then some 0 else none
  | b + 1 =>
    match decExpAux d b with
    | some k => some k
    | none => if d ∣ 10 ^ (b + 1) then some (b + 1) else none

/-- Decimal digits of `q` (for `q` with a decimal denominator). -/
def qToChars (q : ℚ) : List Char :=
  if q.den = 1 then intToChars q.num
  else
    match decExpAux q.den q.den with
    | none => intToChars q.num
    | some k =>
      let n : ℕ := q.num.natAbs * 10 ^ k / q.den
      let ipart := natToChars (n / 10 ^ k)
      let fdigits := natToChars (n % 10 ^ k)
      let fpart := List.replicate (k - fdigits.length) '0' ++ fdigits
      (if q.num < 0 then ['-'] else []) ++ ipart ++ '.' :: fpart

/-- JS `String(x)` for a number. -/
def numToStr : JsNum → String
  | .finite q => String.mk (qToChars q)
  | .inf => "Infinity"
  | .negInf => "-Infinity"
  | .nan => "NaN"

/-! ## Escape decoding

The source decodes a captured label value with
`.replaceAll('\\"', '"').replaceAll('\\\\', '\\').replaceAll('\\n', '\n')`,
three sequential left-to-right non-overlapping passes.  `repl2 a b r`
models `replaceAll` for a two-character pattern `a b` and replacement
`r`. -/

/-- Left-to-right non-overlapping replacement of the two-character pattern
`a b` by `r`. -/
def repl2 (a b : Char) (r : List Char) : List Char → List Char
  | [] => []
  | [c] => [c]
  | c :: d :: t =>
    if c = a ∧ d = b then r ++ repl2 a b r t
    else c :: repl2 a b r (d :: t)

/-- The decode pipeline applied to a raw captured label value. -/
def decodeEsc (s : List Char) : List Char :=
  repl2 '\\' 'n' ['\n'] (repl2 '\\' '\\' ['\\'] (repl2 '\\' '"' ['"'] s))

/-- `true` when the list has no occurrence of a backslash directly followed
by the letter `n`.  Every decoded label value satisfies this. -/
def noBN : List Char → Bool
  | a :: b :: t => (¬ (a = '\\' ∧ b = 'n')) ∧ noBN (b :: t)
  | _ => true

/-! ## The label regex `([a-zA-Z_][a-zA-Z0-9_]*)="((?:[^"\\]|\\.)*)"`

`scanBody` is the greedy body `(?:[^"\\]|\\.)*` followed by the closing
quote: it consumes escape pairs and plain characters until an unescaped
quote, returning the raw body and the remainder after the quote. -/

def scanBody : List Char → Option (List Char × List Char)
  | [] => none
  | '"' :: r => some ([], r)
  | '\\' :: [] => none
  | '\\' :: x :: r =>
    match scanBody r with
    | some (b, rest) => some ('\\' :: x :: b, rest)
    | none => none
  | c :: r =>
    match scanBody r with
    | some (b, rest) => some (c :: b, rest)
    | none => none

/-- Try to match one `key="value"` pair at the head of the list; on success
return the key, the raw (still escaped) value, and the remainder after the
closing quote. -/
def matchLabelAt (s : List Char) : Option ((String × List Char) × List Char) :=
  match s with
  | [] => none
  | c :: r =>
    if isKeyStart c then
      match r.dropWhile isKeyChar with
      | '=' :: '"' :: r2 =>
        match scanBody r2 with
        | some (b, rest) => some ((String.mk (c :: r.takeWhile isKeyChar), b), rest)
        | none => none
      | _ => none
    else none

/-! ### Small list toolkit -/

theorem length_dropWhile_le (p : α → Bool) (l : List α) :
    (l.dropWhile p).length ≤ l.length := by
  induction l with
  | nil => simp
  | cons a t ih =>
    by_cases h : p a
    · simp only [List.dropWhile_cons, h, if_true, List.length_cons]
      omega
    · simp [List.dropWhile_cons, h]

theorem takeWhile_all_append {p : α → Bool} {xs : List α} (y : α) (ys : List α)
    (h1 : ∀ c ∈ xs, p c) (h2 : ¬ p y) :
    (xs ++ y :: ys).takeWhile p = xs := by
  induction xs with
  | nil => simp [List.takeWhile_cons, h2]
  | cons a t ih =>
    have ha : p a := h1 a (by simp)
    simp only [List.cons_append, List.takeWhile_cons, ha, if_true]
    rw [ih (fun c hc => h1 c (by simp [hc]))]

theorem dropWhile_all_append {p : α → Bool} {xs : List α} (y : α) (ys : List α)
    (h1 : ∀ c ∈ xs, p c) (h2 : ¬ p y) :
    (xs ++ y :: ys).dropWhile p = y :: ys := by
  induction xs with
  | nil => simp [List.dropWhile_cons, h2]
  | cons a t ih =>
    have ha : p a := h1 a (by simp)
    simp only [List.cons_append, List.dropWhile_cons, ha, if_true]
    exact ih (fun c hc => h1 c (by simp [hc]))

theorem takeWhile_all {p : α → Bool} {xs : List α} (h1 : ∀ c ∈ xs, p c) :
    xs.takeWhile p = xs := by
  induction xs with
  | nil => simp
  | cons a t ih =>
    have ha : p a := h1 a (by simp)
    simp only [List.takeWhile_cons, ha, if_true]
    rw [ih (fun c hc => h1 c (by simp [hc]))]

theorem dropWhile_all {p : α → Bool} {xs : List α} (h1 : ∀ c ∈ xs, p c) :
    xs.dropWhile p = [] := by
  induction xs with
  | nil => simp
  | cons a t ih =>
    have ha : p a := h1 a (by simp)
    simp only [List.dropWhile_cons, ha, if_true]
    exact ih (fun c hc => h1 c (by simp [hc]))

theorem mem_takeWhile_pred {p : α → Bool} {xs : List α} {a : α}
    (h : a ∈ xs.takeWhile p) : p a := by
  induction xs with
  | nil => simp at h
  | cons b t ih =>
    rw [List.takeWhile_cons] at h
    by_cases hb : p b
    · rw [if_pos hb] at h
      rcases List.mem_cons.1 h with h | h
      · exact h ▸ hb
      · exact ih h
    · rw [if_neg hb] at h; simp at h

theorem scanBody_length_aux : ∀ (n : ℕ) {s b rest : List Char}, s.length ≤ n →
    scanBody s = some (b, rest) → rest.length < s.length := by
  intro n
  induction n with
  | zero =>
    intro s b rest hle h
    cases s with
    | nil => simp [scanBody] at h
    | cons c r => simp at hle
  | succ n ih =>
    intro s b rest hle h
    unfold scanBody at h
    split at h
    · exact absurd h (by simp)
    · rename_i r
      simp only [Option.some.injEq, Prod.mk.injEq] at h
      obtain ⟨-, hr⟩ := h
      subst hr; simp
    · exact absurd h (by simp)
    · rename_i x r
      split at h
      · rename_i b' rest' hs
        simp only [Option.some.injEq, Prod.mk.injEq] at h
        obtain ⟨-, hr⟩ := h
        subst hr
        have hlt := ih (s := r) (by simp at hle ⊢; omega) hs
        simp only [List.length_cons]
        omega
      · exact absurd h (by simp)
    · rename_i c r h1 h2 h3
      split at h
      · rename_i b' rest' hs
        simp only [Option.some.injEq, Prod.mk.injEq] at h
        obtain ⟨-, hr⟩ := h
        subst hr
        have hlt := ih (s := r) (by simp at hle ⊢; omega) hs
        simp only [List.length_cons]
        omega
      · exact absurd h (by simp)

theorem scanBody_length {s b rest : List Char} (h : scanBody s = some (b, rest)) :
    rest.length < s.length :=
  scanBody_length_aux s.length (Nat.le_refl _) h

theorem matchLabelAt_length {s : List Char} {kv : String × List Char}
    {rest : List Char} (h : matchLabelAt s = some (kv, rest)) :
    rest.length < s.length := by
  unfold matchLabelAt at h
  split at h
  · exact absurd h (by simp)
  · rename_i c r
    split at h
    · split at h
      · rename_i r2 hdrop
        split at h
        · rename_i b' rest' hscan
          simp only [Option.some.injEq, Prod.mk.injEq] at h
          obtain ⟨-, hr⟩ := h
          subst hr
          have h1 := scanBody_length hscan
          have h2 : r2.length + 2 = (r.dropWhile isKeyChar).length := by
            rw [hdrop]; simp
          have h3 : (r.dropWhile isKeyChar).length ≤ r.length :=
            length_dropWhile_le isKeyChar r
          simp only [List.length_cons]
          omega
        · exact absurd h (by simp)
      · exact absurd h (by simp)
    · exact absurd h (by simp)

/-- Fuel-based worker for the `labelRegex.exec` loop (the fuel only needs to
cover the input length; `extractLabels` supplies it). -/
def extractLabelsAux : ℕ → List Char → List (String × List Char)
  | 0, _ => []
  | fuel + 1, s =>
    match s with
    | [] => []
    | c :: r =>
      match matchLabelAt (c :: r) with
      | some (kv, rest) => kv :: extractLabelsAux fuel rest
      | none => extractLabelsAux fuel r

/-- The `labelRegex.exec` loop of the source: repeatedly find the leftmost
`key="value"` match and continue after it, collecting `(key, raw value)`
pairs in match order. -/
def extractLabels (s : List Char) : List (String × List Char) :=
  extractLabelsAux s.length s

theorem extractLabelsAux_congr : ∀ (f1 f2 : ℕ) (s : List Char),
    s.length ≤ f1 → s.length ≤ f2 → extractLabelsAux f1 s = extractLabelsAux f2 s := by
  intro f1
  induction f1 with
  | zero =>
    intro f2 s h1 h2
    have hs : s = [] := List.length_eq_zero.1 (Nat.le_zero.1 h1)
    subst hs
    cases f2 <;> rfl
  | succ f1 ih =>
    intro f2 s h1 h2
    cases s with
    | nil => cases f2 <;> rfl
    | cons c r =>
      cases f2 with
      | zero => simp at h2
      | succ f2 =>
        simp only [extractLabelsAux]
        cases hm : matchLabelAt (c :: r) with
        | some p =>
          obtain ⟨kv, rest⟩ := p
          have hlt := matchLabelAt_length hm
          simp only [List.length_cons] at h1 h2 hlt
          show kv :: extractLabelsAux f1 rest = kv :: extractLabelsAux f2 rest
          rw [ih f2 rest (by omega) (by omega)]
        | none =>
          simp only [List.length_cons] at h1 h2
          show extractLabelsAux f1 r = extractLabelsAux f2 r
          rw [ih f2 r (by omega) (by omega)]

theorem extractLabels_match {c : Char} {r : List Char} {kv : String × List Char}
    {rest : List Char} (h : matchLabelAt (c :: r) = some (kv, rest)) :
    extractLabels (c :: r) = kv :: extractLabels rest := by
  unfold extractLabels
  simp only [List.length_cons, extractLabelsAux, h]
  have hlt := matchLabelAt_length h
  simp only [List.length_cons] at hlt
  rw [extractLabelsAux_congr r.length rest.length rest (by omega) (Nat.le_refl _)]

theorem extractLabels_skip {c : Char} {r : List Char}
    (h : matchLabelAt (c :: r) = none) :
    extractLabels (c :: r) = extractLabels r := by
  unfold extractLabels
  simp only [List.length_cons, extractLabelsAux, h]

/-! ## JS objects as association lists -/

/-- JS `obj[k] = v`: update in place if the key exists (its position is
kept), otherwise append. -/
def upsert (k : String) (v : β) : List (String × β) → List (String × β)
  | [] => [(k, v)]
  | (k0, v0) :: t => if k0 = k then (k0, v) :: t else (k0, v0) :: upsert k v t

/-- Build a JS object from assignments performed in list order. -/
def buildObj (l : List (String × β)) : List (String × β) :=
  l.foldl (fun o kv => upsert kv.1 kv.2 o) []

/-- Association-list lookup (`obj[k]`, `undefined` as `none`). -/
def alookup (k : String) : List (String × β) → Option β
  | [] => none
  | (k0, v0) :: t => if k0 = k then some v0 else alookup k t

/-! ## The data-line regex

`^([a-zA-Z_:][a-zA-Z0-9_:]*)(?:\x7b([^\x7d]*)\x7d)?\s+([0-9eE.+\-NaNInf]+)(?:\s+([0-9]+))?$`

`matchData` is its deterministic embedding: name, optional brace block
(captured up to the first closing brace), mandatory whitespace, value token,
optional whitespace-separated digit timestamp, end of input. -/

structure DataMatch where
  name : List Char
  labelStr : Option (List Char)
  valueStr : List Char
deriving DecidableEq, Repr

def matchData (s : List Char) : Option DataMatch :=
  match s with
  | [] => none
  | c :: rest =>
    if isNameStart c then
      let nm := c :: rest.takeWhile isNameChar
      let r1 := rest.dropWhile isNameChar
      let labRes : Option (Option (List Char) × List Char) :=
        match r1 with
        | '{' :: r =>
          match r.dropWhile (fun d => d ≠ '}') with
          | '}' :: r2 => some (some (r.takeWhile (fun d => d ≠ '}')), r2)
          | _ => none
        | _ => some (none, r1)
      match labRes with
      | none => none
      | some (lab, r2) =>
        match r2 with
        | [] => none
        | w :: wr =>
          if isSpaceChar w then
            let r3 := wr.dropWhile isSpaceChar
            match r3 with
            | [] => none
            | v :: vr =>
              if isValueChar v then
                let val := v :: vr.takeWhile isValueChar
                let r4 := vr.dropWhile isValueChar
                match r4 with
                | [] => some ⟨nm, lab, val⟩
                | t :: tr =>
                  if isSpaceChar t then
                    let r5 := tr.dropWhile isSpaceChar
                    if r5 ≠ [] ∧ r5.all isDigitChar then some ⟨nm, lab, val⟩
                    else none
                  else none
              else none
          else none
    else none

/-- Full processing of a (trimmed) data line: regex match, label extraction
and escape decoding into a JS object, value parsing with fallback. -/
def dataLineParse (t : List Char) : Option (String × List (String × String) × JsNum) :=
  match matchData t with
  | none => none
  | some md =>
    let labels : List (String × String) :=
      match md.labelStr with
      | none => []
      | some ls =>
        buildObj ((extractLabels ls).map (fun kv => (kv.1, String.mk (decodeEsc kv.2))))
    some (String.mk md.name, labels, fallbackVal md.valueStr)

/-! ## HELP / TYPE comment lines -/

/-- Strip `p` from the front of `s`, or fail. -/
def stripPrefixL (p s : List Char) : Option (List Char) :=
  match p, s with
  | [], s => some s
  | _ :: _, [] => none
  | a :: p1, b :: s1 => if a = b then stripPrefixL p1 s1 else none

/-- `^#\s*HELP\s+([a-zA-Z_:][a-zA-Z0-9_:]*)\s+(.*)$` on a trimmed line. -/
def helpMatch (t : List Char) : Option (String × String) :=
  match t with
  | '#' :: r =>
    match stripPrefixL "HELP".data (r.dropWhile isSpaceChar) with
    | none => none
    | some r2 =>
      match r2 with
      | c :: r3 =>
        if isSpaceChar c then
          match r3.dropWhile isSpaceChar with
          | d :: r5 =>
            if isNameStart d then
              let nm := d :: r5.takeWhile isNameChar
              match r5.dropWhile isNameChar with
              | e :: r7 =>
                if isSpaceChar e then
                  some (String.mk nm, String.mk (r7.dropWhile isSpaceChar))
                else none
              | [] => none
            else none
          | [] => none
        else none
      | [] => none
  | _ => none

/-- The five TYPE keywords. -/
def typeWords : List String :=
  ["counter", "gauge", "histogram", "summary", "untyped"]

/-- `^#\s*TYPE\s+([a-zA-Z_:][a-zA-Z0-9_:]*)\s+(counter|gauge|histogram|summary|untyped)$`
with the `i` flag, on a trimmed line.  The stored type is lowercased. -/
def typeMatch (t : List Char) : Option (String × String) :=
  match t with
  | '#' :: r =>
    match stripPrefixL "type".data ((r.dropWhile isSpaceChar).map Char.toLower) with
    | none => none
    | some _ =>
      let r2 := (r.dropWhile isSpaceChar).drop 4
      match r2 with
      | c :: r3 =>
        if isSpaceChar c then
          match r3.dropWhile isSpaceChar with
          | d :: r5 =>
            if isNameStart d then
              let nm := d :: r5.takeWhile isNameChar
              match r5.dropWhile isNameChar with
              | e :: r7 =>
                if isSpaceChar e then
                  let ty := String.mk ((r7.dropWhile isSpaceChar).map Char.toLower)
                  if ty ∈ typeWords then some (String.mk nm, ty) else none
                else none
              | [] => none
            else none
          | [] => none
        else none
      | [] => none
  | _ => none

/-! ## Snapshots and the parse loop -/

/-- One parsed sample: a label object and a numeric value. -/
structure Sample where
  labels : List (String × String)
  value : JsNum
deriving DecidableEq, Repr

/-- The `metrics` map: metric name to sample list, in insertion order. -/
abbrev Metrics : Type := List (String × List Sample)

/-- Metadata entry (`help` text and lowercased `type`). -/
structure MetaEntry where
  help : String
  ty : String
deriving DecidableEq, Repr

/-- Parser state: the `metrics` and `metadata` maps. -/
structure ParseState where
  metrics : Metrics
  metadata : List (String × MetaEntry)
deriving DecidableEq, Repr

/-- `metrics.get(name).push(sample)`, creating the list if absent. -/
def pushSample (m : Metrics) (name : String) (s : Sample) : Metrics :=
  match m with
  | [] => [(name, [s])]
  | (n, ss) :: t =>
    if n = name then (n, ss ++ [s]) :: t else (n, ss) :: pushSample t name s

/-- Set the `help` of a metadata entry, creating it with type `untyped` if
absent. -/
def setHelp (md : List (String × MetaEntry)) (n : String) (h : String) :
    List (String × MetaEntry) :=
  match md with
  | [] => [(n, ⟨h, "untyped"⟩)]
  | (n0, e) :: t =>
    if n0 = n then (n0, ⟨h, e.ty⟩) :: t else (n0, e) :: setHelp t n h

/-- Set the `type` of a metadata entry, creating it with empty help if
absent. -/
def setType (md : List (String × MetaEntry)) (n : String) (ty : String) :
    List (String × MetaEntry) :=
  match md with
  | [] => [(n, ⟨"", ty⟩)]
  | (n0, e) :: t =>
    if n0 = n then (n0, ⟨e.help, ty⟩) :: t else (n0, e) :: setType t n ty

/-- `String.trim` of the source (on the whitespace of exposition text). -/
def trimL (l : List Char) : List Char :=
  ((l.dropWhile isSpaceChar).reverse.dropWhile isSpaceChar).reverse

/-- What one line of input does, after trimming: nothing, a HELP update, a
TYPE update, or a data sample. -/
inductive LineAct where
  | skip
  | help (name helpText : String)
  | typ (name ty : String)
  | data (name : String) (labels : List (String × String)) (value : JsNum)
deriving DecidableEq, Repr

/-- Classify one raw line exactly as the loop body of
`parsePrometheusMetricsWithMetadata` does: trim; skip blanks; try the HELP
regex, then the TYPE regex; skip other comments; try the data regex; skip
anything else. -/
def lineAction (line : String) : LineAct :=
  match trimL line.data with
  | [] => .skip
  | c :: r =>
    match helpMatch (c :: r) with
    | some (n, h) => .help n h
    | none =>
      match typeMatch (c :: r) with
      | some (n, ty) => .typ n ty
      | none =>
        if c = '#' then .skip
        else
          match dataLineParse (c :: r) with
          | some (n, ls, v) => .data n ls v
          | none => .skip

/-- Apply a line's action to the parse state. -/
def applyAct (st : ParseState) : LineAct → ParseState
  | .skip => st
  | .help n h => ⟨st.metrics, setHelp st.metadata n h⟩
  | .typ n ty => ⟨st.metrics, setType st.metadata n ty⟩
  | .data n ls v => ⟨pushSample st.metrics n ⟨ls, v⟩, st.metadata⟩

/-- `parsePrometheusMetricsWithMetadata`, line-list form: fold the per-line
action over the split input. -/
def parseLinesMeta (lines : List String) : ParseState :=
  lines.foldl (fun st l => applyAct st (lineAction l)) ⟨[], []⟩

/-- `parsePrometheusMetricsWithMetadata` on raw text (split on newlines). -/
def parsePrometheusMetricsWithMetadata (text : String) : ParseState :=
  parseLinesMeta (text.splitOn "\n")

/-- The loop body of the plain `parsePrometheusMetrics` of the dashboard
component: trim; skip blanks and every comment; try the data regex. -/
def lineActionPlain (line : String) : LineAct :=
  match trimL line.data with
  | [] => .skip
  | c :: r =>
    if c = '#' then .skip
    else
      match dataLineParse (c :: r) with
      | some (n, ls, v) => .data n ls v
      | none => .skip

/-- `parsePrometheusMetrics`, line-list form (it keeps no metadata). -/
def parseLinesPlain (lines : List String) : Metrics :=
  (lines.foldl (fun st l => applyAct st (lineActionPlain l)) ⟨[], []⟩).metrics

/-- `parsePrometheusMetrics` on raw text. -/
def parsePrometheusMetrics (text : String) : Metrics :=
  parseLinesPlain (text.splitOn "\n")

/-! ## Snapshot history -/

/-- The history append of the polling path (`fetchMetrics`): push, then
`slice(-60)` only when the length exceeds 60. -/
def appendHistFetch (h : List α) (s : α) : List α :=
  let h2 := h ++ [s]
  if 60 < h2.length then h2.drop (h2.length - 60) else h2

/-- The history append of the manual-parse path (`handleManualParse`):
push, then unconditional `slice(-60)`. -/
def appendHistManual (h : List α) (s : α) : List α :=
  let h2 := h ++ [s]
  h2.drop (h2.length - 60)

/-! # Claims -/

/-- C1: the exposition parser is a total function (by construction of this
embedding, mirroring the regex-based source, which throws on no input);
a line whose trimmed text matches none of the grammar rules — such as an
unterminated label block — is classified `skip`, and inserting such a line
anywhere in the input leaves the parse result of the remaining lines
exactly unchanged, so every valid line still yields its sample. -/
theorem c1_bad_line_skipped_without_effect (pre post : List String) (bad : String)
    (h : lineAction bad = .skip) :
    parseLinesMeta (pre ++ bad :: post) = parseLinesMeta (pre ++ post) := by
  unfold parseLinesMeta
  rw [List.foldl_append, List.foldl_append, List.foldl_cons, h]
  rfl

/-- Witness for C1 at the spec's own example: `weird_metric\x7bbad` is
skipped and the valid lines around it still parse. -/
theorem c1_bad_line_skipped_without_effect_witness :
    lineAction "weird_metric\x7bbad" = .skip ∧
    parseLinesMeta ["a_metric 1", "weird_metric\x7bbad", "b_metric 2"] =
      parseLinesMeta ["a_metric 1", "b_metric 2"] :=
  ⟨by decide,
   c1_bad_line_skipped_without_effect ["a_metric 1"] ["b_metric 2"]
     "weird_metric\x7bbad" (by decide)⟩

/-- C5: starting from a history of at most 60 entries, both append paths
(polling fetch and manual parse) agree; the result never exceeds 60
entries; appending when exactly 60 entries are present drops exactly the
oldest and keeps the newest 60 in order; appending below capacity
preserves all existing entries unchanged. -/
theorem c5_history_capacity (h : List α) (s : α) (hle : h.length ≤ 60) :
    appendHistFetch h s = appendHistManual h s ∧
    (appendHistFetch h s).length ≤ 60 ∧
    (h.length = 60 → appendHistFetch h s = h.tail ++ [s]) ∧
    (h.length < 60 → appendHistFetch h s = h ++ [s]) := by
  unfold appendHistFetch appendHistManual
  simp only [List.length_append, List.length_cons, List.length_nil]
  rcases Nat.lt_or_ge h.length 60 with hlt | hge
  · have hc : ¬ 60 < h.length + 1 := by omega
    rw [if_neg hc]
    have hz : h.length + 1 - 60 = 0 := by omega
    rw [hz, List.drop_zero]
    exact ⟨rfl, by simp; omega, by omega, fun _ => rfl⟩
  · have heq : h.length = 60 := by omega
    have hc : 60 < h.length + 1 := by omega
    rw [if_pos hc]
    have hz : h.length + 1 - 60 = 1 := by omega
    rw [hz]
    have hdrop : (h ++ [s]).drop 1 = h.tail ++ [s] := by
      cases h with
      | nil => simp at heq
      | cons a t => simp
    refine ⟨rfl, ?_, fun _ => hdrop, fun hltc => by omega⟩
    rw [hdrop]
    cases h with
    | nil => simp at heq
    | cons a t => simp at heq ⊢; omega

/-- Witness for C5: a concrete 60-entry history is truncated FIFO, and a
shorter one is extended unchanged. -/
theorem c5_history_capacity_witness :
    (List.replicate 60 (0 : ℤ)).length ≤ 60 ∧
    appendHistFetch (List.replicate 60 (0 : ℤ)) 7 =
      (List.replicate 60 (0 : ℤ)).tail ++ [7] ∧
    appendHistFetch [(1 : ℤ), 2] 3 = [1, 2, 3] := by
  refine ⟨by simp, ?_, ?_⟩
  · exact (c5_history_capacity (List.replicate 60 (0 : ℤ)) 7 (by simp)).2.2.1 (by simp)
  · exact (c5_history_capacity [(1 : ℤ), 2] 3 (by simp)).2.2.2 (by simp)

theorem fallbackVal_ne_nan (tok : List Char) : fallbackVal tok ≠ .nan := by
  cases hcase : jsParseFloatC tok with
  | finite q => simp [fallbackVal, hcase]
  | inf => simp [fallbackVal, hcase]
  | negInf => simp [fallbackVal, hcase]
  | nan =>
    simp only [fallbackVal, hcase]
    split
    · simp
    · split <;> simp

theorem dataLineParse_val_ne_nan {t : List Char} {n : String}
    {ls : List (String × String)} {v : JsNum}
    (h : dataLineParse t = some (n, ls, v)) : v ≠ .nan := by
  unfold dataLineParse at h
  split at h
  · exact absurd h (by simp)
  · simp only [Option.some.injEq, Prod.mk.injEq] at h
    obtain ⟨-, -, hv⟩ := h
    exact hv ▸ fallbackVal_ne_nan _

theorem lineAction_data_ne_nan {l : String} {n : String}
    {ls : List (String × String)} {v : JsNum}
    (h : lineAction l = .data n ls v) : v ≠ .nan := by
  unfold lineAction at h
  split at h
  · exact absurd h (by simp)
  · split at h
    · exact absurd h (by simp)
    · split at h
      · exact absurd h (by simp)
      · split at h
        · exact absurd h (by simp)
        · split at h
          · rename_i n0 ls0 v0 hparse
            simp only [LineAct.data.injEq] at h
            obtain ⟨-, -, hv⟩ := h
            exact hv ▸ dataLineParse_val_ne_nan hparse
          · exact absurd h (by simp)

theorem pushSample_no_nan {m : Metrics} {n : String} {smp : Sample}
    (hm : ∀ p ∈ m, ∀ x ∈ p.2, x.value ≠ JsNum.nan) (hs : smp.value ≠ JsNum.nan) :
    ∀ p ∈ pushSample m n smp, ∀ x ∈ p.2, x.value ≠ JsNum.nan := by
  induction m with
  | nil =>
    intro p hp x hx
    simp only [pushSample, List.mem_singleton] at hp
    subst hp
    simp only [List.mem_singleton] at hx
    exact hx ▸ hs
  | cons q t ih =>
    intro p hp x hx
    obtain ⟨n0, ss⟩ := q
    simp only [pushSample] at hp
    by_cases hn : n0 = n
    · rw [if_pos hn] at hp
      rcases List.mem_cons.1 hp with hp | hp
      · subst hp
        simp only [List.mem_append, List.mem_singleton] at hx
        rcases hx with hx | hx
        · exact hm (n0, ss) (by simp) x hx
        · exact hx ▸ hs
      · exact hm _ (List.mem_cons_of_mem _ hp) x hx
    · rw [if_neg hn] at hp
      rcases List.mem_cons.1 hp with hp | hp
      · subst hp
        exact hm (n0, ss) (by simp) x hx
      · exact ih (fun p hp => hm p (List.mem_cons_of_mem _ hp)) p hp x hx

theorem parseFold_no_nan : ∀ (lines : List String) (st : ParseState),
    (∀ p ∈ st.metrics, ∀ x ∈ p.2, x.value ≠ JsNum.nan) →
    ∀ p ∈ (lines.foldl (fun st l => applyAct st (lineAction l)) st).metrics,
      ∀ x ∈ p.2, x.value ≠ JsNum.nan := by
  intro lines
  induction lines with
  | nil => intro st hst; simpa using hst
  | cons l t ih =>
    intro st hst
    rw [List.foldl_cons]
    apply ih
    cases hl : lineAction l with
    | skip => simpa [applyAct] using hst
    | help n h => simpa [applyAct] using hst
    | typ n ty => simpa [applyAct] using hst
    | data n ls v =>
      have hv : v ≠ JsNum.nan := lineAction_data_ne_nan hl
      simp only [applyAct]
      exact pushSample_no_nan hst hv

/-- C3: when the value token fails float parsing, the stored value is `+∞`
for `+Inf`/`Inf`, `-∞` for `-Inf`, and `0` for any other unparsable token;
in particular the literal `NaN` stores `0`, and no sample in any parsed
snapshot ever carries `NaN`. -/
theorem c3_value_fallback_no_nan :
    (∀ tok : List Char, jsParseFloatC tok = .nan →
      fallbackVal tok =
        (if tok = "+Inf".data ∨ tok = "Inf".data then .inf
         else if tok = "-Inf".data then .negInf else .finite 0)) ∧
    fallbackVal "NaN".data = .finite 0 ∧
    (∀ lines : List String, ∀ p ∈ (parseLinesMeta lines).metrics,
      ∀ s ∈ p.2, s.value ≠ .nan) := by
  refine ⟨?_, by decide, ?_⟩
  · intro tok h
    unfold fallbackVal
    rw [h]
  · intro lines
    exact parseFold_no_nan lines ⟨[], []⟩ (by simp)

/-- Witness for C3 at concrete tokens: `+Inf` stores `+∞`, `NaN` stores
`0`. -/
theorem c3_value_fallback_no_nan_witness :
    fallbackVal "+Inf".data = .inf ∧ fallbackVal "NaN".data = .finite 0 :=
  ⟨(c3_value_fallback_no_nan.1 "+Inf".data (by decide)).trans (by decide),
   c3_value_fallback_no_nan.2.1⟩

/-! ## Stable sorting (JS `Array.prototype.sort` with a consistent
comparator: V8 sort is stable, so it is insertion sort up to ties) -/

/-- Insert `x` after every element `y` with `cmp y x` (stable insertion). -/
def insertSorted (cmp : α → α → Bool) (x : α) : List α → List α
  | [] => [x]
  | y :: t => if cmp y x then y :: insertSorted cmp x t else x :: y :: t

/-- Stable sort by the boolean comparison `cmp` (read `cmp a b` as "`a` may
come before `b`"). -/
def sortBy (cmp : α → α → Bool) (l : List α) : List α :=
  l.foldl (fun acc x => insertSorted cmp x acc) []

theorem insertSorted_perm (cmp : α → α → Bool) (x : α) (l : List α) :
    (insertSorted cmp x l).Perm (x :: l) := by
  induction l with
  | nil => exact List.Perm.refl _
  | cons y t ih =>
    unfold insertSorted
    by_cases h : cmp y x
    · rw [if_pos h]
      exact (List.Perm.cons y ih).trans (List.Perm.swap x y t)
    · rw [if_neg h]

theorem sortBy_perm (cmp : α → α → Bool) (l : List α) : (sortBy cmp l).Perm l := by
  suffices hgen : ∀ (l acc : List α),
      (l.foldl (fun acc x => insertSorted cmp x acc) acc).Perm (acc ++ l) by
    simpa using hgen l []
  intro l
  induction l with
  | nil => intro acc; simp
  | cons x t ih =>
    intro acc
    rw [List.foldl_cons]
    refine (ih (insertSorted cmp x acc)).trans ?_
    have h1 : (insertSorted cmp x acc ++ t).Perm ((x :: acc) ++ t) :=
      (insertSorted_perm cmp x acc).append_right t
    refine h1.trans ?_
    simpa using (@List.perm_middle _ x acc t).symm

theorem insertSorted_chain (cmp : α → α → Bool)
    (htot : ∀ a b, cmp a b = true ∨ cmp b a = true) (x : α) :
    ∀ {l : List α}, List.Chain' (fun a b => cmp a b = true) l →
      List.Chain' (fun a b => cmp a b = true) (insertSorted cmp x l) := by
  intro l
  induction l with
  | nil => intro _; simp [insertSorted]
  | cons y t ih =>
    intro hl
    unfold insertSorted
    by_cases h : cmp y x
    · rw [if_pos h]
      have ht : List.Chain' (fun a b => cmp a b = true) t := hl.tail
      have hrec := ih ht
      rw [List.chain'_cons']
      refine ⟨?_, hrec⟩
      intro b hb
      cases t with
      | nil => simp [insertSorted] at hb; exact hb ▸ h
      | cons z t2 =>
        unfold insertSorted at hb
        by_cases hz : cmp z x
        · rw [if_pos hz] at hb
          simp only [List.head?_cons, Option.mem_def, Option.some.injEq] at hb
          exact hb ▸ (List.chain'_cons.1 hl).1
        · rw [if_neg hz] at hb
          simp only [List.head?_cons, Option.mem_def, Option.some.injEq] at hb
          exact hb ▸ h
    · rw [if_neg h]
      rw [List.chain'_cons]
      rcases htot x y with hxy | hyx
      · exact ⟨hxy, hl⟩
      · exact absurd hyx h

theorem sortBy_chain (cmp : α → α → Bool)
    (htot : ∀ a b, cmp a b = true ∨ cmp b a = true) (l : List α) :
    List.Chain' (fun a b => cmp a b = true) (sortBy cmp l) := by
  suffices hgen : ∀ (l acc : List α),
      List.Chain' (fun a b => cmp a b = true) acc →
      List.Chain' (fun a b => cmp a b = true)
        (l.foldl (fun acc x => insertSorted cmp x acc) acc) by
    exact hgen l [] (by simp)
  intro l
  induction l with
  | nil => intro acc h; simpa using h
  | cons x t ih =>
    intro acc h
    rw [List.foldl_cons]
    exact ih _ (insertSorted_chain cmp htot x h)

theorem sortBy_mem (cmp : α → α → Bool) (l : List α) (x : α) :
    x ∈ sortBy cmp l ↔ x ∈ l :=
  (sortBy_perm cmp l).mem_iff

theorem sortBy_nodup (cmp : α → α → Bool) {l : List α} (h : l.Nodup) :
    (sortBy cmp l).Nodup :=
  (sortBy_perm cmp l).nodup_iff.2 h

/-! ## Metric discovery (`discoverDistributions`) -/

/-- JS `Set.prototype.add`: append if absent (insertion order kept). -/
def addUniq (l : List String) (x : String) : List String :=
  if x ∈ l then l else l ++ [x]

/-- `String.prototype.endsWith`. -/
def strEndsWith (s pat : String) : Bool :=
  List.isSuffixOf pat.data s.data

/-- Remove the leftmost occurrence of `pat` from `s` (no-op if absent):
JS `String.prototype.replace` with a string pattern and empty
replacement. -/
def removeFirstSub (pat : List Char) : List Char → List Char
  | [] => []
  | c :: r =>
    if List.isPrefixOf pat (c :: r) then (c :: r).drop pat.length
    else c :: removeFirstSub pat r

/-- `s.replace(pat, '')` for strings. -/
def jsReplaceFirst (pat s : String) : String :=
  String.mk (removeFirstSub pat.data s.data)

/-- Does a sample carry a `quantile` label (`!== undefined`)? -/
def hasQuantile (smp : Sample) : Bool :=
  (alookup "quantile" smp.labels).isSome

/-- Lexicographic string comparison (JS default-ish sort comparator as used
with ASCII metric names). -/
def strLeB (a b : String) : Bool := a ≤ b

/-- The classification loop body of `discoverDistributions`. -/
def discStep (acc : List String × List String × List String)
    (p : String × List Sample) : List String × List String × List String :=
  if strEndsWith p.1 "_bucket" then
    (addUniq acc.1 (jsReplaceFirst "_bucket" p.1), acc.2.1, acc.2.2)
  else if p.2.any hasQuantile then
    (acc.1, addUniq acc.2.1 p.1, acc.2.2)
  else (acc.1, acc.2.1, addUniq acc.2.2 p.1)

/-- The three discovered name lists. -/
structure Discovered where
  histograms : List String
  summaries : List String
  counters : List String
deriving DecidableEq, Repr

/-- `discoverDistributions`: classify each metric entry, then sort the three
deduplicated sets. -/
def discoverDistributions (metrics : Metrics) : Discovered :=
  let f := metrics.foldl discStep ([], [], [])
  ⟨sortBy strLeB f.1, sortBy strLeB f.2.1, sortBy strLeB f.2.2⟩

theorem mem_addUniq {l : List String} {y x : String} :
    x ∈ addUniq l y ↔ x ∈ l ∨ x = y := by
  unfold addUniq
  by_cases h : y ∈ l
  · rw [if_pos h]
    constructor
    · exact Or.inl
    · rintro (hx | hx)
      · exact hx
      · exact hx ▸ h
  · rw [if_neg h]
    simp

theorem nodup_addUniq {l : List String} {y : String} (h : l.Nodup) :
    (addUniq l y).Nodup := by
  unfold addUniq
  by_cases hy : y ∈ l
  · rwa [if_pos hy]
  · rw [if_neg hy]
    simp [List.nodup_append, h, hy]

theorem discFold_mem_hist (l : Metrics) :
    ∀ (acc : List String × List String × List String) (x : String),
      x ∈ (l.foldl discStep acc).1 ↔
      x ∈ acc.1 ∨ ∃ p ∈ l, strEndsWith p.1 "_bucket" = true ∧
        x = jsReplaceFirst "_bucket" p.1 := by
  induction l with
  | nil => intro acc x; simp
  | cons q t ih =>
    intro acc x
    rw [List.foldl_cons]
    rw [ih]
    unfold discStep
    by_cases hb : strEndsWith q.1 "_bucket"
    · rw [if_pos hb]
      simp only [mem_addUniq]
      constructor
      · rintro ((hx | hx) | ⟨p, hp, hpb, hpe⟩)
        · exact Or.inl hx
        · exact Or.inr ⟨q, by simp, hb, hx⟩
        · exact Or.inr ⟨p, by simp [hp], hpb, hpe⟩
      · rintro (hx | ⟨p, hp, hpb, hpe⟩)
        · exact Or.inl (Or.inl hx)
        · rcases List.mem_cons.1 hp with hp | hp
          · exact Or.inl (Or.inr (hp ▸ hpe))
          · exact Or.inr ⟨p, hp, hpb, hpe⟩
    · rw [if_neg hb]
      have hacc : (if q.2.any hasQuantile then
          (acc.1, addUniq acc.2.1 q.1, acc.2.2)
          else (acc.1, acc.2.1, addUniq acc.2.2 q.1)).1 = acc.1 := by
        split <;> rfl
      rw [hacc]
      constructor
      · rintro (hx | ⟨p, hp, hpb, hpe⟩)
        · exact Or.inl hx
        · exact Or.inr ⟨p, by simp [hp], hpb, hpe⟩
      · rintro (hx | ⟨p, hp, hpb, hpe⟩)
        · exact Or.inl hx
        · rcases List.mem_cons.1 hp with hp | hp
          · exact absurd (hp ▸ hpb) (by simpa using hb)
          · exact Or.inr ⟨p, hp, hpb, hpe⟩

theorem discFold_mem_summ (l : Metrics) :
    ∀ (acc : List String × List String × List String) (x : String),
      x ∈ (l.foldl discStep acc).2.1 ↔
      x ∈ acc.2.1 ∨ ∃ p ∈ l, p.1 = x ∧ strEndsWith p.1 "_bucket" = false ∧
        p.2.any hasQuantile = true := by
  induction l with
  | nil => intro acc x; simp
  | cons q t ih =>
    intro acc x
    rw [List.foldl_cons, ih]
    unfold discStep
    by_cases hb : strEndsWith q.1 "_bucket"
    · rw [if_pos hb]
      constructor
      · rintro (hx | ⟨p, hp, hpe, hpb, hpq⟩)
        · exact Or.inl hx
        · exact Or.inr ⟨p, by simp [hp], hpe, hpb, hpq⟩
      · rintro (hx | ⟨p, hp, hpe, hpb, hpq⟩)
        · exact Or.inl hx
        · rcases List.mem_cons.1 hp with hp | hp
          · rw [hp, hb] at hpb; exact absurd hpb (by simp)
          · exact Or.inr ⟨p, hp, hpe, hpb, hpq⟩
    · rw [if_neg hb]
      by_cases hq : q.2.any hasQuantile
      · rw [if_pos hq]
        simp only [mem_addUniq]
        constructor
        · rintro ((hx | hx) | ⟨p, hp, hpe, hpb, hpq⟩)
          · exact Or.inl hx
          · exact Or.inr ⟨q, by simp, hx.symm, by simpa using hb, hq⟩
          · exact Or.inr ⟨p, by simp [hp], hpe, hpb, hpq⟩
        · rintro (hx | ⟨p, hp, hpe, hpb, hpq⟩)
          · exact Or.inl (Or.inl hx)
          · rcases List.mem_cons.1 hp with hp | hp
            · exact Or.inl (Or.inr (hp ▸ hpe).symm)
            · exact Or.inr ⟨p, hp, hpe, hpb, hpq⟩
      · rw [if_neg hq]
        constructor
        · rintro (hx | ⟨p, hp, hpe, hpb, hpq⟩)
          · exact Or.inl hx
          · exact Or.inr ⟨p, by simp [hp], hpe, hpb, hpq⟩
        · rintro (hx | ⟨p, hp, hpe, hpb, hpq⟩)
          · exact Or.inl hx
          · rcases List.mem_cons.1 hp with hp | hp
            · exact absurd (hp ▸ hpq) (by simpa using hq)
            · exact Or.inr ⟨p, hp, hpe, hpb, hpq⟩

theorem discFold_mem_ctr (l : Metrics) :
    ∀ (acc : List String × List String × List String) (x : String),
      x ∈ (l.foldl discStep acc).2.2 ↔
      x ∈ acc.2.2 ∨ ∃ p ∈ l, p.1 = x ∧ strEndsWith p.1 "_bucket" = false ∧
        p.2.any hasQuantile = false := by
  induction l with
  | nil => intro acc x; simp
  | cons q t ih =>
    intro acc x
    rw [List.foldl_cons, ih]
    unfold discStep
    by_cases hb : strEndsWith q.1 "_bucket"
    · rw [if_pos hb]
      constructor
      · rintro (hx | ⟨p, hp, hpe, hpb, hpq⟩)
        · exact Or.inl hx
        · exact Or.inr ⟨p, by simp [hp], hpe, hpb, hpq⟩
      · rintro (hx | ⟨p, hp, hpe, hpb, hpq⟩)
        · exact Or.inl hx
        · rcases List.mem_cons.1 hp with hp | hp
          · rw [hp, hb] at hpb; exact absurd hpb (by simp)
          · exact Or.inr ⟨p, hp, hpe, hpb, hpq⟩
    · rw [if_neg hb]
      by_cases hq : q.2.any hasQuantile
      · rw [if_pos hq]
        constructor
        · rintro (hx | ⟨p, hp, hpe, hpb, hpq⟩)
          · exact Or.inl hx
          · exact Or.inr ⟨p, by simp [hp], hpe, hpb, hpq⟩
        · rintro (hx | ⟨p, hp, hpe, hpb, hpq⟩)
          · exact Or.inl hx
          · rcases List.mem_cons.1 hp with hp | hp
            · rw [hp, hq] at hpq; exact absurd hpq (by simp)
            · exact Or.inr ⟨p, hp, hpe, hpb, hpq⟩
      · rw [if_neg hq]
        simp only [mem_addUniq]
        constructor
        · rintro ((hx | hx) | ⟨p, hp, hpe, hpb, hpq⟩)
          · exact Or.inl hx
          · exact Or.inr ⟨q, by simp, hx.symm, by simpa using hb, by simpa using hq⟩
          · exact Or.inr ⟨p, by simp [hp], hpe, hpb, hpq⟩
        · rintro (hx | ⟨p, hp, hpe, hpb, hpq⟩)
          · exact Or.inl (Or.inl hx)
          · rcases List.mem_cons.1 hp with hp | hp
            · exact Or.inl (Or.inr (hp ▸ hpe).symm)
            · exact Or.inr ⟨p, hp, hpe, hpb, hpq⟩

theorem discFold_nodup (l : Metrics) :
    ∀ (acc : List String × List String × List String),
      acc.1.Nodup → acc.2.1.Nodup → acc.2.2.Nodup →
      (l.foldl discStep acc).1.Nodup ∧ (l.foldl discStep acc).2.1.Nodup ∧
        (l.foldl discStep acc).2.2.Nodup := by
  induction l with
  | nil => intro acc h1 h2 h3; exact ⟨h1, h2, h3⟩
  | cons q t ih =>
    intro acc h1 h2 h3
    rw [List.foldl_cons]
    unfold discStep
    by_cases hb : strEndsWith q.1 "_bucket"
    · rw [if_pos hb]
      exact ih _ (nodup_addUniq h1) h2 h3
    · rw [if_neg hb]
      by_cases hq : q.2.any hasQuantile
      · rw [if_pos hq]
        exact ih _ h1 (nodup_addUniq h2) h3
      · rw [if_neg hq]
        exact ih _ h1 h2 (nodup_addUniq h3)

theorem strLeB_total (a b : String) : strLeB a b = true ∨ strLeB b a = true := by
  unfold strLeB
  rcases le_total a b with h | h
  · exact Or.inl (by simpa using h)
  · exact Or.inr (by simpa using h)

/-- C7 (amended): discovery classifies a name ending in `_bucket` as a
histogram whose base name is the name with the *first occurrence* of
`_bucket` removed (which equals suffix-stripping whenever `_bucket` occurs
only once); a non-`_bucket` metric with a `quantile`-labelled sample is a
summary; everything else is a counter; the three lists are deduplicated and
sorted lexicographically. -/
theorem c7_discovery_classification (metrics : Metrics) :
    (∀ x, x ∈ (discoverDistributions metrics).histograms ↔
      ∃ p ∈ metrics, strEndsWith p.1 "_bucket" = true ∧
        x = jsReplaceFirst "_bucket" p.1) ∧
    (∀ x, x ∈ (discoverDistributions metrics).summaries ↔
      ∃ p ∈ metrics, p.1 = x ∧ strEndsWith p.1 "_bucket" = false ∧
        p.2.any hasQuantile = true) ∧
    (∀ x, x ∈ (discoverDistributions metrics).counters ↔
      ∃ p ∈ metrics, p.1 = x ∧ strEndsWith p.1 "_bucket" = false ∧
        p.2.any hasQuantile = false) ∧
    (discoverDistributions metrics).histograms.Nodup ∧
    (discoverDistributions metrics).summaries.Nodup ∧
    (discoverDistributions metrics).counters.Nodup ∧
    List.Chain' (fun a b : String => a ≤ b) (discoverDistributions metrics).histograms ∧
    List.Chain' (fun a b : String => a ≤ b) (discoverDistributions metrics).summaries ∧
    List.Chain' (fun a b : String => a ≤ b) (discoverDistributions metrics).counters := by
  have hnd := discFold_nodup metrics ([], [], []) (by simp) (by simp) (by simp)
  have hch : ∀ l : List String, List.Chain' (fun a b : String => a ≤ b) (sortBy strLeB l) := by
    intro l
    have := sortBy_chain strLeB strLeB_total l
    exact this.imp (fun h => by simpa [strLeB] using h)
  refine ⟨?_, ?_, ?_, sortBy_nodup _ hnd.1, sortBy_nodup _ hnd.2.1,
    sortBy_nodup _ hnd.2.2, hch _, hch _, hch _⟩
  · intro x
    unfold discoverDistributions
    rw [sortBy_mem]
    simpa using discFold_mem_hist metrics ([], [], []) x
  · intro x
    unfold discoverDistributions
    rw [sortBy_mem]
    simpa using discFold_mem_summ metrics ([], [], []) x
  · intro x
    unfold discoverDistributions
    rw [sortBy_mem]
    simpa using discFold_mem_ctr metrics ([], [], []) x

/-- C7 counterexample to the claim as frozen: for a metric name in which
`_bucket` occurs twice, the computed base name removes the *first*
occurrence, not the `_bucket` *suffix*. -/
theorem c7_first_occurrence_counterexample :
    (discoverDistributions
        [("x_bucket_y_bucket", [⟨[], .finite 1⟩])]).histograms = ["x_y_bucket"] ∧
    "x_y_bucket" ≠ "x_bucket_y" := by
  constructor
  · decide
  · decide

/-- Witness for C7 on a concrete snapshot exercising all three classes. -/
theorem c7_discovery_classification_witness :
    ("req_seconds" ∈ (discoverDistributions
        [("req_seconds_bucket", [⟨[("le", "0.5")], .finite 1⟩]),
         ("rpc_lat", [⟨[("quantile", "0.9")], .finite 2⟩]),
         ("up", [⟨[], .finite 1⟩])]).histograms) ∧
    ("rpc_lat" ∈ (discoverDistributions
        [("req_seconds_bucket", [⟨[("le", "0.5")], .finite 1⟩]),
         ("rpc_lat", [⟨[("quantile", "0.9")], .finite 2⟩]),
         ("up", [⟨[], .finite 1⟩])]).summaries) := by
  constructor
  · exact (c7_discovery_classification _).1 "req_seconds" |>.2
      ⟨("req_seconds_bucket", [⟨[("le", "0.5")], .finite 1⟩]), by simp, by decide, by decide⟩
  · exact (c7_discovery_classification _).2.1 "rpc_lat" |>.2
      ⟨("rpc_lat", [⟨[("quantile", "0.9")], .finite 2⟩]), by simp, rfl, by decide, by decide⟩

/-! ## Group keys and counter/gauge breakdown -/

/-- `getGroupKey(labels, groupBy)` of the source: `All` when no grouping is
requested; a synthesized `"method path"` combination for the special
`method + path` grouping; otherwise the (truthy) label value, with `Other`
for samples missing the label or carrying an empty value. -/
def getGroupKey (labels : List (String × String)) (groupBy : Option String) : String :=
  match groupBy with
  | none => "All"
  | some g =>
    if g = "method + path" then
      let m := (alookup "method" labels).getD ""
      let p := (alookup "path" labels).getD ""
      if m ≠ "" ∧ p ≠ "" then m ++ " " ++ p
      else if m ≠ "" then m
      else if p ≠ "" then p
      else "Other"
    else
      match alookup g labels with
      | some v => if v ≠ "" then v else "Other"
      | none => "Other"

/-- `groups[k] = (groups[k] || 0) + v` on a JS object. -/
def bumpVal (m : List (String × JsNum)) (k : String) (v : JsNum) :
    List (String × JsNum) :=
  match m with
  | [] => [(k, (JsNum.finite 0).add v)]
  | (k0, v0) :: t =>
    if k0 = k then (k0, (JsNum.jsOr v0 (.finite 0)).add v) :: t
    else (k0, v0) :: bumpVal t k v

/-- Sum the sample values of a series per key. -/
def sumByKey (keyf : Sample → String) (series : List Sample) :
    List (String × JsNum) :=
  series.foldl (fun m it => bumpVal m (keyf it) it.value) []

/-- `computeCounterBreakdown`: per-group-key value sums sorted descending by
value (stable). -/
def computeCounterBreakdown (metrics : Metrics) (metricName : String)
    (groupBy : Option String) : List (String × JsNum) :=
  match alookup metricName metrics with
  | none => []
  | some series =>
    sortBy (fun a b => JsNum.geb a.2 b.2)
      (sumByKey (fun it => getGroupKey it.labels groupBy) series)

theorem alookup_bumpVal_eq (m : List (String × JsNum)) (k : String) (v : JsNum) :
    alookup k (bumpVal m k v) =
      some ((JsNum.jsOr ((alookup k m).getD (.finite 0)) (.finite 0)).add v) := by
  induction m with
  | nil => simp [bumpVal, alookup, JsNum.jsOr, JsNum.truthy]
  | cons q t ih =>
    obtain ⟨k0, v0⟩ := q
    unfold bumpVal
    by_cases h : k0 = k
    · rw [if_pos h]
      subst h
      simp [alookup]
    · rw [if_neg h]
      simp only [alookup, if_neg h]
      exact ih

theorem alookup_bumpVal_ne (m : List (String × JsNum)) {k k' : String} (v : JsNum)
    (h : k' ≠ k) : alookup k (bumpVal m k' v) = alookup k m := by
  induction m with
  | nil => simp [bumpVal, alookup, h]
  | cons q t ih =>
    obtain ⟨k0, v0⟩ := q
    unfold bumpVal
    by_cases h0 : k0 = k'
    · rw [if_pos h0]
      subst h0
      simp [alookup, h]
    · rw [if_neg h0]
      simp only [alookup]
      by_cases hk : k0 = k
      · rw [if_pos hk, if_pos hk]
      · rw [if_neg hk, if_neg hk]
        exact ih

theorem bumpVal_keys (m : List (String × JsNum)) (k : String) (v : JsNum) :
    (bumpVal m k v).map Prod.fst =
      if k ∈ m.map Prod.fst then m.map Prod.fst else m.map Prod.fst ++ [k] := by
  induction m with
  | nil => simp [bumpVal]
  | cons q t ih =>
    obtain ⟨k0, v0⟩ := q
    unfold bumpVal
    by_cases h : k0 = k
    · rw [if_pos h]
      subst h
      simp
    · rw [if_neg h]
      simp only [List.map_cons, List.mem_cons]
      rw [ih]
      by_cases hm : k ∈ t.map Prod.fst
      · rw [if_pos hm, if_pos (Or.inr hm)]
      · rw [if_neg hm, if_neg (by rintro (hc | hc); exact h hc.symm; exact hm hc)]
        simp

theorem bumpVal_fin {m : List (String × JsNum)} {k : String} {v : JsNum}
    (hm : ∀ p ∈ m, p.2.isFinite = true) (hv : v.isFinite = true) :
    ∀ p ∈ bumpVal m k v, p.2.isFinite = true := by
  induction m with
  | nil =>
    intro p hp
    simp only [bumpVal, List.mem_singleton] at hp
    subst hp
    cases v with
    | finite q => simp [JsNum.add, JsNum.isFinite]
    | inf => simp [JsNum.isFinite] at hv
    | negInf => simp [JsNum.isFinite] at hv
    | nan => simp [JsNum.isFinite] at hv
  | cons q t ih =>
    intro p hp
    obtain ⟨k0, v0⟩ := q
    unfold bumpVal at hp
    by_cases h : k0 = k
    · rw [if_pos h] at hp
      rcases List.mem_cons.1 hp with hp | hp
      · subst hp
        have hv0 : v0.isFinite = true := hm (k0, v0) (by simp)
        cases v0 with
        | finite q0 =>
          cases v with
          | finite qv =>
            simp only [JsNum.jsOr]
            split <;> simp [JsNum.add, JsNum.isFinite]
          | inf => simp [JsNum.isFinite] at hv
          | negInf => simp [JsNum.isFinite] at hv
          | nan => simp [JsNum.isFinite] at hv
        | inf => simp [JsNum.isFinite] at hv0
        | negInf => simp [JsNum.isFinite] at hv0
        | nan => simp [JsNum.isFinite] at hv0
      · exact hm p (List.mem_cons_of_mem _ hp)
    · rw [if_neg h] at hp
      rcases List.mem_cons.1 hp with hp | hp
      · subst hp
        exact hm (k0, v0) (by simp)
      · exact ih (fun p hp => hm p (List.mem_cons_of_mem _ hp)) p hp

theorem jsOr_zero_toQ {x : JsNum} (h : x.isFinite = true) :
    (JsNum.jsOr x (.finite 0)).toQ = x.toQ ∧
      (JsNum.jsOr x (.finite 0)).isFinite = true := by
  cases x with
  | finite q =>
    unfold JsNum.jsOr
    by_cases hq : q = 0
    · subst hq; simp [JsNum.truthy, JsNum.toQ, JsNum.isFinite]
    · simp [JsNum.truthy, hq, JsNum.toQ, JsNum.isFinite]
  | inf => simp [JsNum.isFinite] at h
  | negInf => simp [JsNum.isFinite] at h
  | nan => simp [JsNum.isFinite] at h

theorem add_fin_toQ {a b : JsNum} (ha : a.isFinite = true) (hb : b.isFinite = true) :
    (a.add b).toQ = a.toQ + b.toQ ∧ (a.add b).isFinite = true := by
  cases a with
  | finite qa =>
    cases b with
    | finite qb => simp [JsNum.add, JsNum.toQ, JsNum.isFinite]
    | inf => simp [JsNum.isFinite] at hb
    | negInf => simp [JsNum.isFinite] at hb
    | nan => simp [JsNum.isFinite] at hb
  | inf => simp [JsNum.isFinite] at ha
  | negInf => simp [JsNum.isFinite] at ha
  | nan => simp [JsNum.isFinite] at ha

theorem alookup_getD_fin {acc : List (String × JsNum)}
    (hacc : ∀ p ∈ acc, p.2.isFinite = true) (g : String) :
    ((alookup g acc).getD (.finite 0)).isFinite = true := by
  induction acc with
  | nil => simp [alookup, JsNum.isFinite]
  | cons q t ih =>
    obtain ⟨k0, v0⟩ := q
    unfold alookup
    by_cases h : k0 = g
    · rw [if_pos h]
      exact hacc (k0, v0) (by simp)
    · rw [if_neg h]
      exact ih (fun p hp => hacc p (List.mem_cons_of_mem _ hp))

theorem alookup_of_mem_nodup {m : List (String × β)} {k : String} {v : β}
    (hnd : (m.map Prod.fst).Nodup) (hmem : (k, v) ∈ m) : alookup k m = some v := by
  induction m with
  | nil => simp at hmem
  | cons q t ih =>
    obtain ⟨k0, v0⟩ := q
    rcases List.mem_cons.1 hmem with hm | hm
    · injection hm with hk hv
      subst hk
      subst hv
      simp [alookup]
    · have hk : k0 ≠ k := by
        intro hc
        subst hc
        have hmt : k0 ∈ t.map Prod.fst := List.mem_map.2 ⟨(k0, v), hm, rfl⟩
        simp only [List.map_cons, List.nodup_cons] at hnd
        exact hnd.1 hmt
      simp only [alookup, if_neg hk]
      exact ih (by simp only [List.map_cons, List.nodup_cons] at hnd; exact hnd.2) hm

/-- The per-key sum that the claims describe: total of the values of the
samples whose group key is `g` (as an exact rational). -/
def specGroupSumQ (series : List Sample) (keyf : Sample → String) (g : String) : ℚ :=
  ((series.filter (fun it => keyf it = g)).map (fun it => it.value.toQ)).sum

theorem sumByKey_fold_toQ (keyf : Sample → String) (g : String) :
    ∀ (series : List Sample) (acc : List (String × JsNum)),
      (∀ s ∈ series, s.value.isFinite = true) →
      (∀ p ∈ acc, p.2.isFinite = true) →
      ((alookup g (series.foldl (fun m it => bumpVal m (keyf it) it.value) acc)).getD
          (.finite 0)).toQ
        = ((alookup g acc).getD (.finite 0)).toQ + specGroupSumQ series keyf g := by
  intro series
  induction series with
  | nil => intro acc _ _; simp [specGroupSumQ]
  | cons it t ih =>
    intro acc hser hacc
    have hvfin : it.value.isFinite = true := hser it (by simp)
    have hacc2 : ∀ p ∈ bumpVal acc (keyf it) it.value, p.2.isFinite = true :=
      bumpVal_fin hacc hvfin
    rw [List.foldl_cons, ih _ (fun s hs => hser s (by simp [hs])) hacc2]
    unfold specGroupSumQ
    by_cases hk : keyf it = g
    · rw [← hk, alookup_bumpVal_eq]
      have hprev := alookup_getD_fin hacc (keyf it)
      have h1 := jsOr_zero_toQ hprev
      have h2 := add_fin_toQ h1.2 hvfin
      simp only [Option.getD_some]
      rw [h2.1, h1.1]
      have hfilter : (it :: t).filter (fun x => keyf x = g) =
          it :: t.filter (fun x => keyf x = g) := by
        simp [List.filter_cons, hk]
      rw [hk, hfilter]
      simp only [List.map_cons, List.sum_cons]
      ring
    · rw [alookup_bumpVal_ne _ _ (fun hc => hk hc)]
      have hfilter : (it :: t).filter (fun x => keyf x = g) =
          t.filter (fun x => keyf x = g) := by
        simp [List.filter_cons, hk]
      rw [hfilter]

theorem sumByKey_fold_keys (keyf : Sample → String) :
    ∀ (series : List Sample) (acc : List (String × JsNum)) (x : String),
      x ∈ (series.foldl (fun m it => bumpVal m (keyf it) it.value) acc).map Prod.fst ↔
        x ∈ acc.map Prod.fst ∨ ∃ it ∈ series, keyf it = x := by
  intro series
  induction series with
  | nil => intro acc x; simp
  | cons it t ih =>
    intro acc x
    rw [List.foldl_cons, ih]
    rw [bumpVal_keys]
    by_cases hm : keyf it ∈ acc.map Prod.fst
    · rw [if_pos hm]
      constructor
      · rintro (hx | ⟨q, hq, hqe⟩)
        · exact Or.inl hx
        · exact Or.inr ⟨q, by simp [hq], hqe⟩
      · rintro (hx | ⟨q, hq, hqe⟩)
        · exact Or.inl hx
        · rcases List.mem_cons.1 hq with hq | hq
          · subst hq
            exact Or.inl (hqe ▸ hm)
          · exact Or.inr ⟨q, hq, hqe⟩
    · rw [if_neg hm]
      simp only [List.mem_append, List.mem_singleton]
      constructor
      · rintro ((hx | hx) | ⟨q, hq, hqe⟩)
        · exact Or.inl hx
        · exact Or.inr ⟨it, by simp, hx.symm⟩
        · exact Or.inr ⟨q, by simp [hq], hqe⟩
      · rintro (hx | ⟨q, hq, hqe⟩)
        · exact Or.inl (Or.inl hx)
        · rcases List.mem_cons.1 hq with hq | hq
          · exact Or.inl (Or.inr (hq ▸ hqe).symm)
          · exact Or.inr ⟨q, hq, hqe⟩

theorem bumpVal_keys_nodup {m : List (String × JsNum)} {k : String} {v : JsNum}
    (h : (m.map Prod.fst).Nodup) : ((bumpVal m k v).map Prod.fst).Nodup := by
  rw [bumpVal_keys]
  by_cases hm : k ∈ m.map Prod.fst
  · rwa [if_pos hm]
  · rw [if_neg hm]
    simp [List.nodup_append, h, hm]

theorem sumByKey_fold_nodup (keyf : Sample → String) :
    ∀ (series : List Sample) (acc : List (String × JsNum)),
      (acc.map Prod.fst).Nodup →
      ((series.foldl (fun m it => bumpVal m (keyf it) it.value) acc).map Prod.fst).Nodup := by
  intro series
  induction series with
  | nil => intro acc h; simpa using h
  | cons it t ih =>
    intro acc h
    rw [List.foldl_cons]
    exact ih _ (bumpVal_keys_nodup h)

theorem sumByKey_fold_fin (keyf : Sample → String) :
    ∀ (series : List Sample) (acc : List (String × JsNum)),
      (∀ s ∈ series, s.value.isFinite = true) →
      (∀ p ∈ acc, p.2.isFinite = true) →
      ∀ p ∈ series.foldl (fun m it => bumpVal m (keyf it) it.value) acc,
        p.2.isFinite = true := by
  intro series
  induction series with
  | nil => intro acc _ h; simpa using h
  | cons it t ih =>
    intro acc hser hacc
    rw [List.foldl_cons]
    exact ih _ (fun s hs => hser s (by simp [hs]))
      (bumpVal_fin hacc (hser it (by simp)))

theorem leb_total (a b : JsNum) : JsNum.leb a b = true ∨ JsNum.leb b a = true := by
  cases a <;> cases b <;> simp [JsNum.leb]
  exact le_total _ _

theorem chain_geb_toQ : ∀ {l : List (String × JsNum)},
    (∀ p ∈ l, p.2.isFinite = true) →
    List.Chain' (fun a b : String × JsNum => JsNum.geb a.2 b.2 = true) l →
    List.Chain' (fun a b : String × JsNum => b.2.toQ ≤ a.2.toQ) l := by
  intro l
  induction l with
  | nil => intro _ _; simp
  | cons a t ih =>
    intro hfin h
    cases t with
    | nil => simp
    | cons b t2 =>
      rw [List.chain'_cons] at h ⊢
      refine ⟨?_, ih (fun p hp => hfin p (List.mem_cons_of_mem _ hp)) h.2⟩
      have hfa : a.2.isFinite = true := hfin a (by simp)
      have hfb : b.2.isFinite = true := hfin b (by simp)
      have hg := h.1
      cases ha : a.2 with
      | finite qa =>
        cases hb : b.2 with
        | finite qb =>
          rw [ha, hb] at hg
          simp only [JsNum.geb, JsNum.leb, decide_eq_true_eq] at hg
          simp [JsNum.toQ, hg]
        | inf => rw [hb] at hfb; simp [JsNum.isFinite] at hfb
        | negInf => rw [hb] at hfb; simp [JsNum.isFinite] at hfb
        | nan => rw [hb] at hfb; simp [JsNum.isFinite] at hfb
      | inf => rw [ha] at hfa; simp [JsNum.isFinite] at hfa
      | negInf => rw [ha] at hfa; simp [JsNum.isFinite] at hfa
      | nan => rw [ha] at hfa; simp [JsNum.isFinite] at hfa

/-- C8 (amended): for a metric series with finite sample values, the
breakdown has one row per distinct group key — where the key follows
`getGroupKey`: the label's (non-empty) value, `Other` for samples missing
the label or with an empty value, `All` when no grouping is requested, and
the synthesized `"method path"` combination for the special
`method + path` grouping — each row's value is the exact sum of that
group's sample values, row names are distinct, and rows are sorted
descending by summed value. -/
theorem c8_counter_breakdown (metrics : Metrics) (name : String)
    (groupBy : Option String) (series : List Sample)
    (hser : alookup name metrics = some series)
    (hfin : ∀ s ∈ series, s.value.isFinite = true) :
    (∀ p ∈ computeCounterBreakdown metrics name groupBy,
      p.2 = .finite (specGroupSumQ series (fun it => getGroupKey it.labels groupBy) p.1)) ∧
    (∀ x, x ∈ (computeCounterBreakdown metrics name groupBy).map Prod.fst ↔
      ∃ it ∈ series, getGroupKey it.labels groupBy = x) ∧
    ((computeCounterBreakdown metrics name groupBy).map Prod.fst).Nodup ∧
    List.Chain' (fun a b : String × JsNum => b.2.toQ ≤ a.2.toQ)
      (computeCounterBreakdown metrics name groupBy) := by
  have hunf : computeCounterBreakdown metrics name groupBy =
      sortBy (fun a b => JsNum.geb a.2 b.2)
        (sumByKey (fun it => getGroupKey it.labels groupBy) series) := by
    unfold computeCounterBreakdown
    rw [hser]
  set keyf : Sample → String := fun it => getGroupKey it.labels groupBy with hkeyf
  have hperm := sortBy_perm (fun a b : String × JsNum => JsNum.geb a.2 b.2)
    (sumByKey keyf series)
  have hG_fin : ∀ p ∈ sumByKey keyf series, p.2.isFinite = true :=
    sumByKey_fold_fin keyf series [] hfin (by simp)
  have hG_nd : ((sumByKey keyf series).map Prod.fst).Nodup :=
    sumByKey_fold_nodup keyf series [] (by simp)
  have hval : ∀ p ∈ computeCounterBreakdown metrics name groupBy,
      p.2 = .finite (specGroupSumQ series keyf p.1) := by
    intro p hp
    rw [hunf] at hp
    have hpG : p ∈ sumByKey keyf series := hperm.subset hp
    obtain ⟨k, v⟩ := p
    have hlk : alookup k (sumByKey keyf series) = some v :=
      alookup_of_mem_nodup hG_nd hpG
    have htq := sumByKey_fold_toQ keyf k series [] hfin (by simp)
    unfold sumByKey at hlk
    rw [hlk] at htq
    have hvfin : v.isFinite = true := hG_fin (k, v) hpG
    simp only [Option.getD_some, alookup, JsNum.toQ] at htq
    cases v with
    | finite q => simpa [JsNum.toQ] using congrArg JsNum.finite htq
    | inf => simp [JsNum.isFinite] at hvfin
    | negInf => simp [JsNum.isFinite] at hvfin
    | nan => simp [JsNum.isFinite] at hvfin
  refine ⟨hval, ?_, ?_, ?_⟩
  · intro x
    rw [hunf]
    rw [(hperm.map Prod.fst).mem_iff]
    have := sumByKey_fold_keys keyf series [] x
    unfold sumByKey
    rw [this]
    simp
  · rw [hunf]
    exact ((hperm.map Prod.fst).nodup_iff).2 hG_nd
  · rw [hunf]
    refine chain_geb_toQ ?_ ?_
    · intro p hp
      exact hG_fin p (hperm.subset hp)
    · exact sortBy_chain (fun a b : String × JsNum => JsNum.geb a.2 b.2)
        (fun a b => leb_total b.2 a.2) _

/-- C8 counterexample to the claim as frozen: under the special
`method + path` grouping, a sample that lacks a label literally named
`method + path` is keyed by the synthesized `"GET /a"`, not by `Other`. -/
theorem c8_group_key_counterexample :
    computeCounterBreakdown
        [("http_requests_total", [⟨[("method", "GET"), ("path", "/a")], .finite 1⟩])]
        "http_requests_total" (some "method + path") = [("GET /a", .finite 1)] ∧
    "GET /a" ≠ "Other" := by
  constructor
  · simp +decide [computeCounterBreakdown, sumByKey, bumpVal, alookup, getGroupKey,
      sortBy, insertSorted, JsNum.geb, JsNum.leb, JsNum.jsOr, JsNum.truthy, JsNum.add]
  · decide

/-- Witness for C8 at the spec's concrete example: GET 10 / POST 5 grouped
by `method` gives rows GET then POST, sorted descending. -/
theorem c8_counter_breakdown_witness :
    computeCounterBreakdown
        [("http_requests_total",
          [⟨[("method", "GET")], .finite 10⟩, ⟨[("method", "POST")], .finite 5⟩])]
        "http_requests_total" (some "method") =
      [("GET", .finite 10), ("POST", .finite 5)] ∧
    List.Chain' (fun a b : String × JsNum => b.2.toQ ≤ a.2.toQ)
      (computeCounterBreakdown
        [("http_requests_total",
          [⟨[("method", "GET")], .finite 10⟩, ⟨[("method", "POST")], .finite 5⟩])]
        "http_requests_total" (some "method")) := by
  refine ⟨by simp +decide [computeCounterBreakdown, sumByKey, bumpVal, alookup, getGroupKey,
      sortBy, insertSorted, JsNum.geb, JsNum.leb, JsNum.jsOr, JsNum.truthy, JsNum.add], ?_⟩
  exact (c8_counter_breakdown _ "http_requests_total" (some "method")
    [⟨[("method", "GET")], .finite 10⟩, ⟨[("method", "POST")], .finite 5⟩]
    (by decide) (by decide)).2.2.2

/-! ## Exclusive histogram reconstruction (`computeHistogramData`) -/

/-- Parse a `le` label string: `+Inf` is `+∞`, otherwise `parseFloat`. -/
def parseLe (l : String) : JsNum :=
  if l = "+Inf" then .inf else jsParseFloatC l.data

/-- `l === Infinity ? '+Inf' : l.toString()`. -/
def leToStr (l : JsNum) : String :=
  if l = .inf then "+Inf" else numToStr l

/-- One reconstructed histogram row: range label, numeric `le`, the sort
index, and the per-group exclusive values (in group insertion order). -/
structure HRow where
  range : String
  le : JsNum
  sortIndex : ℕ
  vals : List (String × JsNum)
deriving DecidableEq, Repr

/-- `groups[groupKey][le] = (groups[groupKey][le] || 0) + value`, creating
the inner object if absent. -/
def bumpGroup (g : List (String × List (String × JsNum))) (k le : String)
    (v : JsNum) : List (String × List (String × JsNum)) :=
  match g with
  | [] => [(k, bumpVal [] le v)]
  | (k0, m) :: t =>
    if k0 = k then (k0, bumpVal m le v) :: t else (k0, m) :: bumpGroup t k le v

/-- The accumulation loop of `computeHistogramData`: per-(group, le)
cumulative sums plus the set of `le` strings in first-appearance order
(samples with a missing or empty `le` label are skipped). -/
def histAccum (series : List Sample) (groupBy : Option String) :
    List (String × List (String × JsNum)) × List String :=
  series.foldl
    (fun acc item =>
      match alookup "le" item.labels with
      | none => acc
      | some le =>
        if le = "" then acc
        else (bumpGroup acc.1 (getGroupKey item.labels groupBy) le item.value,
              addUniq acc.2 le))
    ([], [])

/-- The cumulative value the code reads for group `g` at the `le` string
`leS`: `groups[g][leS] || 0`. -/
def cumAt (groups : List (String × List (String × JsNum))) (g leS : String) :
    JsNum :=
  JsNum.jsOr ((alookup leS ((alookup g groups).getD [])).getD (.finite 0))
    (.finite 0)

/-- One group's exclusive value for a row:
`Math.max(0, (groups[g][leStr] || 0) - (idx > 0 ? groups[g][prevLeStr] || 0 : 0))`
(`prev = none` encodes `idx = 0`). -/
def rowVal (gp2 : List (String × JsNum)) (leS : String) (prev : Option String) :
    JsNum :=
  (JsNum.finite 0).max2
    ((JsNum.jsOr ((alookup leS gp2).getD (.finite 0)) (.finite 0)).sub
      (match prev with
      | none => .finite 0
      | some ps => JsNum.jsOr ((alookup ps gp2).getD (.finite 0)) (.finite 0)))

/-- The row-building loop of `computeHistogramData`: one row per sorted
`le`, carrying `max(0, cumulative - previous cumulative)` per group. -/
def histRowsAux (groups : List (String × List (String × JsNum))) :
    ℕ → Option String → List (JsNum × String) → List HRow
  | _, _, [] => []
  | idx, prev, (leV, leS) :: rest =>
    let prevLeLabel := prev.getD "0"
    let range :=
      if leV = .inf then "> " ++ prevLeLabel ++ "s"
      else if idx = 0 then "< " ++ leS ++ "s"
      else prevLeLabel ++ "-" ++ leS ++ "s"
    let vals := groups.map (fun gp => (gp.1, rowVal gp.2 leS prev))
    ⟨range, leV, idx, vals⟩ :: histRowsAux groups (idx + 1) (some leS) rest

/-- The per-(group, le) cumulative sums of a histogram series. -/
def histGroups (series : List Sample) (groupBy : Option String) :
    List (String × List (String × JsNum)) :=
  (histAccum series groupBy).1

/-- The parsed distinct `le` values, sorted ascending by the numeric
comparator. -/
def histSortedLe (series : List Sample) (groupBy : Option String) : List JsNum :=
  sortBy JsNum.leb ((histAccum series groupBy).2.map parseLe)

/-- `computeHistogramData`: cumulative-to-exclusive reconstruction of a
histogram's buckets, rows with every group zero dropped. -/
def computeHistogramData (metrics : Metrics) (baseName : String)
    (groupBy : Option String) : List HRow × List String :=
  match alookup (baseName ++ "_bucket") metrics with
  | none => ([], [])
  | some series =>
    let groups := histGroups series groupBy
    let sortedLe := histSortedLe series groupBy
    let rows := histRowsAux groups 0 none
      (sortedLe.zip (sortedLe.map leToStr))
    (rows.filter (fun r => (groups.map Prod.fst).any
        (fun k => JsNum.gtb ((alookup k r.vals).getD (.finite 0)) (.finite 0))),
     groups.map Prod.fst)

/-- A `le` label string is canonical when it is `+Inf` or parses to a finite
number whose JS string form is the string itself (true of every `le` string
a real exporter emits, e.g. `0.1`, `5`, `2.5`). -/
def leCanon (l : String) : Bool :=
  l = "+Inf" ∨ ((jsParseFloatC l.data).isFinite ∧ numToStr (jsParseFloatC l.data) = l)

/-- Sum of a group's values over the finite-`le` rows. -/
def histRowSumQ (g : String) (rows : List HRow) : ℚ :=
  ((rows.filter (fun r => r.le ≠ JsNum.inf)).map
    (fun r => ((alookup g r.vals).getD (.finite 0)).toQ)).sum

/-- The group's cumulative values along the finite sorted `le` values. -/
def finCumsQ (groups : List (String × List (String × JsNum))) (g : String)
    (lvs : List JsNum) : List ℚ :=
  (lvs.filter (fun v => v ≠ JsNum.inf)).map (fun v => (cumAt groups g (leToStr v)).toQ)

theorem leCanon_roundtrip {l : String} (h : leCanon l = true) :
    leToStr (parseLe l) = l ∧ parseLe l ≠ .nan := by
  unfold leCanon at h
  simp only [Bool.or_eq_true, decide_eq_true_eq, Bool.and_eq_true] at h
  rcases h with h | ⟨h1, h2⟩
  · subst h
    constructor
    · simp [parseLe, leToStr]
    · simp [parseLe]
  · have hne : l ≠ "+Inf" := by
      intro hc
      subst hc
      revert h1
      decide
    unfold parseLe leToStr
    rw [if_neg hne]
    cases hp : jsParseFloatC l.data with
    | finite q =>
      constructor
      · rw [if_neg (by simp)]
        rw [hp] at h2
        simpa using h2
      · simp
    | inf => rw [hp] at h1; simp [JsNum.isFinite] at h1
    | negInf => rw [hp] at h1; simp [JsNum.isFinite] at h1
    | nan => rw [hp] at h1; simp [JsNum.isFinite] at h1

/-! ### Facts about the histogram accumulation -/

theorem bumpGroup_fin {g : List (String × List (String × JsNum))} {k le : String}
    {v : JsNum} (hg : ∀ gp ∈ g, ∀ p ∈ gp.2, p.2.isFinite = true)
    (hv : v.isFinite = true) :
    ∀ gp ∈ bumpGroup g k le v, ∀ p ∈ gp.2, p.2.isFinite = true := by
  induction g with
  | nil =>
    intro gp hgp p hp
    simp only [bumpGroup, List.mem_singleton] at hgp
    subst hgp
    exact bumpVal_fin (by simp) hv p hp
  | cons q t ih =>
    intro gp hgp p hp
    obtain ⟨k0, m⟩ := q
    unfold bumpGroup at hgp
    by_cases hk : k0 = k
    · rw [if_pos hk] at hgp
      rcases List.mem_cons.1 hgp with hm | hm
      · subst hm
        exact bumpVal_fin (fun p hp => hg (k0, m) (by simp) p hp) hv p hp
      · exact hg gp (List.mem_cons_of_mem _ hm) p hp
    · rw [if_neg hk] at hgp
      rcases List.mem_cons.1 hgp with hm | hm
      · subst hm
        exact hg (k0, m) (by simp) p hp
      · exact ih (fun gp hgp => hg gp (List.mem_cons_of_mem _ hgp)) gp hm p hp

theorem histAccum_fin (groupBy : Option String) :
    ∀ (series : List Sample)
      (acc : List (String × List (String × JsNum)) × List String),
      (∀ s ∈ series, s.value.isFinite = true) →
      (∀ gp ∈ acc.1, ∀ p ∈ gp.2, p.2.isFinite = true) →
      ∀ gp ∈ (series.foldl
        (fun acc item =>
          match alookup "le" item.labels with
          | none => acc
          | some le =>
            if le = "" then acc
            else (bumpGroup acc.1 (getGroupKey item.labels groupBy) le item.value,
                  addUniq acc.2 le)) acc).1, ∀ p ∈ gp.2, p.2.isFinite = true := by
  intro series
  induction series with
  | nil => intro acc _ h; simpa using h
  | cons it t ih =>
    intro acc hser hacc
    rw [List.foldl_cons]
    cases hle : alookup "le" it.labels with
    | none =>
      exact ih acc (fun s hs => hser s (by simp [hs])) hacc
    | some le =>
      by_cases he : le = ""
      · simp only [he, if_true]
        exact ih acc (fun s hs => hser s (by simp [hs])) hacc
      · simp only [if_neg he]
        exact ih _ (fun s hs => hser s (by simp [hs]))
          (bumpGroup_fin hacc (hser it (by simp)))

theorem histAccum_les (groupBy : Option String) :
    ∀ (series : List Sample)
      (acc : List (String × List (String × JsNum)) × List String),
      (∀ x, x ∈ (series.foldl
        (fun acc item =>
          match alookup "le" item.labels with
          | none => acc
          | some le =>
            if le = "" then acc
            else (bumpGroup acc.1 (getGroupKey item.labels groupBy) le item.value,
                  addUniq acc.2 le)) acc).2 ↔
        x ∈ acc.2 ∨ ∃ s ∈ series, alookup "le" s.labels = some x ∧ x ≠ "") ∧
      (acc.2.Nodup → (series.foldl
        (fun acc item =>
          match alookup "le" item.labels with
          | none => acc
          | some le =>
            if le = "" then acc
            else (bumpGroup acc.1 (getGroupKey item.labels groupBy) le item.value,
                  addUniq acc.2 le)) acc).2.Nodup) := by
  intro series
  induction series with
  | nil =>
    intro acc
    constructor
    · intro x; simp
    · intro h; simpa using h
  | cons it t ih =>
    intro acc
    rw [List.foldl_cons]
    cases hle : alookup "le" it.labels with
    | none =>
      constructor
      · intro x
        rw [(ih acc).1]
        constructor
        · rintro (hx | ⟨s, hs, hsx, hne⟩)
          · exact Or.inl hx
          · exact Or.inr ⟨s, by simp [hs], hsx, hne⟩
        · rintro (hx | ⟨s, hs, hsx, hne⟩)
          · exact Or.inl hx
          · rcases List.mem_cons.1 hs with hs | hs
            · rw [hs] at hsx; rw [hsx] at hle; exact absurd hle (by simp)
            · exact Or.inr ⟨s, hs, hsx, hne⟩
      · exact (ih acc).2
    | some le =>
      by_cases he : le = ""
      · simp only [he, if_true]
        constructor
        · intro x
          rw [(ih acc).1]
          constructor
          · rintro (hx | ⟨s, hs, hsx, hne⟩)
            · exact Or.inl hx
            · exact Or.inr ⟨s, by simp [hs], hsx, hne⟩
          · rintro (hx | ⟨s, hs, hsx, hne⟩)
            · exact Or.inl hx
            · rcases List.mem_cons.1 hs with hs | hs
              · rw [hs] at hsx; rw [hsx] at hle
                injection hle with hle2
                exact absurd (he ▸ hle2) hne
              · exact Or.inr ⟨s, hs, hsx, hne⟩
        · exact (ih acc).2
      · simp only [if_neg he]
        constructor
        · intro x
          rw [(ih _).1]
          simp only [mem_addUniq]
          constructor
          · rintro ((hx | hx) | ⟨s, hs, hsx, hne⟩)
            · exact Or.inl hx
            · exact Or.inr ⟨it, by simp, hx ▸ hle, hx ▸ he⟩
            · exact Or.inr ⟨s, by simp [hs], hsx, hne⟩
          · rintro (hx | ⟨s, hs, hsx, hne⟩)
            · exact Or.inl (Or.inl hx)
            · rcases List.mem_cons.1 hs with hs | hs
              · rw [hs] at hsx; rw [hsx] at hle
                injection hle with hle2
                exact Or.inl (Or.inr hle2)
              · exact Or.inr ⟨s, hs, hsx, hne⟩
        · intro hnd
          exact (ih _).2 (nodup_addUniq hnd)

/-! ### Facts about the sorted `le` list -/

theorem chain'_and {R S : α → α → Prop} : ∀ {l : List α},
    List.Chain' R l → List.Chain' S l →
    List.Chain' (fun a b => R a b ∧ S a b) l := by
  intro l
  induction l with
  | nil => intro _ _; simp
  | cons a t ih =>
    intro hr hs
    cases t with
    | nil => simp
    | cons b t2 =>
      rw [List.chain'_cons] at hr hs ⊢
      exact ⟨⟨hr.1, hs.1⟩, ih hr.2 hs.2⟩

theorem chain'_imp_mem {R S : α → α → Prop} : ∀ {l : List α},
    (∀ a ∈ l, ∀ b ∈ l, R a b → S a b) → List.Chain' R l → List.Chain' S l := by
  intro l
  induction l with
  | nil => intro _ _; simp
  | cons a t ih =>
    intro h hc
    cases t with
    | nil => simp
    | cons b t2 =>
      rw [List.chain'_cons] at hc ⊢
      refine ⟨h a (by simp) b (by simp) hc.1, ?_⟩
      exact ih (fun x hx y hy => h x (by simp [hx]) y (by simp [hy])) hc.2

theorem ltb_of_leb_ne {a b : JsNum} (ha : a ≠ .nan) (hb : b ≠ .nan)
    (hle : JsNum.leb a b = true) (hne : a ≠ b) : JsNum.ltb a b = true := by
  cases a with
  | finite qa =>
    cases b with
    | finite qb =>
      simp only [JsNum.leb, decide_eq_true_eq] at hle
      have hq : qa ≠ qb := by
        intro hc; exact hne (by rw [hc])
      simp only [JsNum.ltb, decide_eq_true_eq]
      exact lt_of_le_of_ne hle hq
    | inf => simp [JsNum.ltb]
    | negInf => simp [JsNum.leb] at hle
    | nan => exact absurd rfl hb
  | inf =>
    cases b with
    | finite qb => simp [JsNum.leb] at hle
    | inf => exact absurd rfl hne
    | negInf => simp [JsNum.leb] at hle
    | nan => exact absurd rfl hb
  | negInf =>
    cases b with
    | finite qb => simp [JsNum.ltb]
    | inf => simp [JsNum.ltb]
    | negInf => exact absurd rfl hne
    | nan => exact absurd rfl hb
  | nan => exact absurd rfl ha

theorem ltb_inf_false (b : JsNum) : JsNum.ltb .inf b = false := by
  cases b <;> rfl

/-- The sorted `le` list of a histogram with canonical `le` strings:
every member is non-`NaN` and `leToStr` round-trips, the list is
duplicate-free, strictly ascending, and any `+∞` can only sit at the very
end. -/
theorem histSortedLe_props (series : List Sample) (groupBy : Option String)
    (hcanon : ∀ s ∈ series, ∀ le, alookup "le" s.labels = some le → le ≠ "" →
      leCanon le = true) :
    (∀ x ∈ histSortedLe series groupBy, x ≠ .nan ∧
      parseLe (leToStr x) = x ∧ leToStr x ∈ (histAccum series groupBy).2) ∧
    (histSortedLe series groupBy).Nodup ∧
    List.Chain' (fun a b => JsNum.ltb a b = true) (histSortedLe series groupBy) ∧
    (∀ (i : Fin (histSortedLe series groupBy).length),
      (i : ℕ) + 1 < (histSortedLe series groupBy).length →
      (histSortedLe series groupBy).get i ≠ .inf) := by
  have hmemles : ∀ le ∈ (histAccum series groupBy).2, leCanon le = true := by
    intro le hle
    have := ((histAccum_les groupBy series ([], [])).1 le).1 hle
    rcases this with h | ⟨s, hs, hsx, hne⟩
    · simp at h
    · exact hcanon s hs le hsx hne
  have hmem : ∀ x ∈ histSortedLe series groupBy, x ≠ .nan ∧
      parseLe (leToStr x) = x ∧ leToStr x ∈ (histAccum series groupBy).2 := by
    intro x hx
    unfold histSortedLe at hx
    rw [sortBy_mem] at hx
    obtain ⟨le, hle, hpx⟩ := List.mem_map.1 hx
    have hc := hmemles le hle
    obtain ⟨hround, hnn⟩ := leCanon_roundtrip hc
    subst hpx
    rw [hround]
    exact ⟨hnn, rfl, hle⟩
  have hinj : ∀ x ∈ (histAccum series groupBy).2,
      ∀ y ∈ (histAccum series groupBy).2, parseLe x = parseLe y → x = y := by
    intro x hx y hy hxy
    have hrx := (leCanon_roundtrip (hmemles x hx)).1
    have hry := (leCanon_roundtrip (hmemles y hy)).1
    rw [← hrx, ← hry, hxy]
  have hnd : (histSortedLe series groupBy).Nodup := by
    unfold histSortedLe
    apply sortBy_nodup
    exact List.Nodup.map_on hinj
      ((histAccum_les groupBy series ([], [])).2 (by simp))
  have hchain : List.Chain' (fun a b => JsNum.ltb a b = true)
      (histSortedLe series groupBy) := by
    have hle : List.Chain' (fun a b => JsNum.leb a b = true)
        (histSortedLe series groupBy) :=
      sortBy_chain JsNum.leb leb_total _
    have hne : List.Chain' (fun a b : JsNum => a ≠ b) (histSortedLe series groupBy) :=
      List.Pairwise.chain' hnd
    have hand := chain'_and hle hne
    refine chain'_imp_mem ?_ hand
    intro a ha b hb hab
    exact ltb_of_leb_ne (hmem a ha).1 (hmem b hb).1 hab.1 hab.2
  refine ⟨hmem, hnd, hchain, ?_⟩
  intro i hi
  intro hc
  have hget := List.chain'_iff_get.1 hchain i (by omega)
  rw [hc] at hget
  rw [ltb_inf_false] at hget
  exact absurd hget (by simp)

/-! ### Facts about the reconstructed rows -/

theorem sub_fin {a b : JsNum} (ha : a.isFinite = true) (hb : b.isFinite = true) :
    a.sub b = .finite (a.toQ - b.toQ) := by
  cases a with
  | finite qa =>
    cases b with
    | finite qb => simp [JsNum.sub, JsNum.toQ]
    | inf => simp [JsNum.isFinite] at hb
    | negInf => simp [JsNum.isFinite] at hb
    | nan => simp [JsNum.isFinite] at hb
  | inf => simp [JsNum.isFinite] at ha
  | negInf => simp [JsNum.isFinite] at ha
  | nan => simp [JsNum.isFinite] at ha

theorem max2_zero_finite (x : ℚ) :
    (JsNum.finite 0).max2 (.finite x) = .finite (max 0 x) := rfl

theorem cumLookup_fin {m : List (String × JsNum)}
    (hm : ∀ p ∈ m, p.2.isFinite = true) (s : String) :
    (JsNum.jsOr ((alookup s m).getD (.finite 0)) (.finite 0)).isFinite = true :=
  (jsOr_zero_toQ (alookup_getD_fin hm s)).2

theorem alookup_map_snd (l : List (String × β)) (f : β → γ) (k : String) :
    alookup k (l.map (fun gp => (gp.1, f gp.2))) = (alookup k l).map f := by
  induction l with
  | nil => simp [alookup]
  | cons q t ih =>
    obtain ⟨k0, v0⟩ := q
    simp only [List.map_cons, alookup]
    by_cases h : k0 = k
    · rw [if_pos h, if_pos h]
      rfl
    · rw [if_neg h, if_neg h]
      exact ih

theorem alookup_mem {l : List (String × β)} {k : String} {v : β}
    (h : alookup k l = some v) : (k, v) ∈ l := by
  induction l with
  | nil => simp [alookup] at h
  | cons q t ih =>
    obtain ⟨k0, v0⟩ := q
    unfold alookup at h
    by_cases hk : k0 = k
    · rw [if_pos hk] at h
      injection h with hv
      subst hk
      subst hv
      exact List.mem_cons_self _ _
    · rw [if_neg hk] at h
      exact List.mem_cons_of_mem _ (ih h)

theorem rowVal_fin_nonneg {gp2 : List (String × JsNum)}
    (hm : ∀ q ∈ gp2, q.2.isFinite = true) (leS : String) (prev : Option String) :
    (rowVal gp2 leS prev).isFinite = true ∧ 0 ≤ (rowVal gp2 leS prev).toQ := by
  unfold rowVal
  have hcur := cumLookup_fin hm leS
  have hpv : (match prev with
      | none => JsNum.finite 0
      | some ps => JsNum.jsOr ((alookup ps gp2).getD (.finite 0))
          (.finite 0)).isFinite = true := by
    cases prev with
    | none => simp [JsNum.isFinite]
    | some ps => exact cumLookup_fin hm ps
  rw [sub_fin hcur hpv, max2_zero_finite]
  simp [JsNum.isFinite, JsNum.toQ]

theorem histRows_vals_nonneg {groups : List (String × List (String × JsNum))}
    (hg : ∀ gp ∈ groups, ∀ p ∈ gp.2, p.2.isFinite = true) :
    ∀ (les : List (JsNum × String)) (idx : ℕ) (prev : Option String),
      ∀ r ∈ histRowsAux groups idx prev les, ∀ p ∈ r.vals,
        p.2.isFinite = true ∧ 0 ≤ p.2.toQ := by
  intro les
  induction les with
  | nil => intro idx prev r hr; simp [histRowsAux] at hr
  | cons lv rest ih =>
    intro idx prev r hr p hp
    obtain ⟨leV, leS⟩ := lv
    simp only [histRowsAux, List.mem_cons] at hr
    rcases hr with hr | hr
    · subst hr
      simp only at hp
      obtain ⟨gp, hgp, hpe⟩ := List.mem_map.1 hp
      subst hpe
      exact rowVal_fin_nonneg (fun q hq => hg gp hgp q hq) leS prev
    · exact ih (idx + 1) (some leS) r hr p hp

theorem rowVal_toQ {groups : List (String × List (String × JsNum))} {g : String}
    (hg : ∀ gp ∈ groups, ∀ p ∈ gp.2, p.2.isFinite = true)
    (leS : String) (prev : Option String) (prevQ : ℚ)
    (hprev : (prev = none ∧ prevQ = 0) ∨
      (∃ ps, prev = some ps ∧ prevQ = (cumAt groups g ps).toQ)) :
    ((alookup g (groups.map (fun gp => (gp.1, rowVal gp.2 leS prev)))).getD
        (.finite 0)).toQ
      = max 0 ((cumAt groups g leS).toQ - prevQ) := by
  rw [alookup_map_snd groups (fun m => rowVal m leS prev) g]
  cases hlg : alookup g groups with
  | none =>
    have hcur0 : (cumAt groups g leS).toQ = 0 := by
      unfold cumAt
      rw [hlg]
      simp [alookup, JsNum.jsOr, JsNum.truthy, JsNum.toQ]
    have hprev0 : prevQ = 0 := by
      rcases hprev with ⟨-, hp⟩ | ⟨ps, -, hp⟩
      · exact hp
      · rw [hp]
        unfold cumAt
        rw [hlg]
        simp [alookup, JsNum.jsOr, JsNum.truthy, JsNum.toQ]
    rw [hcur0, hprev0]
    simp [JsNum.toQ]
  | some m =>
    have hmfin : ∀ q ∈ m, q.2.isFinite = true :=
      fun q hq => hg (g, m) (alookup_mem hlg) q hq
    have hred : ((some m).map (fun m => rowVal m leS prev)).getD (.finite 0) =
        rowVal m leS prev := rfl
    rw [hred]
    unfold rowVal
    have hcur := cumLookup_fin hmfin leS
    have hcureq : (cumAt groups g leS) =
        JsNum.jsOr ((alookup leS m).getD (.finite 0)) (.finite 0) := by
      unfold cumAt
      rw [hlg]
      rfl
    have hpv : (match prev with
        | none => JsNum.finite 0
        | some ps => JsNum.jsOr ((alookup ps m).getD (.finite 0))
            (.finite 0)).isFinite = true ∧
        (match prev with
        | none => JsNum.finite 0
        | some ps => JsNum.jsOr ((alookup ps m).getD (.finite 0))
            (.finite 0)).toQ = prevQ := by
      rcases hprev with ⟨hp, hq⟩ | ⟨ps, hp, hq⟩
      · subst hp
        simp [JsNum.isFinite, JsNum.toQ, hq]
      · subst hp
        refine ⟨cumLookup_fin hmfin ps, ?_⟩
        rw [hq]
        unfold cumAt
        rw [hlg]
        rfl
    rw [sub_fin hcur hpv.1, max2_zero_finite]
    rw [hcureq, hpv.2]
    simp [JsNum.toQ]

theorem histRowSumQ_cons_fin {g : String} {r : HRow} {t : List HRow}
    (hne : r.le ≠ JsNum.inf) :
    histRowSumQ g (r :: t) =
      ((alookup g r.vals).getD (.finite 0)).toQ + histRowSumQ g t := by
  unfold histRowSumQ
  rw [List.filter_cons]
  simp [hne]

theorem histRowSumQ_cons_inf {g : String} {r : HRow} {t : List HRow}
    (hinf : r.le = JsNum.inf) :
    histRowSumQ g (r :: t) = histRowSumQ g t := by
  unfold histRowSumQ
  rw [List.filter_cons]
  simp [hinf]

theorem histRows_sum {groups : List (String × List (String × JsNum))} (g : String)
    (hg : ∀ gp ∈ groups, ∀ p ∈ gp.2, p.2.isFinite = true) :
    ∀ (lvs : List JsNum) (idx : ℕ) (prev : Option String) (prevQ : ℚ),
      List.Chain' (fun a b => JsNum.ltb a b = true) lvs →
      ((prev = none ∧ prevQ = 0) ∨
        (∃ ps, prev = some ps ∧ prevQ = (cumAt groups g ps).toQ)) →
      List.Chain' (· ≤ ·) (prevQ :: finCumsQ groups g lvs) →
      histRowSumQ g (histRowsAux groups idx prev (lvs.zip (lvs.map leToStr)))
        = (prevQ :: finCumsQ groups g lvs).getLast (List.cons_ne_nil _ _) - prevQ := by
  intro lvs
  induction lvs with
  | nil =>
    intro idx prev prevQ _ _ _
    simp [histRowsAux, histRowSumQ, finCumsQ]
  | cons v rest ih =>
    intro idx prev prevQ hchain hprev hmono
    rw [List.map_cons, List.zip_cons_cons]
    simp only [histRowsAux]
    by_cases hvinf : v = JsNum.inf
    · subst hvinf
      have hrest : rest = [] := by
        cases rest with
        | nil => rfl
        | cons r0 t0 =>
          rw [List.chain'_cons] at hchain
          rw [ltb_inf_false] at hchain
          exact absurd hchain.1 (by simp)
      subst hrest
      rw [histRowSumQ_cons_inf rfl]
      simp only [List.map_nil, List.zip_nil_right, histRowsAux]
      unfold histRowSumQ finCumsQ
      simp
    · have hfc : finCumsQ groups g (v :: rest) =
          (cumAt groups g (leToStr v)).toQ :: finCumsQ groups g rest := by
        unfold finCumsQ
        rw [List.filter_cons]
        simp [hvinf]
      rw [histRowSumQ_cons_fin hvinf]
      have hmono2 : prevQ ≤ (cumAt groups g (leToStr v)).toQ ∧
          List.Chain' (· ≤ ·)
            ((cumAt groups g (leToStr v)).toQ :: finCumsQ groups g rest) := by
        rw [hfc] at hmono
        exact List.chain'_cons.1 hmono
      have hrv := rowVal_toQ hg (leToStr v) prev prevQ hprev
      simp only at hrv
      rw [hrv]
      have hrec := ih (idx + 1) (some (leToStr v)) ((cumAt groups g (leToStr v)).toQ)
        (List.Chain'.tail hchain) (Or.inr ⟨leToStr v, rfl, rfl⟩) hmono2.2
      rw [hrec, hfc]
      have hmax : max 0 ((cumAt groups g (leToStr v)).toQ - prevQ)
          = (cumAt groups g (leToStr v)).toQ - prevQ :=
        max_eq_right (by linarith [hmono2.1])
      rw [hmax]
      rw [List.getLast_cons (List.cons_ne_nil _ _)]
      ring

theorem alookup_none_of_not_mem {l : List (String × β)} {k : String}
    (h : k ∉ l.map Prod.fst) : alookup k l = none := by
  induction l with
  | nil => rfl
  | cons q t ih =>
    obtain ⟨k0, v0⟩ := q
    simp only [List.map_cons, List.mem_cons] at h
    push_neg at h
    unfold alookup
    rw [if_neg (fun hc => h.1 hc.symm)]
    exact ih h.2

theorem alookup_isSome_of_mem_keys {l : List (String × β)} {k : String}
    (h : k ∈ l.map Prod.fst) : ∃ v, alookup k l = some v := by
  induction l with
  | nil => simp at h
  | cons q t ih =>
    obtain ⟨k0, v0⟩ := q
    unfold alookup
    by_cases hk : k0 = k
    · exact ⟨v0, by rw [if_pos hk]⟩
    · rw [if_neg hk]
      simp only [List.map_cons, List.mem_cons] at h
      rcases h with h | h
      · exact absurd h.symm hk
      · exact ih h

theorem gtb_false_toQ {v : JsNum} (hfin : v.isFinite = true) (hge : 0 ≤ v.toQ)
    (hgt : JsNum.gtb v (.finite 0) = false) : v.toQ = 0 := by
  cases v with
  | finite q =>
    simp only [JsNum.gtb, JsNum.ltb, decide_eq_false_iff_not] at hgt
    simp only [JsNum.toQ] at hge ⊢
    linarith [not_lt.1 hgt]
  | inf => simp [JsNum.isFinite] at hfin
  | negInf => simp [JsNum.isFinite] at hfin
  | nan => simp [JsNum.isFinite] at hfin

theorem histRows_vals_shape {groups : List (String × List (String × JsNum))} :
    ∀ (les : List (JsNum × String)) (idx : ℕ) (prev : Option String),
      ∀ r ∈ histRowsAux groups idx prev les,
        ∃ leS pv, r.vals = groups.map (fun gp => (gp.1, rowVal gp.2 leS pv)) := by
  intro les
  induction les with
  | nil => intro idx prev r hr; simp [histRowsAux] at hr
  | cons lv rest ih =>
    intro idx prev r hr
    obtain ⟨leV, leS⟩ := lv
    simp only [histRowsAux, List.mem_cons] at hr
    rcases hr with hr | hr
    · exact ⟨leS, prev, by rw [hr]⟩
    · exact ih (idx + 1) (some leS) r hr

theorem histRowSumQ_filter {g : String} {keep : HRow → Bool} :
    ∀ {rows : List HRow},
      (∀ r ∈ rows, keep r = false →
        ((alookup g r.vals).getD (.finite 0)).toQ = 0) →
      histRowSumQ g (rows.filter keep) = histRowSumQ g rows := by
  intro rows
  induction rows with
  | nil => intro _; rfl
  | cons r t ih =>
    intro h
    rw [List.filter_cons]
    by_cases hk : keep r
    · rw [if_pos hk]
      by_cases hinf : r.le = JsNum.inf
      · rw [histRowSumQ_cons_inf hinf, histRowSumQ_cons_inf hinf]
        exact ih (fun r2 hr2 => h r2 (List.mem_cons_of_mem _ hr2))
      · rw [histRowSumQ_cons_fin hinf, histRowSumQ_cons_fin hinf,
          ih (fun r2 hr2 => h r2 (List.mem_cons_of_mem _ hr2))]
    · rw [if_neg hk]
      have hz := h r (by simp) (by simpa using hk)
      by_cases hinf : r.le = JsNum.inf
      · rw [histRowSumQ_cons_inf hinf]
        exact ih (fun r2 hr2 => h r2 (List.mem_cons_of_mem _ hr2))
      · rw [histRowSumQ_cons_fin hinf, hz,
          ih (fun r2 hr2 => h r2 (List.mem_cons_of_mem _ hr2))]
        ring

/-- C4 (amended): for a histogram bucket series whose sample values are
finite and whose `le` strings are canonical, the reconstruction sorts the
distinct `le` values strictly ascending with `+Infinity` only in last
position; every reconstructed group value is finite and non-negative
(being `max(0, cumulative(i) - cumulative(i-1))` with `cumulative(-1) = 0`);
and for every group whose cumulative lookups along the ascending finite
`le` values are non-decreasing starting from 0 (as for well-formed
cumulative histogram data), the sum of the group's values over the
finite-`le` rows equals the cumulative count at the largest finite `le`. -/
theorem c4_histogram_reconstruction (metrics : Metrics) (baseName : String)
    (groupBy : Option String) (series : List Sample)
    (hser : alookup (baseName ++ "_bucket") metrics = some series)
    (hfin : ∀ s ∈ series, s.value.isFinite = true)
    (hcanon : ∀ s ∈ series, ∀ le, alookup "le" s.labels = some le → le ≠ "" →
      leCanon le = true) :
    List.Chain' (fun a b => JsNum.ltb a b = true) (histSortedLe series groupBy) ∧
    (∀ (i : Fin (histSortedLe series groupBy).length),
      (i : ℕ) + 1 < (histSortedLe series groupBy).length →
      (histSortedLe series groupBy).get i ≠ .inf) ∧
    (∀ r ∈ (computeHistogramData metrics baseName groupBy).1, ∀ p ∈ r.vals,
      p.2.isFinite = true ∧ 0 ≤ p.2.toQ) ∧
    (∀ g : String,
      List.Chain' (· ≤ ·)
        (0 :: finCumsQ (histGroups series groupBy) g (histSortedLe series groupBy)) →
      histRowSumQ g (computeHistogramData metrics baseName groupBy).1
        = ((0 : ℚ) :: finCumsQ (histGroups series groupBy) g
            (histSortedLe series groupBy)).getLast (List.cons_ne_nil _ _)) := by
  obtain ⟨hmem, hnd, hchain, hinflast⟩ := histSortedLe_props series groupBy hcanon
  have hgfin : ∀ gp ∈ histGroups series groupBy, ∀ p ∈ gp.2, p.2.isFinite = true :=
    histAccum_fin groupBy series ([], []) hfin (by simp)
  have hunf : (computeHistogramData metrics baseName groupBy).1 =
      (histRowsAux (histGroups series groupBy) 0 none
        ((histSortedLe series groupBy).zip
          ((histSortedLe series groupBy).map leToStr))).filter
        (fun r => ((histGroups series groupBy).map Prod.fst).any
          (fun k => JsNum.gtb ((alookup k r.vals).getD (.finite 0)) (.finite 0))) := by
    unfold computeHistogramData
    rw [hser]
  have hrows_nonneg := histRows_vals_nonneg hgfin
    ((histSortedLe series groupBy).zip ((histSortedLe series groupBy).map leToStr))
    0 none
  have hkept_nonneg : ∀ r ∈ (computeHistogramData metrics baseName groupBy).1,
      ∀ p ∈ r.vals, p.2.isFinite = true ∧ 0 ≤ p.2.toQ := by
    intro r hr p hp
    rw [hunf] at hr
    exact hrows_nonneg r (List.mem_of_mem_filter hr) p hp
  refine ⟨hchain, hinflast, hkept_nonneg, ?_⟩
  intro g hmono
  have hdropped : ∀ r ∈ histRowsAux (histGroups series groupBy) 0 none
      ((histSortedLe series groupBy).zip
        ((histSortedLe series groupBy).map leToStr)),
      ((fun r => ((histGroups series groupBy).map Prod.fst).any
          (fun k => JsNum.gtb ((alookup k r.vals).getD (.finite 0)) (.finite 0))) r)
        = false →
      ((alookup g r.vals).getD (.finite 0)).toQ = 0 := by
    intro r hr hkeep
    obtain ⟨leS, pv, hshape⟩ := histRows_vals_shape _ 0 none r hr
    by_cases hgk : g ∈ (histGroups series groupBy).map Prod.fst
    · obtain ⟨v, hv⟩ := alookup_isSome_of_mem_keys (l := r.vals) (k := g) (by
        rw [hshape]
        simpa using hgk)
      have hvmem : (g, v) ∈ r.vals := alookup_mem hv
      have hnn := hrows_nonneg r hr (g, v) hvmem
      have hgtb : JsNum.gtb v (.finite 0) = false := by
        simp only [List.any_eq_false] at hkeep
        have := hkeep g hgk
        rw [hv] at this
        simpa using this
      rw [hv]
      exact gtb_false_toQ hnn.1 hnn.2 hgtb
    · have : alookup g r.vals = none := by
        apply alookup_none_of_not_mem
        rw [hshape]
        simpa using hgk
      rw [this]
      simp [JsNum.toQ]
  rw [hunf, histRowSumQ_filter hdropped]
  have := histRows_sum g hgfin (histSortedLe series groupBy) 0 none 0 hchain
    (Or.inl ⟨rfl, rfl⟩) hmono
  rw [this]
  ring

unseal Rat.add Rat.mul Rat.sub Rat.inv Rat.ofScientific in
/-- C4 counterexample to the claim as frozen: with non-monotone cumulative
input (`le=0.1 -> 5`, `le=0.5 -> 3`, `le=+Inf -> 5`), the sum of the
reconstructed exclusive values over the finite rows is 5, but the
cumulative count at the largest finite `le` is 3. -/
theorem c4_sum_counterexample :
    histRowSumQ "All" (computeHistogramData
      [("h_bucket",
        [⟨[("le", "0.1")], .finite 5⟩, ⟨[("le", "0.5")], .finite 3⟩,
         ⟨[("le", "+Inf")], .finite 5⟩])] "h" none).1 = 5 ∧
    (cumAt (histGroups
      [⟨[("le", "0.1")], .finite 5⟩, ⟨[("le", "0.5")], .finite 3⟩,
       ⟨[("le", "+Inf")], .finite 5⟩] none) "All" "0.5").toQ = 3 ∧
    (5 : ℚ) ≠ 3 := by
  refine ⟨by decide, by decide, by norm_num⟩

unseal Rat.add Rat.mul Rat.sub Rat.inv Rat.ofScientific in
/-- Witness for C4 at the spec's own example (cumulative 5, 9, 10): the sum
of the finite-row exclusive values is the cumulative count 9 at the largest
finite `le`. -/
theorem c4_histogram_reconstruction_witness :
    histRowSumQ "All" (computeHistogramData
      [("req_duration_seconds_bucket",
        [⟨[("le", "0.1")], .finite 5⟩, ⟨[("le", "0.5")], .finite 9⟩,
         ⟨[("le", "+Inf")], .finite 10⟩])] "req_duration_seconds" none).1 = 9 := by
  have h := (c4_histogram_reconstruction
    [("req_duration_seconds_bucket",
      [⟨[("le", "0.1")], .finite 5⟩, ⟨[("le", "0.5")], .finite 9⟩,
       ⟨[("le", "+Inf")], .finite 10⟩])] "req_duration_seconds" none
    [⟨[("le", "0.1")], .finite 5⟩, ⟨[("le", "0.5")], .finite 9⟩,
     ⟨[("le", "+Inf")], .finite 10⟩]
    (by decide) (by decide) (by decide)).2.2.2 "All" (by
      have hfc : (0 : ℚ) :: finCumsQ (histGroups
          [⟨[("le", "0.1")], .finite 5⟩, ⟨[("le", "0.5")], .finite 9⟩,
           ⟨[("le", "+Inf")], .finite 10⟩] none) "All" (histSortedLe
          [⟨[("le", "0.1")], .finite 5⟩, ⟨[("le", "0.5")], .finite 9⟩,
           ⟨[("le", "+Inf")], .finite 10⟩] none) = [0, 5, 9] := by decide
      rw [hfc]
      norm_num [List.chain'_cons])
  rw [h]
  have hfc : (0 : ℚ) :: finCumsQ (histGroups
      [⟨[("le", "0.1")], .finite 5⟩, ⟨[("le", "0.5")], .finite 9⟩,
       ⟨[("le", "+Inf")], .finite 10⟩] none) "All" (histSortedLe
      [⟨[("le", "0.1")], .finite 5⟩, ⟨[("le", "0.5")], .finite 9⟩,
       ⟨[("le", "+Inf")], .finite 10⟩] none) = [0, 5, 9] := by decide
  have hgen : ∀ (l : List ℚ) (hl : l ≠ []), l = [0, 5, 9] → l.getLast hl = 9 := by
    intro l hl he
    subst he
    rfl
  exact hgen _ _ hfc

/-! ## Widget data (`computeWidgetData`) -/

/-- JS multiplication. -/
def JsNum.mul : JsNum → JsNum → JsNum
  | .nan, _ => .nan
  | _, .nan => .nan
  | .inf, .inf => .inf
  | .inf, .negInf => .negInf
  | .negInf, .inf => .negInf
  | .negInf, .negInf => .inf
  | .inf, .finite b => if b = 0 then .nan else if 0 < b then .inf else .negInf
  | .finite a, .inf => if a = 0 then .nan else if 0 < a then .inf else .negInf
  | .negInf, .finite b => if b = 0 then .nan else if 0 < b then .negInf else .inf
  | .finite a, .negInf => if a = 0 then .nan else if 0 < a then .negInf else .inf
  | .finite a, .finite b => .finite (a * b)

/-- `item.labels[groupBy] || 'Other'`. -/
def keyOrOther (g : String) (it : Sample) : String :=
  match alookup g it.labels with
  | some v => if v ≠ "" then v else "Other"
  | none => "Other"

/-- `reduce((acc, s) => acc + s.value, 0)`. -/
def seriesSum (l : List Sample) : JsNum :=
  l.foldl (fun acc s => acc.add s.value) (.finite 0)

/-- `P${Number.parseFloat(q) * 100}`. -/
def pctName (q : String) : String :=
  "P" ++ numToStr ((jsParseFloatC q.data).mul (.finite 100))

/-- `quantileGroups[k] = Math.max(quantileGroups[k] || 0, v)`. -/
def maxBump (m : List (String × JsNum)) (k : String) (v : JsNum) :
    List (String × JsNum) :=
  match m with
  | [] => [(k, (JsNum.finite 0).max2 v)]
  | (k0, v0) :: t =>
    if k0 = k then (k0, (JsNum.jsOr v0 (.finite 0)).max2 v) :: t
    else (k0, v0) :: maxBump t k v

/-- Widget row for the histogram branch. -/
structure WRow where
  range : String
  le : JsNum
  vals : List (String × JsNum)
deriving DecidableEq, Repr

/-- Widget row for the grouped-summary branch. -/
structure SRow where
  name : String
  vals : List (String × JsNum)
deriving DecidableEq, Repr

/-- The discriminated result of `computeWidgetData` (chart-type plus data;
the `isAvg` presentation flag of the non-grouped summary rows is not
modelled). -/
inductive WidgetData where
  | empty
  | histogram (data : List WRow) (keys : List String)
  | bar (data : List (String × JsNum))
  | summaryGrouped (data : List SRow) (keys : List String)
      (avg sum count : JsNum)
  | summary (data : List (String × JsNum)) (avg sum count : JsNum)
  | single (value : JsNum)
deriving DecidableEq, Repr

/-- `config.groupBy && config.groupBy !== 'none' ? config.groupBy : null`. -/
def normGroupBy (groupBy0 : Option String) : Option String :=
  match groupBy0 with
  | some g => if g = "none" ∨ g = "" then none else some g
  | none => none

/-- The widget-histogram row loop (same exclusive reconstruction as the
explorer, but rows keep infinity filtering only and different labels). -/
def widgetHistRows (groups : List (String × List (String × JsNum))) :
    ℕ → Option String → List (JsNum × String) → List WRow
  | _, _, [] => []
  | idx, prev, (leV, leS) :: rest =>
    let prevLeLabel := prev.getD "0"
    let range :=
      if leV = .inf then "> " ++ prevLeLabel
      else if idx = 0 then "≤ " ++ leS
      else prevLeLabel ++ "-" ++ leS
    let vals := groups.map (fun gp => (gp.1, rowVal gp.2 leS prev))
    ⟨range, leV, vals⟩ :: widgetHistRows groups (idx + 1) (some leS) rest

/-- The summary branch's quantile samples. -/
def summaryQuantiles (metrics : Metrics) (metricName : String) : List Sample :=
  ((alookup metricName metrics).getD []).filter hasQuantile

/-- The summary branch's totals. -/
def summarySum (metrics : Metrics) (metricName : String) : JsNum :=
  seriesSum ((alookup (metricName ++ "_sum") metrics).getD [])

def summaryCount (metrics : Metrics) (metricName : String) : JsNum :=
  seriesSum ((alookup (metricName ++ "_count") metrics).getD [])

def summaryAvg (metrics : Metrics) (metricName : String) : JsNum :=
  if JsNum.gtb (summaryCount metrics metricName) (.finite 0) then
    (summarySum metrics metricName).div (summaryCount metrics metricName)
  else .finite 0

/-- Per-group `sum/count` averages (`0` when the group count is not
positive), built only when both `_sum` and `_count` series exist. -/
def summaryGroupAvgs (metrics : Metrics) (metricName gb : String) :
    List (String × JsNum) :=
  if (alookup (metricName ++ "_sum") metrics).isSome ∧
      (alookup (metricName ++ "_count") metrics).isSome then
    (sumByKey (keyOrOther gb) ((alookup (metricName ++ "_sum") metrics).getD [])).map
      (fun p =>
        (p.1,
          if JsNum.gtb (JsNum.jsOr ((alookup p.1 (sumByKey (keyOrOther gb)
              ((alookup (metricName ++ "_count") metrics).getD []))).getD
              (.finite 0)) (.finite 0)) (.finite 0) then
            (JsNum.jsOr p.2 (.finite 0)).div
              (JsNum.jsOr ((alookup p.1 (sumByKey (keyOrOther gb)
                ((alookup (metricName ++ "_count") metrics).getD []))).getD
                (.finite 0)) (.finite 0))
          else .finite 0))
  else []

/-- Quantile pivot accumulation: per-(group, quantile) sums plus the set of
quantile strings in first-appearance order. -/
def summaryQacc (metrics : Metrics) (metricName gb : String) :
    List (String × List (String × JsNum)) × List String :=
  (summaryQuantiles metrics metricName).foldl
    (fun acc it =>
      match alookup "quantile" it.labels with
      | none => acc
      | some q => (bumpGroup acc.1 (keyOrOther gb it) q it.value, addUniq acc.2 q))
    ([], [])

/-- The quantile rows of the grouped summary view (quantiles sorted by
parsed value; rows with no positive finite group value dropped). -/
def summaryQuantileData (metrics : Metrics) (metricName gb : String) :
    List SRow :=
  ((sortBy (fun a b : String =>
      JsNum.leb (jsParseFloatC a.data) (jsParseFloatC b.data))
    (summaryQacc metrics metricName gb).2).map (fun q =>
      SRow.mk (pctName q) ((summaryQacc metrics metricName gb).1.map (fun gp =>
        (gp.1, JsNum.jsOr ((alookup q gp.2).getD (.finite 0))
          (.finite 0)))))).filter
    (fun row => ((summaryQacc metrics metricName gb).1.map Prod.fst).any
      (fun gKey =>
        JsNum.gtb ((alookup gKey row.vals).getD (.finite 0)) (.finite 0) &&
        ((alookup gKey row.vals).getD (.finite 0)).isFinite))

/-- The leading `Avg` row of the grouped summary view. -/
def summaryAvgRow (metrics : Metrics) (metricName gb : String) : SRow :=
  SRow.mk "Avg" (((summaryQacc metrics metricName gb).1.map Prod.fst).map
    (fun gKey =>
      (gKey, JsNum.jsOr ((alookup gKey
        (summaryGroupAvgs metrics metricName gb)).getD (.finite 0))
        (.finite 0))))

/-- The non-grouped per-percentile maxima. -/
def summaryQuantileGroups (metrics : Metrics) (metricName : String) :
    List (String × JsNum) :=
  (summaryQuantiles metrics metricName).foldl
    (fun m q =>
      match alookup "quantile" q.labels with
      | none => m
      | some qs => maxBump m (pctName qs) q.value)
    []

/-- The non-grouped tail of the summary branch. -/
def widgetSummaryPlain (metrics : Metrics) (metricName : String) : WidgetData :=
  if summaryQuantiles metrics metricName ≠ [] then
    .summary (("Avg", summaryAvg metrics metricName) ::
        sortBy (fun a b : String × JsNum =>
          JsNum.leb (jsParseFloatC (a.1.drop 1).data)
            (jsParseFloatC (b.1.drop 1).data))
          (summaryQuantileGroups metrics metricName))
      (summaryAvg metrics metricName) (summarySum metrics metricName)
      (summaryCount metrics metricName)
  else .single (summaryAvg metrics metricName)

/-- The summary branch of `computeWidgetData`. -/
def widgetSummary (metrics : Metrics) (metricName : String)
    (groupBy : Option String) : WidgetData :=
  if (alookup metricName metrics) = none ∧
      (alookup (metricName ++ "_sum") metrics) = none ∧
      (alookup (metricName ++ "_count") metrics) = none then .empty
  else
    match groupBy with
    | some gb =>
      if summaryQuantiles metrics metricName ≠ [] then
        if summaryQuantileData metrics metricName gb = [] ∧
            summaryGroupAvgs metrics metricName gb ≠ [] then
          .bar (sortBy (fun a b : String × JsNum => JsNum.geb a.2 b.2)
            (summaryGroupAvgs metrics metricName gb))
        else
          .summaryGrouped
            (summaryAvgRow metrics metricName gb ::
              summaryQuantileData metrics metricName gb)
            ((summaryQacc metrics metricName gb).1.map Prod.fst)
            (summaryAvg metrics metricName) (summarySum metrics metricName)
            (summaryCount metrics metricName)
      else if summaryGroupAvgs metrics metricName gb ≠ [] then
        .bar (sortBy (fun a b : String × JsNum => JsNum.geb a.2 b.2)
          (summaryGroupAvgs metrics metricName gb))
      else widgetSummaryPlain metrics metricName
    | none => widgetSummaryPlain metrics metricName

/-- The histogram branch of `computeWidgetData`. -/
def widgetHistogram (metrics : Metrics) (metricName : String)
    (groupBy : Option String) : WidgetData :=
  match alookup (metricName ++ "_bucket") metrics with
  | none => .empty
  | some series =>
    let keyf : Sample → String := fun it =>
      match groupBy with
      | some g => keyOrOther g it
      | none => "All"
    let acc := series.foldl
      (fun acc item =>
        match alookup "le" item.labels with
        | none => acc
        | some le =>
          if le = "" then acc
          else (bumpGroup acc.1 (keyf item) le item.value, addUniq acc.2 le))
      ([], [])
    let sortedLe := sortBy JsNum.leb (acc.2.map parseLe)
    let rows := widgetHistRows acc.1 0 none (sortedLe.zip (sortedLe.map leToStr))
    .histogram (rows.filter (fun r => r.le ≠ JsNum.inf)) (acc.1.map Prod.fst)

/-- The counter/gauge branch of `computeWidgetData`. -/
def widgetCounter (metrics : Metrics) (metricName : String)
    (groupBy : Option String) : WidgetData :=
  match alookup metricName metrics with
  | none => .empty
  | some series =>
    match groupBy with
    | some gb =>
      .bar (sortBy (fun a b : String × JsNum => JsNum.geb a.2 b.2)
        (sumByKey (keyOrOther gb) series))
    | none => .single (seriesSum series)

/-- `computeWidgetData(metrics, metricName, metricType, config)`. -/
def computeWidgetData (metrics : Metrics) (metricName : String)
    (metricType : String) (groupBy0 : Option String) : WidgetData :=
  if metricType = "histogram" then
    widgetHistogram metrics metricName (normGroupBy groupBy0)
  else if metricType = "summary" then
    widgetSummary metrics metricName (normGroupBy groupBy0)
  else
    widgetCounter metrics metricName (normGroupBy groupBy0)

theorem widgetSummaryPlain_ne_grouped (metrics : Metrics) (name : String)
    {data : List SRow} {keys : List String} {avg s c : JsNum} :
    widgetSummaryPlain metrics name ≠ .summaryGrouped data keys avg s c := by
  unfold widgetSummaryPlain
  split <;> simp

theorem computeWidgetData_summaryGrouped_inv {metrics : Metrics} {name : String}
    {gb0 : Option String} {data : List SRow} {keys : List String}
    {avg s c : JsNum}
    (h : computeWidgetData metrics name "summary" gb0 =
      .summaryGrouped data keys avg s c) :
    ∃ gb, normGroupBy gb0 = some gb ∧
      data = summaryAvgRow metrics name gb ::
        summaryQuantileData metrics name gb ∧
      keys = (summaryQacc metrics name gb).1.map Prod.fst := by
  unfold computeWidgetData at h
  rw [if_neg (by decide), if_pos rfl] at h
  unfold widgetSummary at h
  split at h
  · exact absurd h (by simp)
  · split at h
    · rename_i gb hgbeq
      split at h
      · split at h
        · exact absurd h (by simp)
        · simp only [WidgetData.summaryGrouped.injEq] at h
          exact ⟨gb, hgbeq, h.1.symm, h.2.1.symm⟩
      · split at h
        · exact absurd h (by simp)
        · exact absurd h (widgetSummaryPlain_ne_grouped metrics name)
    · exact absurd h (widgetSummaryPlain_ne_grouped metrics name)

theorem alookup_map_self (ks : List String) (F : String → β) (g : String) :
    alookup g (ks.map (fun k => (k, F k))) =
      if g ∈ ks then some (F g) else none := by
  induction ks with
  | nil => simp [alookup]
  | cons k0 t ih =>
    simp only [List.map_cons, alookup]
    by_cases hk : k0 = g
    · subst hk
      simp
    · rw [if_neg hk, ih]
      by_cases hm : g ∈ t
      · rw [if_pos hm, if_pos (by simp [hm])]
      · rw [if_neg hm, if_neg (by
          simp only [List.mem_cons]
          push_neg
          exact ⟨fun hc => hk hc.symm, hm⟩)]

theorem alookup_map_keyed (l : List (String × β)) (F : String → β → γ)
    (k : String) :
    alookup k (l.map (fun p => (p.1, F p.1 p.2))) = (alookup k l).map (F k) := by
  induction l with
  | nil => simp [alookup]
  | cons q t ih =>
    obtain ⟨k0, v0⟩ := q
    simp only [List.map_cons, alookup]
    by_cases hk : k0 = k
    · subst hk
      simp
    · rw [if_neg hk, if_neg hk]
      exact ih

theorem jsOr_finite (q : ℚ) : JsNum.jsOr (.finite q) (.finite 0) = .finite q := by
  unfold JsNum.jsOr
  by_cases hq : q = 0
  · subst hq; simp [JsNum.truthy]
  · simp [JsNum.truthy, hq]

theorem div_finite {a b : ℚ} (hb : b ≠ 0) :
    (JsNum.finite a).div (.finite b) = .finite (a / b) := by
  simp [JsNum.div, hb]

theorem sumByKey_lookup_toQ (keyf : Sample → String) (series : List Sample)
    (g : String) (hfin : ∀ s ∈ series, s.value.isFinite = true) :
    ((alookup g (sumByKey keyf series)).getD (.finite 0)).toQ
      = specGroupSumQ series keyf g ∧
    ((alookup g (sumByKey keyf series)).getD (.finite 0)).isFinite = true := by
  constructor
  · have := sumByKey_fold_toQ keyf g series [] hfin (by simp)
    unfold sumByKey
    rw [this]
    simp [alookup, JsNum.toQ]
  · exact alookup_getD_fin (sumByKey_fold_fin keyf series [] hfin (by simp)) g

/-- C6: whenever the summary widget renders the grouped table (result
constructor `summaryGrouped`) and the `_sum`/`_count` series carry finite
values, the leading `Avg` row assigns to every group the exact quotient of
that group's `_sum` total by its `_count` total, and `0` whenever that
count total is not positive. -/
theorem c6_summary_group_avg (metrics : Metrics) (name : String)
    (gb0 : Option String) (data : List SRow) (keys : List String)
    (avg s c : JsNum)
    (h : computeWidgetData metrics name "summary" gb0 =
      .summaryGrouped data keys avg s c)
    (hfs : ∀ smp ∈ (alookup (name ++ "_sum") metrics).getD [],
      smp.value.isFinite = true)
    (hfc : ∀ smp ∈ (alookup (name ++ "_count") metrics).getD [],
      smp.value.isFinite = true) :
    ∃ gb, normGroupBy gb0 = some gb ∧
      data.head? = some (summaryAvgRow metrics name gb) ∧
      ∀ g ∈ keys,
        (alookup g (summaryAvgRow metrics name gb).vals).getD (.finite 0)
          = .finite
            (if 0 < specGroupSumQ ((alookup (name ++ "_count") metrics).getD [])
                (keyOrOther gb) g then
              specGroupSumQ ((alookup (name ++ "_sum") metrics).getD [])
                (keyOrOther gb) g /
              specGroupSumQ ((alookup (name ++ "_count") metrics).getD [])
                (keyOrOther gb) g
            else 0) := by
  obtain ⟨gb, hgb, hdata, hkeys⟩ := computeWidgetData_summaryGrouped_inv h
  refine ⟨gb, hgb, by rw [hdata]; rfl, ?_⟩
  intro g hg
  rw [hkeys] at hg
  set sumQ : ℚ := specGroupSumQ ((alookup (name ++ "_sum") metrics).getD [])
    (keyOrOther gb) g with hsumQ
  set cntQ : ℚ := specGroupSumQ ((alookup (name ++ "_count") metrics).getD [])
    (keyOrOther gb) g with hcntQ
  have hiz : (if 0 < cntQ then (0 : ℚ) / cntQ else 0) = 0 := by
    split <;> simp
  unfold summaryAvgRow
  simp only
  rw [alookup_map_self _ _ g, if_pos hg]
  simp only [Option.getD_some]
  unfold summaryGroupAvgs
  by_cases hboth : (alookup (name ++ "_sum") metrics).isSome ∧
      (alookup (name ++ "_count") metrics).isSome
  · rw [if_pos hboth]
    rw [alookup_map_keyed _ (fun k v =>
      if JsNum.gtb (JsNum.jsOr ((alookup k (sumByKey (keyOrOther gb)
          ((alookup (name ++ "_count") metrics).getD []))).getD
          (.finite 0)) (.finite 0)) (.finite 0) then
        (JsNum.jsOr v (.finite 0)).div
          (JsNum.jsOr ((alookup k (sumByKey (keyOrOther gb)
            ((alookup (name ++ "_count") metrics).getD []))).getD
            (.finite 0)) (.finite 0))
      else .finite 0) g]
    have hcq := sumByKey_lookup_toQ (keyOrOther gb)
      ((alookup (name ++ "_count") metrics).getD []) g hfc
    obtain ⟨hcval, hcfin⟩ := hcq
    have hsq := sumByKey_lookup_toQ (keyOrOther gb)
      ((alookup (name ++ "_sum") metrics).getD []) g hfs
    obtain ⟨hsval, hsfin⟩ := hsq
    -- name the count JsNum and rewrite it as a finite literal
    obtain ⟨qc, hqc⟩ : ∃ qc, (alookup g (sumByKey (keyOrOther gb)
        ((alookup (name ++ "_count") metrics).getD []))).getD (.finite 0)
        = .finite qc := by
      cases hx : (alookup g (sumByKey (keyOrOther gb)
          ((alookup (name ++ "_count") metrics).getD []))).getD (.finite 0) with
      | finite q => exact ⟨q, rfl⟩
      | inf => rw [hx] at hcfin; simp [JsNum.isFinite] at hcfin
      | negInf => rw [hx] at hcfin; simp [JsNum.isFinite] at hcfin
      | nan => rw [hx] at hcfin; simp [JsNum.isFinite] at hcfin
    have hqce : qc = cntQ := by
      rw [hqc] at hcval
      simpa [JsNum.toQ] using hcval
    cases hlg : alookup g (sumByKey (keyOrOther gb)
        ((alookup (name ++ "_sum") metrics).getD [])) with
    | none =>
      have hsum0 : sumQ = 0 := by
        rw [hsumQ, ← hsval, hlg]
        simp [JsNum.toQ]
      simp only [Option.map_none', Option.getD_none]
      rw [hsum0, hiz]
      simp [JsNum.jsOr, JsNum.truthy, JsNum.toQ]
    | some v =>
      obtain ⟨qs, hqs⟩ : ∃ qs, v = .finite qs := by
        have hvf : v.isFinite = true := by
          rw [hlg] at hsfin
          simpa using hsfin
        cases v with
        | finite q => exact ⟨q, rfl⟩
        | inf => simp [JsNum.isFinite] at hvf
        | negInf => simp [JsNum.isFinite] at hvf
        | nan => simp [JsNum.isFinite] at hvf
      have hqse : qs = sumQ := by
        rw [hsumQ, ← hsval, hlg, hqs]
        simp [JsNum.toQ]
      simp only [Option.map_some', Option.getD_some]
      rw [hqc, hqs, jsOr_finite, jsOr_finite]
      subst hqce
      subst hqse
      by_cases hpos : 0 < cntQ
      · rw [if_pos (by simpa [JsNum.gtb, JsNum.ltb] using hpos),
          div_finite (by linarith), jsOr_finite, if_pos hpos]
      · rw [if_neg (by simpa [JsNum.gtb, JsNum.ltb] using hpos), if_neg hpos]
        simp [JsNum.jsOr, JsNum.truthy]
  · rw [if_neg hboth]
    have hz : sumQ = 0 ∨ cntQ = 0 := by
      rcases Decidable.not_and_iff_or_not.1 hboth with hx | hx
      · left
        rw [hsumQ]
        have : alookup (name ++ "_sum") metrics = none := by
          cases hy : alookup (name ++ "_sum") metrics with
          | none => rfl
          | some l => rw [hy] at hx; simp at hx
        rw [this]
        rfl
      · right
        rw [hcntQ]
        have : alookup (name ++ "_count") metrics = none := by
          cases hy : alookup (name ++ "_count") metrics with
          | none => rfl
          | some l => rw [hy] at hx; simp at hx
        rw [this]
        rfl
    have hres : (if 0 < cntQ then sumQ / cntQ else 0) = 0 := by
      rcases hz with hz | hz
      · rw [hz, hiz]
      · rw [hz]
        simp
    rw [hres]
    simp [alookup, JsNum.jsOr, JsNum.truthy]

unseal Rat.add Rat.mul Rat.sub Rat.inv Rat.ofScientific in
/-- Witness for C6: with `_sum` 10/6 and `_count` 4/2 for groups `a`/`b`,
the `Avg` row shows 10/4 = 5/2 for group `a`. -/
theorem c6_summary_group_avg_witness :
    (alookup "a" (summaryAvgRow
      [("lat",
        [⟨[("svc", "a"), ("quantile", "0.5")], .finite 2⟩,
         ⟨[("svc", "a"), ("quantile", "0.9")], .finite 5⟩,
         ⟨[("svc", "b"), ("quantile", "0.5")], .finite 3⟩]),
       ("lat_sum", [⟨[("svc", "a")], .finite 10⟩, ⟨[("svc", "b")], .finite 6⟩]),
       ("lat_count", [⟨[("svc", "a")], .finite 4⟩, ⟨[("svc", "b")], .finite 2⟩])]
      "lat" "svc").vals).getD (.finite 0) = .finite (5 / 2) := by
  obtain ⟨gb, hgb, hhead, hvals⟩ := c6_summary_group_avg
    [("lat",
      [⟨[("svc", "a"), ("quantile", "0.5")], .finite 2⟩,
       ⟨[("svc", "a"), ("quantile", "0.9")], .finite 5⟩,
       ⟨[("svc", "b"), ("quantile", "0.5")], .finite 3⟩]),
     ("lat_sum", [⟨[("svc", "a")], .finite 10⟩, ⟨[("svc", "b")], .finite 6⟩]),
     ("lat_count", [⟨[("svc", "a")], .finite 4⟩, ⟨[("svc", "b")], .finite 2⟩])]
    "lat" (some "svc")
    [SRow.mk "Avg" [("a", .finite (5 / 2)), ("b", .finite 3)],
     SRow.mk "P50" [("a", .finite 2), ("b", .finite 3)],
     SRow.mk "P90" [("a", .finite 5), ("b", .finite 0)]]
    ["a", "b"] (.finite (8 / 3)) (.finite 16) (.finite 6)
    (by decide) (by decide) (by decide)
  have hgb2 : gb = "svc" := by
    have : normGroupBy (some "svc") = some "svc" := by decide
    rw [this] at hgb
    injection hgb with hx
    exact hx.symm
  subst hgb2
  have hv := hvals "a" (by decide)
  rw [hv]
  decide

/-! ## Non-grouped summary quantile rows (C10) -/

/-- The percentile key of a sample, when it carries a `quantile` label. -/
def qKeyOf (smp : Sample) : Option String :=
  (alookup "quantile" smp.labels).map pctName

/-- The max-accumulation that `quantileGroups[k] = Math.max(... || 0, v)`
performs over a value list, starting from an optional current entry. -/
def mergeMax (o : Option JsNum) : List JsNum → Option JsNum
  | [] => o
  | v :: vs =>
    mergeMax (some ((JsNum.jsOr (o.getD (.finite 0)) (.finite 0)).max2 v)) vs

theorem alookup_maxBump_eq (m : List (String × JsNum)) (k : String) (v : JsNum) :
    alookup k (maxBump m k v) =
      some ((JsNum.jsOr ((alookup k m).getD (.finite 0)) (.finite 0)).max2 v) := by
  induction m with
  | nil => simp [maxBump, alookup, JsNum.jsOr, JsNum.truthy]
  | cons q t ih =>
    obtain ⟨k0, v0⟩ := q
    unfold maxBump
    by_cases h : k0 = k
    · rw [if_pos h]
      subst h
      simp [alookup]
    · rw [if_neg h]
      simp only [alookup, if_neg h]
      exact ih

theorem alookup_maxBump_ne (m : List (String × JsNum)) {k k' : String} (v : JsNum)
    (h : k' ≠ k) : alookup k (maxBump m k' v) = alookup k m := by
  induction m with
  | nil => simp [maxBump, alookup, h]
  | cons q t ih =>
    obtain ⟨k0, v0⟩ := q
    unfold maxBump
    by_cases h0 : k0 = k'
    · rw [if_pos h0]
      subst h0
      simp [alookup, h]
    · rw [if_neg h0]
      simp only [alookup]
      by_cases hk : k0 = k
      · rw [if_pos hk, if_pos hk]
      · rw [if_neg hk, if_neg hk]
        exact ih

theorem maxBump_keys (m : List (String × JsNum)) (k : String) (v : JsNum) :
    (maxBump m k v).map Prod.fst =
      if k ∈ m.map Prod.fst then m.map Prod.fst else m.map Prod.fst ++ [k] := by
  induction m with
  | nil => simp [maxBump]
  | cons q t ih =>
    obtain ⟨k0, v0⟩ := q
    unfold maxBump
    by_cases h : k0 = k
    · rw [if_pos h]
      subst h
      simp
    · rw [if_neg h]
      simp only [List.map_cons, List.mem_cons]
      rw [ih]
      by_cases hm : k ∈ t.map Prod.fst
      · rw [if_pos hm, if_pos (Or.inr hm)]
      · rw [if_neg hm, if_neg (by rintro (hc | hc); exact h hc.symm; exact hm hc)]
        simp

theorem maxBump_keys_nodup {m : List (String × JsNum)} {k : String} {v : JsNum}
    (h : (m.map Prod.fst).Nodup) : ((maxBump m k v).map Prod.fst).Nodup := by
  rw [maxBump_keys]
  by_cases hm : k ∈ m.map Prod.fst
  · rwa [if_pos hm]
  · rw [if_neg hm]
    simp [List.nodup_append, h, hm]

theorem quantGroups_fold_lookup (k : String) :
    ∀ (qs : List Sample) (m : List (String × JsNum)),
      alookup k (qs.foldl
        (fun m q =>
          match alookup "quantile" q.labels with
          | none => m
          | some qsl => maxBump m (pctName qsl) q.value) m) =
      mergeMax (alookup k m)
        ((qs.filter (fun smp => qKeyOf smp = some k)).map Sample.value) := by
  intro qs
  induction qs with
  | nil => intro m; rfl
  | cons q t ih =>
    intro m
    rw [List.foldl_cons, List.filter_cons]
    cases hq : alookup "quantile" q.labels with
    | none =>
      simp only [hq]
      have hcond : (decide (qKeyOf q = some k)) = false := by simp [qKeyOf, hq]
      simp only [hcond, Bool.false_eq_true, if_false]
      exact ih m
    | some qsl =>
      simp only [hq]
      by_cases hpk : pctName qsl = k
      · have hcond : (decide (qKeyOf q = some k)) = true := by
          simp [qKeyOf, hq, hpk]
        simp only [hcond, if_true]
        rw [ih, hpk, alookup_maxBump_eq]
        simp [mergeMax]
      · have hcond : (decide (qKeyOf q = some k)) = false := by
          simp [qKeyOf, hq, hpk]
        simp only [hcond, Bool.false_eq_true, if_false]
        rw [ih, alookup_maxBump_ne _ _ hpk]

theorem quantGroups_fold_nodup :
    ∀ (qs : List Sample) (m : List (String × JsNum)),
      (m.map Prod.fst).Nodup →
      ((qs.foldl
        (fun m q =>
          match alookup "quantile" q.labels with
          | none => m
          | some qsl => maxBump m (pctName qsl) q.value) m).map Prod.fst).Nodup := by
  intro qs
  induction qs with
  | nil => intro m h; simpa using h
  | cons q t ih =>
    intro m h
    rw [List.foldl_cons]
    cases hq : alookup "quantile" q.labels with
    | none => exact ih m h
    | some qsl => exact ih _ (maxBump_keys_nodup h)

theorem max2_negInf_left (v : JsNum) : JsNum.negInf.max2 v = v := by
  cases v <;> rfl

theorem max2_ne_nan {a b : JsNum} (ha : a ≠ .nan) (hb : b ≠ .nan) :
    a.max2 b ≠ .nan := by
  cases a <;> cases b <;> simp [JsNum.max2] at * <;> trivial

theorem jsOr_max2_zero {x : JsNum} (hx : x ≠ .nan) :
    JsNum.jsOr ((JsNum.finite 0).max2 x) (.finite 0) = (JsNum.finite 0).max2 x := by
  cases x with
  | finite q =>
    show JsNum.jsOr (.finite (max 0 q)) (.finite 0) = .finite (max 0 q)
    exact jsOr_finite _
  | inf => rfl
  | negInf => rfl
  | nan => exact absurd rfl hx

theorem max2_assoc (a b c : JsNum) : (a.max2 b).max2 c = a.max2 (b.max2 c) := by
  cases a <;> cases b <;> cases c <;>
    simp [JsNum.max2, max_assoc]

theorem foldl_maxstep_eq :
    ∀ (vs : List JsNum) (x : JsNum), x ≠ .nan → (∀ v ∈ vs, v ≠ .nan) →
      vs.foldl (fun acc v => (JsNum.jsOr acc (.finite 0)).max2 v)
          ((JsNum.finite 0).max2 x)
        = (JsNum.finite 0).max2 (vs.foldl JsNum.max2 x) := by
  intro vs
  induction vs with
  | nil => intro x _ _; rfl
  | cons v t ih =>
    intro x hx hvs
    rw [List.foldl_cons, List.foldl_cons]
    have hv : v ≠ .nan := hvs v (by simp)
    rw [jsOr_max2_zero hx, max2_assoc]
    exact ih _ (max2_ne_nan hx hv) (fun w hw => hvs w (by simp [hw]))

theorem mergeMax_none {vs : List JsNum} (hne : vs ≠ [])
    (hnn : ∀ v ∈ vs, v ≠ .nan) :
    mergeMax none vs =
      some ((JsNum.finite 0).max2 (vs.foldl JsNum.max2 .negInf)) := by
  cases vs with
  | nil => exact absurd rfl hne
  | cons v t =>
    have hmm : ∀ (t : List JsNum) (a : JsNum),
        mergeMax (some a) t =
          some (t.foldl (fun acc v => (JsNum.jsOr acc (.finite 0)).max2 v) a) := by
      intro t
      induction t with
      | nil => intro a; rfl
      | cons w t2 ih2 => intro a; rw [List.foldl_cons]; exact ih2 _
    unfold mergeMax
    rw [hmm]
    have hv : v ≠ .nan := hnn v (by simp)
    have h0 : (JsNum.jsOr ((none : Option JsNum).getD (.finite 0))
        (.finite 0)).max2 v = (JsNum.finite 0).max2 v := by
      simp [JsNum.jsOr, JsNum.truthy]
    rw [h0, foldl_maxstep_eq t v hv (fun w hw => hnn w (by simp [hw]))]
    rw [List.foldl_cons, max2_negInf_left]

theorem computeWidgetData_summary_inv {metrics : Metrics} {name : String}
    {gb0 : Option String} {data : List (String × JsNum)} {avg s c : JsNum}
    (h : computeWidgetData metrics name "summary" gb0 = .summary data avg s c) :
    data = ("Avg", summaryAvg metrics name) ::
      sortBy (fun a b : String × JsNum =>
        JsNum.leb (jsParseFloatC (a.1.drop 1).data)
          (jsParseFloatC (b.1.drop 1).data))
        (summaryQuantileGroups metrics name) ∧
    avg = summaryAvg metrics name := by
  have hplain : ∀ (hp : widgetSummaryPlain metrics name = .summary data avg s c),
      data = ("Avg", summaryAvg metrics name) ::
        sortBy (fun a b : String × JsNum =>
          JsNum.leb (jsParseFloatC (a.1.drop 1).data)
            (jsParseFloatC (b.1.drop 1).data))
          (summaryQuantileGroups metrics name) ∧
      avg = summaryAvg metrics name := by
    intro hp
    unfold widgetSummaryPlain at hp
    split at hp
    · simp only [WidgetData.summary.injEq] at hp
      exact ⟨hp.1.symm, hp.2.1.symm⟩
    · exact absurd hp (by simp)
  unfold computeWidgetData at h
  rw [if_neg (by decide), if_pos rfl] at h
  unfold widgetSummary at h
  split at h
  · exact absurd h (by simp)
  · split at h
    · split at h
      · split at h
        · exact absurd h (by simp)
        · exact absurd h (by simp)
      · split at h
        · exact absurd h (by simp)
        · exact hplain h
    · exact hplain h

/-- C10 (amended): when the summary widget renders without grouping
(result constructor `summary`) and the metric's samples are never `NaN`,
the rows after the leading `Avg` row assign to each percentile key the
maximum of `0` and the values of the samples sharing that key (so several
samples with the same `quantile` value aggregate by `Math.max`, seeded
with 0 — not by sum or average), and the rows are ordered by increasing
parsed percentile. -/
theorem c10_summary_quantile_rows (metrics : Metrics) (name : String)
    (gb0 : Option String) (data : List (String × JsNum)) (avg s c : JsNum)
    (h : computeWidgetData metrics name "summary" gb0 = .summary data avg s c)
    (hnn : ∀ smp ∈ (alookup name metrics).getD [], smp.value ≠ .nan) :
    ∃ rest, data = ("Avg", avg) :: rest ∧
      (∀ p ∈ rest, p.2 = (JsNum.finite 0).max2
        ((((summaryQuantiles metrics name).filter
          (fun smp => qKeyOf smp = some p.1)).map Sample.value).foldl
            JsNum.max2 .negInf)) ∧
      List.Chain' (fun a b : String × JsNum =>
        JsNum.leb (jsParseFloatC (a.1.drop 1).data)
          (jsParseFloatC (b.1.drop 1).data) = true) rest := by
  obtain ⟨hdata, havg⟩ := computeWidgetData_summary_inv h
  refine ⟨sortBy (fun a b : String × JsNum =>
      JsNum.leb (jsParseFloatC (a.1.drop 1).data)
        (jsParseFloatC (b.1.drop 1).data))
      (summaryQuantileGroups metrics name), by rw [hdata, havg], ?_, ?_⟩
  · intro p hp
    have hpg : p ∈ summaryQuantileGroups metrics name := (sortBy_perm _ _).subset hp
    have hnd : ((summaryQuantileGroups metrics name).map Prod.fst).Nodup := by
      unfold summaryQuantileGroups
      exact quantGroups_fold_nodup _ [] (by simp)
    obtain ⟨k, v⟩ := p
    have hlk : alookup k (summaryQuantileGroups metrics name) = some v :=
      alookup_of_mem_nodup hnd hpg
    have hfold := quantGroups_fold_lookup k (summaryQuantiles metrics name) []
    unfold summaryQuantileGroups at hlk
    rw [hfold] at hlk
    have hvals_nn : ∀ w ∈ (((summaryQuantiles metrics name).filter
        (fun smp => qKeyOf smp = some k)).map Sample.value), w ≠ JsNum.nan := by
      intro w hw
      obtain ⟨smp, hsmp, hwe⟩ := List.mem_map.1 hw
      have hsm : smp ∈ summaryQuantiles metrics name := List.mem_of_mem_filter hsmp
      have hsm2 : smp ∈ (alookup name metrics).getD [] := by
        unfold summaryQuantiles at hsm
        exact List.mem_of_mem_filter hsm
      exact hwe ▸ hnn smp hsm2
    cases hfe : ((summaryQuantiles metrics name).filter
        (fun smp => qKeyOf smp = some k)).map Sample.value with
    | nil =>
      rw [hfe] at hlk
      simp only [alookup, mergeMax] at hlk
      exact absurd hlk (by simp)
    | cons w ws =>
      rw [hfe] at hlk
      rw [show (alookup k ([] : List (String × JsNum))) = none from rfl] at hlk
      rw [mergeMax_none (by simp) (hfe ▸ hvals_nn)] at hlk
      injection hlk with hv
      exact hv.symm
  · exact sortBy_chain _ (fun a b => leb_total _ _) _

unseal Rat.add Rat.mul Rat.sub Rat.inv Rat.ofScientific in
/-- C10 counterexample to the claim as frozen: two samples sharing
`quantile="0.5"` with values `-3` and `-5` display `0` for the `P50` row
(the `Math.max` accumulation is seeded with `quantileGroups[k] || 0`,
i.e. `0`), not the samples' maximum `-3`. -/
theorem c10_negative_quantile_counterexample :
    computeWidgetData [("s", [⟨[("quantile", "0.5")], .finite (-3)⟩,
                              ⟨[("quantile", "0.5")], .finite (-5)⟩])]
        "s" "summary" none =
      .summary [("Avg", .finite 0), ("P50", .finite 0)]
        (.finite 0) (.finite 0) (.finite 0) ∧
    max (-3 : ℚ) (-5) = -3 ∧
    JsNum.finite 0 ≠ JsNum.finite (-3) := by
  refine ⟨by decide, by norm_num, by decide⟩

unseal Rat.add Rat.mul Rat.sub Rat.inv Rat.ofScientific in
/-- Witness for C10: two samples sharing `quantile=0.5` (values 2 and 7)
display `max(0, max(2, 7)) = 7`, and rows are ordered P50 before P90 after
the leading `Avg`. -/
theorem c10_summary_quantile_rows_witness :
    ∃ rest, ([("Avg", JsNum.finite 2), ("P50", JsNum.finite 7),
        ("P90", JsNum.finite 1)] : List (String × JsNum))
        = ("Avg", JsNum.finite 2) :: rest ∧
      (∀ p ∈ rest, p.2 = (JsNum.finite 0).max2
        ((((summaryQuantiles
            [("s", [⟨[("quantile", "0.5")], .finite 2⟩,
                    ⟨[("quantile", "0.5")], .finite 7⟩,
                    ⟨[("quantile", "0.9")], .finite 1⟩]),
             ("s_sum", [⟨[], .finite 10⟩]),
             ("s_count", [⟨[], .finite 5⟩])] "s").filter
          (fun smp => qKeyOf smp = some p.1)).map Sample.value).foldl
            JsNum.max2 .negInf)) ∧
      List.Chain' (fun a b : String × JsNum =>
        JsNum.leb (jsParseFloatC (a.1.drop 1).data)
          (jsParseFloatC (b.1.drop 1).data) = true) rest := by
  have h := c10_summary_quantile_rows
    [("s", [⟨[("quantile", "0.5")], .finite 2⟩,
            ⟨[("quantile", "0.5")], .finite 7⟩,
            ⟨[("quantile", "0.9")], .finite 1⟩]),
     ("s_sum", [⟨[], .finite 10⟩]),
     ("s_count", [⟨[], .finite 5⟩])] "s" none
    [("Avg", JsNum.finite 2), ("P50", JsNum.finite 7), ("P90", JsNum.finite 1)]
    (.finite 2) (.finite 10) (.finite 5) (by decide) (by decide)
  exact h

/-! ## C9: what the outer brace capture of the data regex retains -/

theorem valueChar_not_space {c : Char} (h : isValueChar c = true) :
    isSpaceChar c = false := by
  by_contra hc
  have hs : isSpaceChar c = true := by
    cases hb : isSpaceChar c
    · exact absurd hb hc
    · rfl
  simp only [isSpaceChar, decide_eq_true_eq] at hs
  rcases hs with rfl | rfl | rfl | rfl | rfl <;> exact absurd h (by decide)

/-- C9 (amended): the outer match of the data regex captures everything from
the opening brace up to the FIRST closing brace. For a line
`name\x7bcontent\x7d value` whose content contains no closing brace, the
entire content — commas included — is captured verbatim as the label
string. -/
theorem c9_first_brace_capture (nh : Char) (nt content : List Char)
    (vh : Char) (vt : List Char)
    (hnh : isNameStart nh = true)
    (hnt : ∀ c ∈ nt, isNameChar c = true)
    (hcontent : ∀ c ∈ content, c ≠ '}')
    (hvh : isValueChar vh = true)
    (hvt : ∀ c ∈ vt, isValueChar c = true) :
    matchData (nh :: nt ++ '{' :: content ++ '}' :: ' ' :: vh :: vt) =
      some ⟨nh :: nt, some content, vh :: vt⟩ := by
  have hni : isNameChar '{' = false := by decide
  have htk : (nt ++ '{' :: (content ++ '}' :: ' ' :: vh :: vt)).takeWhile
      isNameChar = nt :=
    takeWhile_all_append _ _ hnt (by simp [hni])
  have hdr : (nt ++ '{' :: (content ++ '}' :: ' ' :: vh :: vt)).dropWhile
      isNameChar = '{' :: (content ++ '}' :: ' ' :: vh :: vt) :=
    dropWhile_all_append _ _ hnt (by simp [hni])
  have hdr2 : (content ++ '}' :: ' ' :: vh :: vt).dropWhile
      (fun d => d ≠ '}') = '}' :: ' ' :: vh :: vt :=
    dropWhile_all_append _ _ (fun c hc => by simpa using hcontent c hc)
      (by simp)
  have htk2 : (content ++ '}' :: ' ' :: vh :: vt).takeWhile
      (fun d => d ≠ '}') = content :=
    takeWhile_all_append _ _ (fun c hc => by simpa using hcontent c hc)
      (by simp)
  have hvs : isSpaceChar vh = false := valueChar_not_space hvh
  have htk3 : vt.takeWhile isValueChar = vt := takeWhile_all hvt
  have hdr3 : vt.dropWhile isValueChar = [] := dropWhile_all hvt
  unfold matchData
  simp only [List.cons_append, List.append_assoc]
  rw [if_pos hnh]
  simp only [htk, hdr, hdr2, htk2, List.dropWhile_cons, hvs,
    Bool.false_eq_true, if_false, htk3, hdr3]
  rw [if_pos (by decide : isSpaceChar ' ' = true), if_pos hvh]

unseal Rat.add Rat.mul Rat.sub Rat.inv Rat.ofScientific in
/-- C9 counterexample to the claim as frozen: a closing brace inside a
quoted label value is NOT retained — the capture group is `[^\x7d]*`, which
stops at the first closing brace, so the remainder of the line cannot match
and the whole line `m\x7ba="x\x7dy"\x7d 1` is skipped. A comma inside the
braces, by contrast, really is retained as literal label-string content. -/
theorem c9_brace_in_value_counterexample :
    lineAction "m\x7ba=\"x\x7dy\"\x7d 1" = .skip ∧
    lineAction "m\x7ba=\"x\",b=\"y\"\x7d 1" =
      .data "m" [("a", "x"), ("b", "y")] (.finite 1) := by
  refine ⟨by decide, by decide⟩

/-- Witness for C9's amended theorem: the comma-containing content
`a="x",b="y"` is captured in full, verbatim. -/
theorem c9_first_brace_capture_witness :
    matchData ('m' :: [] ++ '{' :: ("a=\"x\",b=\"y\"".data) ++
        '}' :: ' ' :: '1' :: []) =
      some ⟨'m' :: [], some ("a=\"x\",b=\"y\"".data), '1' :: []⟩ :=
  c9_first_brace_capture 'm' [] _ '1' []
    (by decide) (by decide) (by decide) (by decide) (by decide)

/-! ## C2: serializing a parsed sample back to exposition text

The repository only parses exposition text, so the round-trip claim of the
specification is read against the canonical Prometheus exposition
serializer: label values are escaped with backslash → `\\`, quote → `\"`
and newline → `\n`; labels are joined with commas inside braces; values are
written the way Prometheus exposition text writes them (`+Inf`, `-Inf`,
`NaN`, decimal notation otherwise). -/

/-- Canonical exposition escaping of one label-value character. -/
def escUnit (c : Char) : List Char :=
  if c = '\\' then ['\\', '\\']
  else if c = '"' then ['\\', '"']
  else if c = '\n' then ['\\', 'n']
  else [c]

/-- Canonical exposition escaping of a label value. -/
def esc : List Char → List Char
  | [] => []
  | c :: t => escUnit c ++ esc t

/-- Escaping stage after the first decode pass has been undone: quotes
plain, backslash and newline still escaped. -/
def esc1Unit (c : Char) : List Char :=
  if c = '\\' then ['\\', '\\']
  else if c = '\n' then ['\\', 'n']
  else [c]

def esc1 : List Char → List Char
  | [] => []
  | c :: t => esc1Unit c ++ esc1 t

/-- Escaping stage after the second decode pass: only newline escaped. -/
def esc2Unit (c : Char) : List Char :=
  if c = '\n' then ['\\', 'n'] else [c]

def esc2 : List Char → List Char
  | [] => []
  | c :: t => esc2Unit c ++ esc2 t

theorem repl2_match (a b : Char) (r t : List Char) :
    repl2 a b r (a :: b :: t) = r ++ repl2 a b r t := by
  simp [repl2]

theorem repl2_skip2 (a b : Char) (r : List Char) (c d : Char) (t : List Char)
    (h : ¬ (c = a ∧ d = b)) :
    repl2 a b r (c :: d :: t) = c :: repl2 a b r (d :: t) := by
  simp only [repl2]
  rw [if_neg h]

theorem repl2_skip (a b : Char) (r : List Char) (c : Char) (l : List Char)
    (h : c ≠ a) : repl2 a b r (c :: l) = c :: repl2 a b r l := by
  cases l with
  | nil => rfl
  | cons d t => exact repl2_skip2 a b r c d t (fun hc => h hc.1)

theorem mem_repl2 (a b : Char) (r : List Char) :
    ∀ (n : ℕ) (l : List Char), l.length ≤ n →
      ∀ x ∈ repl2 a b r l, x ∈ r ∨ x ∈ l := by
  intro n
  induction n with
  | zero =>
    intro l hl x hx
    have h0 : l = [] := List.length_eq_zero.1 (Nat.le_zero.1 hl)
    subst h0
    simp [repl2] at hx
  | succ n ih =>
    intro l hl x hx
    match l with
    | [] => simp [repl2] at hx
    | [c] => simp only [repl2] at hx; right; exact hx
    | c :: d :: t =>
      by_cases hm : c = a ∧ d = b
      · obtain ⟨rfl, rfl⟩ := hm
        rw [repl2_match] at hx
        rcases List.mem_append.1 hx with hx | hx
        · exact Or.inl hx
        · rcases ih t (by simp at hl; omega) x hx with hx | hx
          · exact Or.inl hx
          · exact Or.inr (by simp [hx])
      · rw [repl2_skip2 _ _ _ _ _ _ hm] at hx
        rcases List.mem_cons.1 hx with hx | hx
        · exact Or.inr (by simp [hx])
        · rcases ih (d :: t) (by simp at hl ⊢; omega) x hx with hx | hx
          · exact Or.inl hx
          · exact Or.inr (by rcases List.mem_cons.1 hx with h | h <;> simp [h])

theorem noBN_tail {c : Char} {t : List Char} (h : noBN (c :: t) = true) :
    noBN t = true := by
  cases t with
  | nil => rfl
  | cons d t' =>
    simp only [noBN, Bool.decide_and, Bool.and_eq_true, decide_eq_true_eq] at h
    exact h.2

theorem noBN_cons {x : Char} {X : List Char} (hX : noBN X = true)
    (hhead : ∀ y ys, X = y :: ys → ¬ (x = '\\' ∧ y = 'n')) :
    noBN (x :: X) = true := by
  cases X with
  | nil => rfl
  | cons y ys =>
    simp only [noBN, Bool.decide_and, Bool.and_eq_true, decide_eq_true_eq]
    exact ⟨by simpa using hhead y ys rfl, hX⟩

theorem noBN_pair {c d : Char} {t : List Char} (h : noBN (c :: d :: t) = true) :
    ¬ (c = '\\' ∧ d = 'n') := by
  simp only [noBN, Bool.decide_and, Bool.and_eq_true, decide_eq_true_eq] at h
  simpa using h.1

theorem noBN_repl2_aux : ∀ (n : ℕ) (l : List Char), l.length ≤ n →
    noBN (repl2 '\\' 'n' ['\n'] l) = true := by
  intro n
  induction n with
  | zero =>
    intro l hl
    have h0 : l = [] := List.length_eq_zero.1 (Nat.le_zero.1 hl)
    subst h0
    rfl
  | succ n ih =>
    intro l hl
    match l with
    | [] => rfl
    | [c] => rfl
    | c :: d :: t =>
      by_cases hm : c = '\\' ∧ d = 'n'
      · obtain ⟨rfl, rfl⟩ := hm
        rw [repl2_match]
        show noBN ('\n' :: repl2 '\\' 'n' ['\n'] t) = true
        refine noBN_cons (ih t (by simp at hl; omega)) ?_
        intro y ys hE hc
        exact absurd hc.1 (by decide)
      · rw [repl2_skip2 _ _ _ _ _ _ hm]
        refine noBN_cons (ih (d :: t) (by simp at hl ⊢; omega)) ?_
        intro y ys hE hc
        apply hm
        cases t with
        | nil =>
          rw [show repl2 '\\' 'n' ['\n'] [d] = [d] from rfl] at hE
          injection hE with h1 _
          exact ⟨hc.1, h1 ▸ hc.2⟩
        | cons e t' =>
          by_cases hm2 : d = '\\' ∧ e = 'n'
          · obtain ⟨rfl, rfl⟩ := hm2
            rw [repl2_match] at hE
            have h1 : '\n' = y := by
              have := congrArg (fun l : List Char => l.head?) hE
              simpa using this
            exact absurd (h1 ▸ hc.2) (by decide)
          · rw [repl2_skip2 _ _ _ _ _ _ hm2] at hE
            injection hE with h1 _
            exact ⟨hc.1, h1 ▸ hc.2⟩

theorem noBN_decodeEsc (s : List Char) : noBN (decodeEsc s) = true := by
  unfold decodeEsc
  exact noBN_repl2_aux _ _ (Nat.le_refl _)

theorem mem_decodeEsc {s : List Char} {x : Char} (hx : x ∈ decodeEsc s) :
    x = '\n' ∨ x = '\\' ∨ x = '"' ∨ x ∈ s := by
  unfold decodeEsc at hx
  rcases mem_repl2 _ _ _ _ _ (Nat.le_refl _) x hx with h | h
  · simp at h; exact Or.inl h
  · rcases mem_repl2 _ _ _ _ _ (Nat.le_refl _) x h with h | h
    · simp at h; exact Or.inr (Or.inl h)
    · rcases mem_repl2 _ _ _ _ _ (Nat.le_refl _) x h with h | h
      · simp at h; exact Or.inr (Or.inr (Or.inl h))
      · exact Or.inr (Or.inr (Or.inr h))

theorem mem_esc {v : List Char} {x : Char} (hx : x ∈ esc v) :
    x = '\\' ∨ x = '"' ∨ x = 'n' ∨ x ∈ v := by
  induction v with
  | nil => simp [esc] at hx
  | cons c t ih =>
    simp only [esc] at hx
    rcases List.mem_append.1 hx with hx | hx
    · unfold escUnit at hx
      split_ifs at hx with h1 h2 h3
      · simp at hx; exact Or.inl hx
      · rcases List.mem_cons.1 hx with h | h
        · exact Or.inl h
        · simp at h; exact Or.inr (Or.inl h)
      · rcases List.mem_cons.1 hx with h | h
        · exact Or.inl h
        · simp at h; exact Or.inr (Or.inr (Or.inl h))
      · simp at hx; exact Or.inr (Or.inr (Or.inr (by simp [hx])))
    · rcases ih hx with h | h | h | h
      · exact Or.inl h
      · exact Or.inr (Or.inl h)
      · exact Or.inr (Or.inr (Or.inl h))
      · exact Or.inr (Or.inr (Or.inr (by simp [h])))

theorem esc_head_ne_quote {t : List Char} {d : Char} {t' : List Char}
    (h : esc t = d :: t') : d ≠ '"' := by
  cases t with
  | nil => simp [esc] at h
  | cons c t2 =>
    simp only [esc, escUnit] at h
    split_ifs at h with h1 h2 h3
    · simp only [List.cons_append] at h
      injection h with hd _
      subst hd; decide
    · simp only [List.cons_append] at h
      injection h with hd _
      subst hd; decide
    · simp only [List.cons_append] at h
      injection h with hd _
      subst hd; decide
    · simp only [List.cons_append, List.nil_append] at h
      injection h with hd _
      subst hd; exact h2

theorem pass1_esc (v : List Char) :
    repl2 '\\' '"' ['"'] (esc v) = esc1 v := by
  induction v with
  | nil => rfl
  | cons c t ih =>
    by_cases h1 : c = '\\'
    · subst h1
      simp +decide only [esc, esc1, escUnit, esc1Unit, ite_true, ite_false,
        List.cons_append, List.nil_append]
      rw [repl2_skip2 _ _ _ _ _ _ (by decide)]
      congr 1
      cases hE : esc t with
      | nil =>
        rw [hE] at ih
        rw [show repl2 '\\' '"' ['"'] ([] : List Char) = [] from rfl] at ih
        rw [show repl2 '\\' '"' ['"'] ['\\'] = ['\\'] from rfl, ← ih]
      | cons d t2 =>
        have hd := esc_head_ne_quote hE
        rw [repl2_skip2 _ _ _ _ _ _ (fun hc => hd hc.2), ← hE, ih]
    · by_cases h2 : c = '"'
      · subst h2
        simp +decide only [esc, esc1, escUnit, esc1Unit, ite_true, ite_false,
        List.cons_append, List.nil_append]
        rw [repl2_match]
        simp only [List.cons_append, List.nil_append]
        rw [ih]
      · by_cases h3 : c = '\n'
        · subst h3
          simp +decide only [esc, esc1, escUnit, esc1Unit, ite_true, ite_false,
        List.cons_append, List.nil_append]
          rw [repl2_skip2 _ _ _ _ _ _ (by decide)]
          congr 1
          rw [repl2_skip _ _ _ _ _ (by decide), ih]
        · simp only [esc, esc1, escUnit, esc1Unit, if_neg h1, if_neg h2, if_neg h3,
            List.cons_append, List.nil_append]
          rw [repl2_skip _ _ _ _ _ h1, ih]

theorem pass2_esc1 (v : List Char) :
    repl2 '\\' '\\' ['\\'] (esc1 v) = esc2 v := by
  induction v with
  | nil => rfl
  | cons c t ih =>
    by_cases h1 : c = '\\'
    · subst h1
      simp +decide only [esc1, esc2, esc1Unit, esc2Unit, ite_true, ite_false,
        List.cons_append, List.nil_append]
      rw [repl2_match]
      simp only [List.cons_append, List.nil_append]
      rw [ih]
    · by_cases h2 : c = '\n'
      · subst h2
        simp +decide only [esc1, esc2, esc1Unit, esc2Unit, ite_true, ite_false,
        List.cons_append, List.nil_append]
        rw [repl2_skip2 _ _ _ _ _ _ (by decide)]
        congr 1
        rw [repl2_skip _ _ _ _ _ (by decide), ih]
      · simp only [esc1, esc2, esc1Unit, esc2Unit, if_neg h1, if_neg h2,
          List.cons_append, List.nil_append]
        rw [repl2_skip _ _ _ _ _ h1, ih]

theorem esc2_eq_nil {t : List Char} (h : esc2 t = []) : t = [] := by
  cases t with
  | nil => rfl
  | cons c t2 =>
    simp only [esc2, esc2Unit] at h
    split_ifs at h <;> simp at h

theorem pass3_esc2 (v : List Char) (hv : noBN v = true) :
    repl2 '\\' 'n' ['\n'] (esc2 v) = v := by
  induction v with
  | nil => rfl
  | cons c t ih =>
    by_cases h1 : c = '\n'
    · subst h1
      simp +decide only [esc2, esc2Unit, ite_true, ite_false,
        List.cons_append, List.nil_append]
      rw [repl2_match]
      simp only [List.cons_append, List.nil_append]
      rw [ih (noBN_tail hv)]
    · simp only [esc2, esc2Unit, if_neg h1, List.cons_append, List.nil_append]
      by_cases hc : c = '\\'
      · subst hc
        cases hE : esc2 t with
        | nil =>
          have ht : t = [] := esc2_eq_nil hE
          subst ht
          rfl
        | cons d t2 =>
          have hd : d ≠ 'n' := by
            cases t with
            | nil => simp [esc2] at hE
            | cons e t3 =>
              by_cases h2 : e = '\n'
              · subst h2
                simp +decide only [esc2, esc2Unit, ite_true, ite_false,
        List.cons_append, List.nil_append] at hE
                injection hE with hd2 _
                subst hd2; decide
              · simp only [esc2, esc2Unit, if_neg h2, List.cons_append,
                  List.nil_append] at hE
                injection hE with hd2 _
                subst hd2
                intro he
                exact noBN_pair hv ⟨rfl, he⟩
          rw [repl2_skip2 _ _ _ _ _ _ (fun hp => hd hp.2), ← hE,
            ih (noBN_tail hv)]
      · rw [repl2_skip _ _ _ _ _ hc, ih (noBN_tail hv)]

/-- Decoding inverts the canonical escaping on every value without a literal
backslash-n pair — in particular on every value a parse can produce. -/
theorem decodeEsc_esc (v : List Char) (hv : noBN v = true) :
    decodeEsc (esc v) = v := by
  unfold decodeEsc
  rw [pass1_esc, pass2_esc1, pass3_esc2 v hv]

theorem mem_upsert {k : String} {v : β} {o : List (String × β)}
    {p : String × β} (hp : p ∈ upsert k v o) : p ∈ o ∨ p = (k, v) := by
  induction o with
  | nil => simpa [upsert] using hp
  | cons kv0 t ih =>
    obtain ⟨k0, v0⟩ := kv0
    simp only [upsert] at hp
    by_cases h : k0 = k
    · rw [if_pos h] at hp
      rcases List.mem_cons.1 hp with h2 | h2
      · right; rw [h2, h]
      · left; exact List.mem_cons_of_mem _ h2
    · rw [if_neg h] at hp
      rcases List.mem_cons.1 hp with h2 | h2
      · left; simp [h2]
      · rcases ih h2 with h3 | h3
        · left; simp [h3]
        · right; exact h3

theorem upsert_keys_mem {k : String} (v : β) {o : List (String × β)}
    (h : k ∈ o.map Prod.fst) :
    (upsert k v o).map Prod.fst = o.map Prod.fst := by
  induction o with
  | nil => simp at h
  | cons kv0 t ih =>
    obtain ⟨k0, v0⟩ := kv0
    simp only [upsert]
    by_cases hk : k0 = k
    · rw [if_pos hk]; simp
    · rw [if_neg hk]
      simp only [List.map_cons] at h ⊢
      rcases List.mem_cons.1 h with h2 | h2
      · exact absurd h2.symm hk
      · rw [ih h2]

theorem upsert_not_mem {k : String} (v : β) {o : List (String × β)}
    (h : k ∉ o.map Prod.fst) : upsert k v o = o ++ [(k, v)] := by
  induction o with
  | nil => rfl
  | cons kv0 t ih =>
    obtain ⟨k0, v0⟩ := kv0
    simp only [upsert]
    have hk : k0 ≠ k := by
      intro he; exact h (by simp [he])
    rw [if_neg hk, ih (fun hm => h (by simp [hm]))]
    simp

theorem buildObj_fold_mem : ∀ (l acc : List (String × β)) (p : String × β),
    p ∈ l.foldl (fun o kv => upsert kv.1 kv.2 o) acc → p ∈ acc ∨ p ∈ l := by
  intro l
  induction l with
  | nil => intro acc p hp; exact Or.inl hp
  | cons kv t ih =>
    intro acc p hp
    rw [List.foldl_cons] at hp
    rcases ih _ p hp with hp2 | hp2
    · rcases mem_upsert hp2 with h | h
      · exact Or.inl h
      · right; simp [h]
    · right; exact List.mem_cons_of_mem _ hp2

theorem buildObj_mem {l : List (String × β)} {p : String × β}
    (h : p ∈ buildObj l) : p ∈ l := by
  rcases buildObj_fold_mem l [] p h with h2 | h2
  · simp at h2
  · exact h2

theorem buildObj_fold_keys_nodup : ∀ (l acc : List (String × β)),
    (acc.map Prod.fst).Nodup →
    ((l.foldl (fun o kv => upsert kv.1 kv.2 o) acc).map Prod.fst).Nodup := by
  intro l
  induction l with
  | nil => intro acc h; exact h
  | cons kv t ih =>
    intro acc h
    rw [List.foldl_cons]
    refine ih _ ?_
    by_cases hk : kv.1 ∈ acc.map Prod.fst
    · rw [upsert_keys_mem _ hk]; exact h
    · rw [upsert_not_mem _ hk]
      simp only [List.map_append, List.map_cons, List.map_nil]
      rw [List.nodup_append]
      refine ⟨h, by simp, ?_⟩
      intro a ha hb
      simp only [List.mem_singleton] at hb
      subst hb
      exact hk ha

theorem buildObj_keys_nodup (l : List (String × β)) :
    ((buildObj l).map Prod.fst).Nodup :=
  buildObj_fold_keys_nodup l [] (by simp)

theorem buildObj_fold_of_nodup : ∀ (l acc : List (String × β)),
    ((acc ++ l).map Prod.fst).Nodup →
    l.foldl (fun o kv => upsert kv.1 kv.2 o) acc = acc ++ l := by
  intro l
  induction l with
  | nil => intro acc h; simp
  | cons kv t ih =>
    intro acc h
    obtain ⟨k, v⟩ := kv
    rw [List.foldl_cons]
    have hk : k ∉ acc.map Prod.fst := by
      intro hm
      simp only [List.map_append, List.nodup_append, List.map_cons] at h
      exact h.2.2 hm (by simp)
    rw [upsert_not_mem _ hk]
    rw [ih (acc ++ [(k, v)]) (by simpa using h)]
    simp

theorem buildObj_of_nodup {l : List (String × β)}
    (h : (l.map Prod.fst).Nodup) : buildObj l = l := by
  unfold buildObj
  rw [buildObj_fold_of_nodup l [] (by simpa using h)]
  simp

/-- The exposition value token: `+Inf`/`-Inf`/`NaN` keywords, decimal text
otherwise (as Prometheus exposition text writes values). -/
def serializeVal : JsNum → List Char
  | .finite q => qToChars q
  | .inf => '+' :: 'I' :: 'n' :: 'f' :: []
  | .negInf => '-' :: 'I' :: 'n' :: 'f' :: []
  | .nan => 'N' :: 'a' :: 'N' :: []

/-- Comma-joined `key="escaped value"` pairs. -/
def serializeLabels : List (String × String) → List Char
  | [] => []
  | kv :: t =>
    kv.1.data ++ '=' :: '"' :: (esc kv.2.data ++ '"' ::
      (match t with
       | [] => []
       | _ :: _ => ',' :: serializeLabels t))

/-- A parsed sample, written back as one exposition line: name, the labels
in braces when there are any, a space, the value token. -/
def serializeSample (name : String) (labels : List (String × String))
    (v : JsNum) : List Char :=
  name.data ++
    (match labels with
     | [] => []
     | _ :: _ => '{' :: (serializeLabels labels ++ ['}'])) ++
    ' ' :: serializeVal v

theorem toNat_digit (n : ℕ) (h : n < 10) :
    (Char.ofNat (48 + n)).toNat = 48 + n := by
  interval_cases n <;> decide

theorem digitFacts (m : ℕ) (hm : m < 10) :
    isDigitChar (Char.ofNat (48 + m)) = true ∧
    isSpaceChar (Char.ofNat (48 + m)) = false ∧
    isValueChar (Char.ofNat (48 + m)) = true ∧
    Char.ofNat (48 + m) ≠ '-' ∧ Char.ofNat (48 + m) ≠ '+' ∧
    Char.ofNat (48 + m) ≠ '.' ∧ Char.ofNat (48 + m) ≠ 'I' ∧
    Char.ofNat (48 + m) ≠ '}' ∧ Char.ofNat (48 + m) ≠ 'n' := by
  interval_cases m <;> decide

theorem natToCharsAux_shape : ∀ (fuel n : ℕ),
    ∀ c ∈ natToCharsAux fuel n, ∃ m, m < 10 ∧ c = Char.ofNat (48 + m) := by
  intro fuel
  induction fuel with
  | zero => intro n c hc; simp [natToCharsAux] at hc
  | succ f ih =>
    intro n c hc
    unfold natToCharsAux at hc
    split_ifs at hc with h
    · simp only [List.mem_singleton] at hc
      exact ⟨n, h, hc⟩
    · rcases List.mem_append.1 hc with hc | hc
      · exact ih _ c hc
      · simp only [List.mem_singleton] at hc
        exact ⟨n % 10, Nat.mod_lt _ (by norm_num), hc⟩

theorem natToChars_shape (n : ℕ) :
    ∀ c ∈ natToChars n, ∃ m, m < 10 ∧ c = Char.ofNat (48 + m) :=
  natToCharsAux_shape _ n

theorem natToChars_ne_nil (n : ℕ) : natToChars n ≠ [] := by
  unfold natToChars natToCharsAux
  split_ifs <;> simp

theorem parseDigits_append (l : List Char) (c : Char) :
    parseDigits (l ++ [c]) = 10 * parseDigits l + (c.toNat - 48) := by
  unfold parseDigits
  rw [List.foldl_append]
  rfl

theorem parseDigits_natToCharsAux : ∀ (fuel n : ℕ), n ≤ fuel →
    parseDigits (natToCharsAux fuel n) = n := by
  intro fuel
  induction fuel with
  | zero =>
    intro n h
    interval_cases n
    rfl
  | succ f ih =>
    intro n h
    unfold natToCharsAux
    split_ifs with h10
    · show parseDigits [Char.ofNat (48 + n)] = n
      unfold parseDigits
      simp [toNat_digit n h10]
    · have hd : n / 10 < n := Nat.div_lt_self (by omega) (by norm_num)
      rw [parseDigits_append, ih (n / 10) (by omega),
        toNat_digit (n % 10) (Nat.mod_lt _ (by norm_num))]
      have := Nat.div_add_mod n 10
      omega

theorem parseDigits_natToChars (n : ℕ) : parseDigits (natToChars n) = n :=
  parseDigits_natToCharsAux _ n (Nat.le_succ n)

theorem parseDigits_cons_zero (l : List Char) :
    parseDigits ('0' :: l) = parseDigits l := by
  unfold parseDigits
  rw [List.foldl_cons]
  congr 1

theorem parseDigits_replicate_zero (z : ℕ) (l : List Char) :
    parseDigits (List.replicate z '0' ++ l) = parseDigits l := by
  induction z with
  | zero => simp
  | succ z ih =>
    rw [List.replicate_succ, List.cons_append, parseDigits_cons_zero, ih]

theorem natToCharsAux_length : ∀ (fuel n k : ℕ), 0 < k → n < 10 ^ k →
    n ≤ fuel → (natToCharsAux fuel n).length ≤ k := by
  intro fuel
  induction fuel with
  | zero => intro n k hk hn h; simp [natToCharsAux]
  | succ f ih =>
    intro n k hk hn h
    unfold natToCharsAux
    split_ifs with h10
    · simpa using hk
    · have hk2 : 2 ≤ k := by
        by_contra hlt
        have hk1 : k = 1 := by omega
        subst hk1
        simp at hn
        omega
      have h2 : 10 ^ k = 10 ^ (k - 1) * 10 := by
        rw [← pow_succ]
        congr 1
        omega
      have hdiv : n / 10 < 10 ^ (k - 1) :=
        (Nat.div_lt_iff_lt_mul (by norm_num)).2 (by omega)
      have hfuel : n / 10 ≤ f := by
        have := Nat.div_lt_self (show 0 < n by omega) (by norm_num : 1 < 10)
        omega
      have := ih (n / 10) (k - 1) (by omega) hdiv hfuel
      simp only [List.length_append, List.length_cons, List.length_nil]
      omega

theorem natToChars_length {n k : ℕ} (hk : 0 < k) (hn : n < 10 ^ k) :
    (natToChars n).length ≤ k :=
  natToCharsAux_length _ n k hk hn (Nat.le_succ n)

theorem decExpAux_sound : ∀ (b : ℕ) {d k : ℕ}, decExpAux d b = some k →
    d ∣ 10 ^ k := by
  intro b
  induction b with
  | zero =>
    intro d k h
    unfold decExpAux at h
    split_ifs at h with hd
    injection h with hk
    subst hk
    simpa using hd
  | succ b ih =>
    intro d k h
    unfold decExpAux at h
    cases hprev : decExpAux d b with
    | some k2 =>
      rw [hprev] at h
      injection h with hk
      subst hk
      exact ih hprev
    | none =>
      rw [hprev] at h
      split_ifs at h with hd
      injection h with hk
      subst hk
      exact hd

theorem decExpAux_complete : ∀ (b : ℕ) {d k : ℕ}, d ∣ 10 ^ k → k ≤ b →
    (decExpAux d b).isSome = true := by
  intro b
  induction b with
  | zero =>
    intro d k h hk
    have hk0 : k = 0 := by omega
    subst hk0
    unfold decExpAux
    rw [if_pos (by simpa using h)]
    rfl
  | succ b ih =>
    intro d k h hk
    unfold decExpAux
    cases hprev : decExpAux d b with
    | some k2 => rfl
    | none =>
      by_cases hkb : k ≤ b
      · have hsome := ih h hkb
        rw [hprev] at hsome
        simp at hsome
      · have hkk : k = b + 1 := by omega
        rw [if_pos (hkk ▸ h)]
        rfl

theorem dvd_ten_pow_self {d j : ℕ} (hd : d ≠ 0) (h : d ∣ 10 ^ j) :
    d ∣ 10 ^ d := by
  have hfac : d.factorization ≤ (10 ^ j).factorization :=
    (Nat.factorization_le_iff_dvd hd (by positivity)).2 h
  rw [← Nat.factorization_le_iff_dvd hd (by positivity),
    Nat.factorization_pow, Finsupp.le_def]
  intro p
  have hj := Finsupp.le_def.1 hfac p
  rw [Nat.factorization_pow, Finsupp.smul_apply, smul_eq_mul] at hj
  rw [Finsupp.smul_apply, smul_eq_mul]
  by_cases hp : (Nat.factorization 10) p = 0
  · rw [hp] at hj ⊢
    omega
  · have h2 : d.factorization p < d := Nat.factorization_lt p hd
    have h3 : 1 ≤ (Nat.factorization 10) p := Nat.one_le_iff_ne_zero.2 hp
    have h4 : d * 1 ≤ d * (Nat.factorization 10) p :=
      Nat.mul_le_mul_left d h3
    omega

theorem den_dvd_of_div (N : ℤ) (j : ℕ) (q : ℚ)
    (h : q = (N : ℚ) / ((10 : ℚ) ^ j)) : (q.den : ℕ) ∣ 10 ^ j := by
  have h1 : q = Rat.divInt N ((10 : ℤ) ^ j) := by
    rw [Rat.divInt_eq_div, h]
    norm_num
  have h2 := Rat.den_dvd N ((10 : ℤ) ^ j)
  rw [← h1] at h2
  exact_mod_cast h2

theorem den_dvd_shape (s : ℤ) (a b F : ℕ) (E : ℤ) :
    ∃ j, ((((s : ℚ) * ((a : ℚ) + (b : ℚ) / (10 : ℚ) ^ F) *
      (10 : ℚ) ^ E)).den : ℕ) ∣ 10 ^ j := by
  rcases le_or_lt 0 E with hE | hE
  · refine ⟨F, den_dvd_of_div (s * ((a : ℤ) * 10 ^ F + b) * 10 ^ E.toNat)
      F _ ?_⟩
    have hE2 : (10 : ℚ) ^ E = ((10 : ℚ) ^ E.toNat) := by
      rw [← zpow_natCast]
      congr 1
      omega
    rw [hE2]
    have hF : ((10 : ℚ) ^ F) ≠ 0 := by positivity
    push_cast
    field_simp
  · refine ⟨F + (-E).toNat, den_dvd_of_div (s * ((a : ℤ) * 10 ^ F + b))
      _ _ ?_⟩
    have hE2 : (10 : ℚ) ^ E = ((10 : ℚ) ^ ((-E).toNat))⁻¹ := by
      rw [← zpow_natCast, ← zpow_neg]
      congr 1
      omega
    rw [hE2]
    have hF : ((10 : ℚ) ^ F) ≠ 0 := by positivity
    have hG : ((10 : ℚ) ^ ((-E).toNat)) ≠ 0 := by positivity
    push_cast
    rw [pow_add]
    field_simp

theorem jsParseFloatC_den {l : List Char} {q : ℚ}
    (h : jsParseFloatC l = .finite q) : ∃ j : ℕ, (q.den : ℕ) ∣ 10 ^ j := by
  simp only [jsParseFloatC] at h
  split at h
  · split at h <;> exact absurd h (by simp)
  · split at h
    · exact absurd h (by simp)
    · injection h with hq
      subst hq
      exact den_dvd_shape _ _ _ _ _

theorem fallbackVal_den {tok : List Char} {q : ℚ}
    (h : fallbackVal tok = .finite q) : ∃ j : ℕ, (q.den : ℕ) ∣ 10 ^ j := by
  unfold fallbackVal at h
  split at h
  · by_cases h1 : tok = "+Inf".data ∨ tok = "Inf".data
    · rw [if_pos h1] at h
      exact absurd h (by simp)
    · rw [if_neg h1] at h
      by_cases h2 : tok = "-Inf".data
      · rw [if_pos h2] at h
        exact absurd h (by simp)
      · rw [if_neg h2] at h
        injection h with hq
        exact ⟨0, by rw [← hq]; simp⟩
  · rename_i v hne
    exact jsParseFloatC_den h

theorem shape_digit {l : List Char}
    (hs : ∀ c ∈ l, ∃ m, m < 10 ∧ c = Char.ofNat (48 + m)) :
    ∀ c ∈ l, isDigitChar c = true := by
  intro c hc
  obtain ⟨m, hm, rfl⟩ := hs c hc
  exact (digitFacts m hm).1

theorem isPrefixOf_cons_cons (a b : Char) (as bs : List Char) :
    List.isPrefixOf (a :: as) (b :: bs) = (a == b && List.isPrefixOf as bs) :=
  rfl

theorem jsParseFloat_decimal (ipart fpart : List Char) (hi : ipart ≠ [])
    (hishape : ∀ c ∈ ipart, ∃ m, m < 10 ∧ c = Char.ofNat (48 + m))
    (hfshape : ∀ c ∈ fpart, ∃ m, m < 10 ∧ c = Char.ofNat (48 + m)) :
    jsParseFloatC (ipart ++ '.' :: fpart) =
      .finite ((parseDigits ipart : ℚ) +
        (parseDigits fpart : ℚ) / (10 : ℚ) ^ fpart.length) := by
  obtain ⟨d, ds, rfl⟩ : ∃ d ds, ipart = d :: ds := by
    cases ipart with
    | nil => exact absurd rfl hi
    | cons d ds => exact ⟨d, ds, rfl⟩
  obtain ⟨m, hm, rfl⟩ := hishape d (by simp)
  obtain ⟨hdig, hsp, hval, hneg, hplus, hdot, hI, hbrace, hn⟩ := digitFacts m hm
  have hds_digit : ∀ c ∈ ds, isDigitChar c = true :=
    fun c hc => shape_digit hishape c (by simp [hc])
  have hfp_digit : ∀ c ∈ fpart, isDigitChar c = true := shape_digit hfshape
  have e1 : List.dropWhile isSpaceChar
      (Char.ofNat (48 + m) :: (ds ++ '.' :: fpart)) =
      Char.ofNat (48 + m) :: (ds ++ '.' :: fpart) := by
    rw [List.dropWhile_cons, if_neg (by simp [hsp])]
  have e2 : List.takeWhile isDigitChar
      (Char.ofNat (48 + m) :: (ds ++ '.' :: fpart)) =
      Char.ofNat (48 + m) :: ds := by
    rw [List.takeWhile_cons, if_pos hdig,
      takeWhile_all_append _ _ hds_digit (by decide)]
  have e3 : List.dropWhile isDigitChar
      (Char.ofNat (48 + m) :: (ds ++ '.' :: fpart)) = '.' :: fpart := by
    rw [List.dropWhile_cons, if_pos hdig]
    exact dropWhile_all_append _ _ hds_digit (by decide)
  have e4 : List.takeWhile isDigitChar fpart = fpart :=
    takeWhile_all hfp_digit
  have e5 : List.dropWhile isDigitChar fpart = [] :=
    dropWhile_all hfp_digit
  have hpre : (['I', 'n', 'f', 'i', 'n', 'i', 't', 'y'] : List Char).isPrefixOf
      (Char.ofNat (48 + m) :: (ds ++ '.' :: fpart)) = false := by
    rw [isPrefixOf_cons_cons]
    have hb : ('I' == Char.ofNat (48 + m)) = false := by
      rw [beq_eq_false_iff_ne]
      exact fun hc => hI hc.symm
    rw [hb, Bool.false_and]
  simp only [jsParseFloatC, List.cons_append, e1]
  have eL1 : (match Char.ofNat (48 + m) :: (ds ++ '.' :: fpart) with
      | '+' :: r => r
      | '-' :: r => r
      | r => r) = Char.ofNat (48 + m) :: (ds ++ '.' :: fpart) := by
    split
    · rename_i heq
      injection heq with h1 _
      exact absurd h1 hplus
    · rename_i heq
      injection heq with h1 _
      exact absurd h1 hneg
    · rfl
  have eS : (match Char.ofNat (48 + m) :: (ds ++ '.' :: fpart) with
      | '-' :: tail => (-1 : ℤ)
      | x => 1) = 1 := by
    split
    · rename_i heq
      injection heq with h1 _
      exact absurd h1 hneg
    · rfl
  simp only [eL1, eS, e2, e3, e4, e5]
  simp only [hpre, Bool.false_eq_true, if_false]
  rw [if_neg (by simp)]
  norm_num

theorem jsParseFloat_decimal_neg (ipart fpart : List Char) (hi : ipart ≠ [])
    (hishape : ∀ c ∈ ipart, ∃ m, m < 10 ∧ c = Char.ofNat (48 + m))
    (hfshape : ∀ c ∈ fpart, ∃ m, m < 10 ∧ c = Char.ofNat (48 + m)) :
    jsParseFloatC ('-' :: (ipart ++ '.' :: fpart)) =
      .finite (-((parseDigits ipart : ℚ) +
        (parseDigits fpart : ℚ) / (10 : ℚ) ^ fpart.length)) := by
  obtain ⟨d, ds, rfl⟩ : ∃ d ds, ipart = d :: ds := by
    cases ipart with
    | nil => exact absurd rfl hi
    | cons d ds => exact ⟨d, ds, rfl⟩
  obtain ⟨m, hm, rfl⟩ := hishape d (by simp)
  obtain ⟨hdig, hsp, hval, hneg, hplus, hdot, hI, hbrace, hn⟩ := digitFacts m hm
  have hds_digit : ∀ c ∈ ds, isDigitChar c = true :=
    fun c hc => shape_digit hishape c (by simp [hc])
  have hfp_digit : ∀ c ∈ fpart, isDigitChar c = true := shape_digit hfshape
  have e1 : List.dropWhile isSpaceChar
      ('-' :: (Char.ofNat (48 + m) :: (ds ++ '.' :: fpart))) =
      '-' :: (Char.ofNat (48 + m) :: (ds ++ '.' :: fpart)) := by
    rw [List.dropWhile_cons, if_neg (by decide)]
  have e2 : List.takeWhile isDigitChar
      (Char.ofNat (48 + m) :: (ds ++ '.' :: fpart)) =
      Char.ofNat (48 + m) :: ds := by
    rw [List.takeWhile_cons, if_pos hdig,
      takeWhile_all_append _ _ hds_digit (by decide)]
  have e3 : List.dropWhile isDigitChar
      (Char.ofNat (48 + m) :: (ds ++ '.' :: fpart)) = '.' :: fpart := by
    rw [List.dropWhile_cons, if_pos hdig]
    exact dropWhile_all_append _ _ hds_digit (by decide)
  have e4 : List.takeWhile isDigitChar fpart = fpart :=
    takeWhile_all hfp_digit
  have e5 : List.dropWhile isDigitChar fpart = [] :=
    dropWhile_all hfp_digit
  have hpre : (['I', 'n', 'f', 'i', 'n', 'i', 't', 'y'] : List Char).isPrefixOf
      (Char.ofNat (48 + m) :: (ds ++ '.' :: fpart)) = false := by
    rw [isPrefixOf_cons_cons]
    have hb : ('I' == Char.ofNat (48 + m)) = false := by
      rw [beq_eq_false_iff_ne]
      exact fun hc => hI hc.symm
    rw [hb, Bool.false_and]
  simp only [jsParseFloatC, List.cons_append, e1]
  have eL1 : (match '-' :: (Char.ofNat (48 + m) :: (ds ++ '.' :: fpart)) with
      | '+' :: r => r
      | '-' :: r => r
      | r => r) = Char.ofNat (48 + m) :: (ds ++ '.' :: fpart) := by
    split
    · rename_i heq
      injection heq with h1 _
      exact absurd h1 (by decide)
    · rename_i heq
      injection heq with _ h2
      exact h2.symm
    · rename_i h1 h2
      exact absurd rfl (h2 _)
  have eS : (match '-' :: (Char.ofNat (48 + m) :: (ds ++ '.' :: fpart)) with
      | '-' :: tail => (-1 : ℤ)
      | x => 1) = -1 := by
    split
    · rfl
    · rename_i hne
      exact absurd rfl (hne _)
  simp only [eL1, eS, e2, e3, e4, e5]
  simp only [hpre, Bool.false_eq_true, if_false]
  rw [if_neg (by simp)]
  norm_num

theorem jsParseFloat_int (ipart : List Char) (hi : ipart ≠ [])
    (hishape : ∀ c ∈ ipart, ∃ m, m < 10 ∧ c = Char.ofNat (48 + m)) :
    jsParseFloatC ipart = .finite (parseDigits ipart) := by
  obtain ⟨d, ds, rfl⟩ : ∃ d ds, ipart = d :: ds := by
    cases ipart with
    | nil => exact absurd rfl hi
    | cons d ds => exact ⟨d, ds, rfl⟩
  obtain ⟨m, hm, rfl⟩ := hishape d (by simp)
  obtain ⟨hdig, hsp, hval, hneg, hplus, hdot, hI, hbrace, hn⟩ := digitFacts m hm
  have hds_digit : ∀ c ∈ ds, isDigitChar c = true :=
    fun c hc => shape_digit hishape c (by simp [hc])
  have e1 : List.dropWhile isSpaceChar (Char.ofNat (48 + m) :: ds) =
      Char.ofNat (48 + m) :: ds := by
    rw [List.dropWhile_cons, if_neg (by simp [hsp])]
  have e2 : List.takeWhile isDigitChar (Char.ofNat (48 + m) :: ds) =
      Char.ofNat (48 + m) :: ds := by
    rw [List.takeWhile_cons, if_pos hdig, takeWhile_all hds_digit]
  have e3 : List.dropWhile isDigitChar (Char.ofNat (48 + m) :: ds) = [] := by
    rw [List.dropWhile_cons, if_pos hdig]
    exact dropWhile_all hds_digit
  have hpre : (['I', 'n', 'f', 'i', 'n', 'i', 't', 'y'] : List Char).isPrefixOf
      (Char.ofNat (48 + m) :: ds) = false := by
    rw [isPrefixOf_cons_cons]
    have hb : ('I' == Char.ofNat (48 + m)) = false := by
      rw [beq_eq_false_iff_ne]
      exact fun hc => hI hc.symm
    rw [hb, Bool.false_and]
  simp only [jsParseFloatC, e1]
  have eL1 : (match Char.ofNat (48 + m) :: ds with
      | '+' :: r => r
      | '-' :: r => r
      | r => r) = Char.ofNat (48 + m) :: ds := by
    split
    · rename_i heq
      injection heq with h1 _
      exact absurd h1 hplus
    · rename_i heq
      injection heq with h1 _
      exact absurd h1 hneg
    · rfl
  have eS : (match Char.ofNat (48 + m) :: ds with
      | '-' :: tail => (-1 : ℤ)
      | x => 1) = 1 := by
    split
    · rename_i heq
      injection heq with h1 _
      exact absurd h1 hneg
    · rfl
  simp only [eL1, eS, e2, e3]
  simp only [hpre, Bool.false_eq_true, if_false]
  rw [if_neg (by simp)]
  norm_num [show parseDigits ([] : List Char) = 0 from rfl]

theorem jsParseFloat_int_neg (ipart : List Char) (hi : ipart ≠ [])
    (hishape : ∀ c ∈ ipart, ∃ m, m < 10 ∧ c = Char.ofNat (48 + m)) :
    jsParseFloatC ('-' :: ipart) = .finite (-(parseDigits ipart : ℚ)) := by
  obtain ⟨d, ds, rfl⟩ : ∃ d ds, ipart = d :: ds := by
    cases ipart with
    | nil => exact absurd rfl hi
    | cons d ds => exact ⟨d, ds, rfl⟩
  obtain ⟨m, hm, rfl⟩ := hishape d (by simp)
  obtain ⟨hdig, hsp, hval, hneg, hplus, hdot, hI, hbrace, hn⟩ := digitFacts m hm
  have hds_digit : ∀ c ∈ ds, isDigitChar c = true :=
    fun c hc => shape_digit hishape c (by simp [hc])
  have e1 : List.dropWhile isSpaceChar ('-' :: (Char.ofNat (48 + m) :: ds)) =
      '-' :: (Char.ofNat (48 + m) :: ds) := by
    rw [List.dropWhile_cons, if_neg (by decide)]
  have e2 : List.takeWhile isDigitChar (Char.ofNat (48 + m) :: ds) =
      Char.ofNat (48 + m) :: ds := by
    rw [List.takeWhile_cons, if_pos hdig, takeWhile_all hds_digit]
  have e3 : List.dropWhile isDigitChar (Char.ofNat (48 + m) :: ds) = [] := by
    rw [List.dropWhile_cons, if_pos hdig]
    exact dropWhile_all hds_digit
  have hpre : (['I', 'n', 'f', 'i', 'n', 'i', 't', 'y'] : List Char).isPrefixOf
      (Char.ofNat (48 + m) :: ds) = false := by
    rw [isPrefixOf_cons_cons]
    have hb : ('I' == Char.ofNat (48 + m)) = false := by
      rw [beq_eq_false_iff_ne]
      exact fun hc => hI hc.symm
    rw [hb, Bool.false_and]
  simp only [jsParseFloatC, e1]
  have eL1 : (match '-' :: (Char.ofNat (48 + m) :: ds) with
      | '+' :: r => r
      | '-' :: r => r
      | r => r) = Char.ofNat (48 + m) :: ds := by
    split
    · rename_i heq
      injection heq with h1 _
      exact absurd h1 (by decide)
    · rename_i heq
      injection heq with _ h2
      exact h2.symm
    · rename_i h1 h2
      exact absurd rfl (h2 _)
  have eS : (match '-' :: (Char.ofNat (48 + m) :: ds) with
      | '-' :: tail => (-1 : ℤ)
      | x => 1) = -1 := by
    split
    · rfl
    · rename_i hne
      exact absurd rfl (hne _)
  simp only [eL1, eS, e2, e3]
  simp only [hpre, Bool.false_eq_true, if_false]
  rw [if_neg (by simp)]
  norm_num [show parseDigits ([] : List Char) = 0 from rfl]

theorem jsParseFloat_qToChars (q : ℚ) (hq : ∃ j, (q.den : ℕ) ∣ 10 ^ j) :
    jsParseFloatC (qToChars q) = .finite q := by
  unfold qToChars
  by_cases h1 : q.den = 1
  · rw [if_pos h1]
    have hq2 : (q.num : ℚ) = q := by
      have h2 := Rat.num_div_den q
      rw [h1] at h2
      simpa using h2
    unfold intToChars
    by_cases h2 : q.num < 0
    · rw [if_pos h2]
      rw [jsParseFloat_int_neg _ (natToChars_ne_nil _) (natToChars_shape _),
        parseDigits_natToChars]
      congr 1
      have habs : ((q.num.natAbs : ℕ) : ℚ) = -(q.num : ℚ) := by
        rw [Int.cast_natAbs (R := ℚ), abs_of_neg (by assumption : q.num < 0)]
        push_cast
        ring
      rw [habs, neg_neg]
      exact hq2
    · rw [if_neg h2]
      rw [jsParseFloat_int _ (natToChars_ne_nil _) (natToChars_shape _),
        parseDigits_natToChars]
      congr 1
      have habs : ((q.num.natAbs : ℕ) : ℚ) = (q.num : ℚ) := by
        rw [Int.cast_natAbs (R := ℚ),
          abs_of_nonneg (not_lt.1 (by assumption : ¬ q.num < 0))]
      rw [habs]
      exact hq2
  · rw [if_neg h1]
    obtain ⟨j, hj⟩ := hq
    have hd0 : q.den ≠ 0 := q.den_nz
    have hdd : q.den ∣ 10 ^ q.den := dvd_ten_pow_self hd0 hj
    have hsome := decExpAux_complete q.den hdd (Nat.le_refl q.den)
    obtain ⟨k, hk⟩ := Option.isSome_iff_exists.1 hsome
    simp only [hk]
    have hk10 : q.den ∣ 10 ^ k := decExpAux_sound _ hk
    have hkpos : 0 < k := by
      rcases Nat.eq_zero_or_pos k with hk0 | hk0
      · subst hk0
        rw [pow_zero] at hk10
        exact absurd (Nat.dvd_one.1 hk10) h1
      · exact hk0
    generalize hgen : q.num.natAbs * 10 ^ k / q.den = n
    have hdvd_mul : q.den ∣ q.num.natAbs * 10 ^ k := Dvd.dvd.mul_left hk10 _
    have hmul : n * q.den = q.num.natAbs * 10 ^ k := by
      rw [← hgen]
      exact Nat.div_mul_cancel hdvd_mul
    have hmodlt : n % 10 ^ k < 10 ^ k := Nat.mod_lt _ (by positivity)
    have hflen_le : (natToChars (n % 10 ^ k)).length ≤ k :=
      natToChars_length hkpos hmodlt
    have hfshape : ∀ c ∈ (List.replicate
        (k - (natToChars (n % 10 ^ k)).length) '0' ++
        natToChars (n % 10 ^ k)), ∃ m, m < 10 ∧ c = Char.ofNat (48 + m) := by
      intro c hc
      rcases List.mem_append.1 hc with hc | hc
      · have hc0 := List.eq_of_mem_replicate hc
        exact ⟨0, by norm_num, by subst hc0; decide⟩
      · exact natToChars_shape _ c hc
    have hfplen : (List.replicate (k - (natToChars (n % 10 ^ k)).length) '0' ++
        natToChars (n % 10 ^ k)).length = k := by
      simp only [List.length_append, List.length_replicate]
      omega
    have h10 : ((10 : ℚ) ^ k) ≠ 0 := by positivity
    have hden : ((q.den : ℚ)) ≠ 0 := Nat.cast_ne_zero.2 hd0
    have hcast : ((10 : ℚ) ^ k) * ((n / 10 ^ k : ℕ) : ℚ) +
        ((n % 10 ^ k : ℕ) : ℚ) = (n : ℚ) := by
      exact_mod_cast congrArg (fun x : ℕ => (x : ℚ)) (Nat.div_add_mod n (10 ^ k))
    have hnd : (n : ℚ) * (q.den : ℚ) = (q.num.natAbs : ℚ) * (10 : ℚ) ^ k := by
      exact_mod_cast congrArg (fun x : ℕ => (x : ℚ)) hmul
    have key : ((n / 10 ^ k : ℕ) : ℚ) + ((n % 10 ^ k : ℕ) : ℚ) / (10 : ℚ) ^ k
        = (q.num.natAbs : ℚ) / (q.den : ℚ) := by
      have e : ((n / 10 ^ k : ℕ) : ℚ) + ((n % 10 ^ k : ℕ) : ℚ) / (10 : ℚ) ^ k
          = (n : ℚ) / (10 : ℚ) ^ k := by
        rw [eq_div_iff h10, add_mul, div_mul_cancel₀ _ h10]
        linarith [hcast]
      rw [e, div_eq_div_iff h10 hden]
      linarith [hnd]
    by_cases hs : q.num < 0
    · rw [if_pos hs]
      simp only [List.cons_append, List.nil_append]
      rw [jsParseFloat_decimal_neg _ _ (natToChars_ne_nil _)
        (natToChars_shape _) hfshape]
      rw [hfplen, parseDigits_natToChars, parseDigits_replicate_zero,
        parseDigits_natToChars]
      congr 1
      have habs : ((q.num.natAbs : ℕ) : ℚ) = -(q.num : ℚ) := by
        rw [Int.cast_natAbs (R := ℚ), abs_of_neg (by assumption : q.num < 0)]
        push_cast
        ring
      rw [key, habs, neg_div, neg_neg]
      exact Rat.num_div_den q
    · rw [if_neg hs]
      simp only [List.nil_append]
      rw [jsParseFloat_decimal _ _ (natToChars_ne_nil _)
        (natToChars_shape _) hfshape]
      rw [hfplen, parseDigits_natToChars, parseDigits_replicate_zero,
        parseDigits_natToChars]
      congr 1
      have habs : ((q.num.natAbs : ℕ) : ℚ) = (q.num : ℚ) := by
        rw [Int.cast_natAbs (R := ℚ),
          abs_of_nonneg (not_lt.1 (by assumption : ¬ q.num < 0))]
      rw [key, habs]
      exact Rat.num_div_den q

theorem qToChars_ne_nil (q : ℚ) : qToChars q ≠ [] := by
  unfold qToChars
  have hint : intToChars q.num ≠ [] := by
    unfold intToChars
    split_ifs
    · simp
    · exact natToChars_ne_nil _
  by_cases h1 : q.den = 1
  · rw [if_pos h1]
    exact hint
  · rw [if_neg h1]
    cases hk : decExpAux q.den q.den with
    | none => exact hint
    | some k => simp [List.append_eq_nil]

theorem qToChars_valueChars (q : ℚ) :
    ∀ c ∈ qToChars q, isValueChar c = true := by
  unfold qToChars
  intro c hc
  have hint : ∀ c2 ∈ intToChars q.num, isValueChar c2 = true := by
    intro c2 hc2
    unfold intToChars at hc2
    split_ifs at hc2
    · rcases List.mem_cons.1 hc2 with h | h
      · subst h; decide
      · obtain ⟨m, hm, rfl⟩ := natToChars_shape _ c2 h
        exact (digitFacts m hm).2.2.1
    · obtain ⟨m, hm, rfl⟩ := natToChars_shape _ c2 hc2
      exact (digitFacts m hm).2.2.1
  by_cases h1 : q.den = 1
  · rw [if_pos h1] at hc
    exact hint c hc
  · rw [if_neg h1] at hc
    cases hk : decExpAux q.den q.den with
    | none =>
      simp only [hk] at hc
      exact hint c hc
    | some k =>
      simp only [hk, List.mem_append, List.mem_cons] at hc
      rcases hc with (hc | hc) | hc | hc | hc
      · split_ifs at hc with hs
        · simp only [List.mem_singleton] at hc
          subst hc; decide
        · simp at hc
      · obtain ⟨m, hm, rfl⟩ := natToChars_shape _ c hc
        exact (digitFacts m hm).2.2.1
      · subst hc; decide
      · have hc0 := List.eq_of_mem_replicate hc
        subst hc0; decide
      · obtain ⟨m, hm, rfl⟩ := natToChars_shape _ c hc
        exact (digitFacts m hm).2.2.1

theorem serializeVal_ne_nil (v : JsNum) : serializeVal v ≠ [] := by
  cases v with
  | finite q => exact qToChars_ne_nil q
  | inf => simp [serializeVal]
  | negInf => simp [serializeVal]
  | nan => simp [serializeVal]

theorem serializeVal_valueChars (v : JsNum) :
    ∀ c ∈ serializeVal v, isValueChar c = true := by
  cases v with
  | finite q => exact qToChars_valueChars q
  | inf => decide
  | negInf => decide
  | nan => decide

theorem fallbackVal_serializeVal {v : JsNum} (hv : v ≠ .nan)
    (hden : ∀ q : ℚ, v = .finite q → ∃ j, (q.den : ℕ) ∣ 10 ^ j) :
    fallbackVal (serializeVal v) = v := by
  cases v with
  | finite q =>
    show fallbackVal (qToChars q) = .finite q
    unfold fallbackVal
    rw [jsParseFloat_qToChars q (hden q rfl)]
  | inf => decide
  | negInf => decide
  | nan => exact absurd rfl hv

theorem scanBody_cons_plain {c : Char} (l : List Char) (h1 : c ≠ '"')
    (h2 : c ≠ '\\') :
    scanBody (c :: l) = (scanBody l).map (fun p => (c :: p.1, p.2)) := by
  conv_lhs => unfold scanBody
  split
  · rename_i heq
    exact absurd heq (by simp)
  · rename_i r heq
    injection heq with hd _
    exact absurd hd h1
  · rename_i heq
    injection heq with hd _
    exact absurd hd h2
  · rename_i x r heq
    injection heq with hd _
    exact absurd hd h2
  · rename_i c2 r h3 h4 h5 heq
    injection heq with hd htl
    subst hd
    subst htl
    cases hs : scanBody l with
    | none => simp
    | some p =>
      obtain ⟨b, rest⟩ := p
      simp

theorem scanBody_esc (v rest : List Char) :
    scanBody (esc v ++ '"' :: rest) = some (esc v, rest) := by
  induction v with
  | nil => rfl
  | cons c t ih =>
    by_cases h1 : c = '\\'
    · subst h1
      simp +decide only [esc, escUnit, ite_true, ite_false, List.cons_append,
        List.nil_append]
      rw [show scanBody ('\\' :: '\\' :: (esc t ++ '"' :: rest)) =
          (match scanBody (esc t ++ '"' :: rest) with
           | some (b, r2) => some ('\\' :: '\\' :: b, r2)
           | none => none) from rfl]
      rw [ih]
    · by_cases h2 : c = '"'
      · subst h2
        simp +decide only [esc, escUnit, ite_true, ite_false,
          List.cons_append, List.nil_append]
        rw [show scanBody ('\\' :: '"' :: (esc t ++ '"' :: rest)) =
            (match scanBody (esc t ++ '"' :: rest) with
             | some (b, r2) => some ('\\' :: '"' :: b, r2)
             | none => none) from rfl]
        rw [ih]
      · by_cases h3 : c = '\n'
        · subst h3
          simp +decide only [esc, escUnit, ite_true, ite_false,
            List.cons_append, List.nil_append]
          rw [show scanBody ('\\' :: 'n' :: (esc t ++ '"' :: rest)) =
              (match scanBody (esc t ++ '"' :: rest) with
               | some (b, r2) => some ('\\' :: 'n' :: b, r2)
               | none => none) from rfl]
          rw [ih]
        · simp only [esc, escUnit, if_neg h1, if_neg h2, if_neg h3,
            List.cons_append, List.nil_append]
          rw [scanBody_cons_plain _ h2 h1, ih]
          rfl

theorem matchLabelAt_serialized (k : String) (v rest : List Char)
    (hk : ∃ c cs, k.data = c :: cs ∧ isKeyStart c = true ∧
      ∀ x ∈ cs, isKeyChar x = true) :
    matchLabelAt (k.data ++ '=' :: '"' :: (esc v ++ '"' :: rest)) =
      some ((k, esc v), rest) := by
  obtain ⟨c, cs, hkd, hcs, hall⟩ := hk
  rw [hkd, List.cons_append]
  simp only [matchLabelAt]
  rw [if_pos hcs]
  rw [dropWhile_all_append _ _ hall (by decide : ¬ isKeyChar '=' = true)]
  split
  · rename_i r2 heq
    injection heq with _ heq2
    injection heq2 with _ heq3
    subst heq3
    rw [scanBody_esc]
    rw [takeWhile_all_append _ _ hall (by decide : ¬ isKeyChar '=' = true),
      ← hkd]
  · rename_i hne
    exact absurd rfl (hne _)

theorem matchLabelAt_comma (l : List Char) :
    matchLabelAt (',' :: l) = none := by
  simp only [matchLabelAt]
  rw [if_neg (by decide)]

theorem extractLabels_serializeLabels : ∀ (labels : List (String × String)),
    (∀ kv ∈ labels, ∃ c cs, kv.1.data = c :: cs ∧ isKeyStart c = true ∧
      ∀ x ∈ cs, isKeyChar x = true) →
    extractLabels (serializeLabels labels) =
      labels.map (fun kv => (kv.1, esc kv.2.data)) := by
  intro labels
  induction labels with
  | nil => intro h; rfl
  | cons kv t ih =>
    intro h
    obtain ⟨c, cs, hkd, hcs, hall⟩ := h kv (by simp)
    cases t with
    | nil =>
      have hm := matchLabelAt_serialized kv.1 kv.2.data [] ⟨c, cs, hkd, hcs, hall⟩
      rw [show serializeLabels [kv] = kv.1.data ++ '=' :: '"' ::
          (esc kv.2.data ++ '"' :: []) from rfl]
      rw [hkd, List.cons_append]
      rw [extractLabels_match (by rw [← List.cons_append, ← hkd]; exact hm)]
      rfl
    | cons kv2 t2 =>
      have hm := matchLabelAt_serialized kv.1 kv.2.data
        (',' :: serializeLabels (kv2 :: t2)) ⟨c, cs, hkd, hcs, hall⟩
      rw [show serializeLabels (kv :: kv2 :: t2) = kv.1.data ++ '=' :: '"' ::
          (esc kv.2.data ++ '"' :: (',' :: serializeLabels (kv2 :: t2)))
          from rfl]
      rw [hkd, List.cons_append]
      rw [extractLabels_match (by rw [← List.cons_append, ← hkd]; exact hm)]
      rw [extractLabels_skip (matchLabelAt_comma _)]
      rw [ih (fun kv3 hk3 => h kv3 (by simp [hk3]))]
      simp

theorem matchData_nolabel (nh : Char) (nt : List Char) (vh : Char)
    (vt : List Char)
    (hnh : isNameStart nh = true)
    (hnt : ∀ c ∈ nt, isNameChar c = true)
    (hvh : isValueChar vh = true)
    (hvt : ∀ c ∈ vt, isValueChar c = true) :
    matchData (nh :: nt ++ ' ' :: vh :: vt) =
      some ⟨nh :: nt, none, vh :: vt⟩ := by
  have hvs : isSpaceChar vh = false := valueChar_not_space hvh
  have htk : (nt ++ ' ' :: vh :: vt).takeWhile isNameChar = nt :=
    takeWhile_all_append _ _ hnt (by decide)
  have hdr : (nt ++ ' ' :: vh :: vt).dropWhile isNameChar = ' ' :: vh :: vt :=
    dropWhile_all_append _ _ hnt (by decide)
  have htk3 : vt.takeWhile isValueChar = vt := takeWhile_all hvt
  have hdr3 : vt.dropWhile isValueChar = [] := dropWhile_all hvt
  unfold matchData
  simp only [List.cons_append, List.append_assoc]
  rw [if_pos hnh]
  simp only [htk, hdr]
  have hlab : (match (' ' :: vh :: vt : List Char) with
      | '{' :: r =>
        match List.dropWhile (fun d => decide (d ≠ '}')) r with
        | '}' :: r2 =>
          some (some (List.takeWhile (fun d => decide (d ≠ '}')) r), r2)
        | x => none
      | x => some (none, ' ' :: vh :: vt) :
        Option (Option (List Char) × List Char)) =
      some (none, ' ' :: vh :: vt) := by
    split
    · rename_i heq
      injection heq with hd _
      exact absurd hd (by decide)
    · rfl
  simp only [hlab, List.dropWhile_cons, hvs, Bool.false_eq_true, if_false,
    htk3, hdr3]
  rw [if_pos (by decide : isSpaceChar ' ' = true), if_pos hvh]

theorem scanBody_sub_aux : ∀ (n : ℕ) {s b rest : List Char}, s.length ≤ n →
    scanBody s = some (b, rest) →
    (∀ x ∈ b, x ∈ s) ∧ (∀ x ∈ rest, x ∈ s) := by
  intro n
  induction n with
  | zero =>
    intro s b rest hle h
    cases s with
    | nil => simp [scanBody] at h
    | cons c r => simp at hle
  | succ n ih =>
    intro s b rest hle h
    unfold scanBody at h
    split at h
    · exact absurd h (by simp)
    · rename_i r
      simp only [Option.some.injEq, Prod.mk.injEq] at h
      obtain ⟨hb, hr⟩ := h
      subst hb
      subst hr
      exact ⟨by simp, fun x hx => by simp [hx]⟩
    · exact absurd h (by simp)
    · rename_i x r
      split at h
      · rename_i b' rest' hs
        simp only [Option.some.injEq, Prod.mk.injEq] at h
        obtain ⟨hb, hr⟩ := h
        subst hb
        subst hr
        obtain ⟨h1, h2⟩ := ih (s := r) (by simp at hle ⊢; omega) hs
        constructor
        · intro y hy
          rcases List.mem_cons.1 hy with hy | hy
          · simp [hy]
          · rcases List.mem_cons.1 hy with hy | hy
            · simp [hy]
            · simp only [List.mem_cons]
              exact Or.inr (Or.inr (h1 y hy))
        · intro y hy
          simp only [List.mem_cons]
          exact Or.inr (Or.inr (h2 y hy))
      · exact absurd h (by simp)
    · rename_i c r hh1 hh2 hh3
      split at h
      · rename_i b' rest' hs
        simp only [Option.some.injEq, Prod.mk.injEq] at h
        obtain ⟨hb, hr⟩ := h
        subst hb
        subst hr
        obtain ⟨h1, h2⟩ := ih (s := r) (by simp at hle ⊢; omega) hs
        constructor
        · intro y hy
          rcases List.mem_cons.1 hy with hy | hy
          · simp [hy]
          · simp only [List.mem_cons]
            exact Or.inr (h1 y hy)
        · intro y hy
          simp only [List.mem_cons]
          exact Or.inr (h2 y hy)
      · exact absurd h (by simp)

theorem scanBody_sub {s b rest : List Char} (h : scanBody s = some (b, rest)) :
    (∀ x ∈ b, x ∈ s) ∧ (∀ x ∈ rest, x ∈ s) :=
  scanBody_sub_aux s.length (Nat.le_refl _) h

theorem matchLabelAt_inv {s : List Char} {kv : String × List Char}
    {rest : List Char} (h : matchLabelAt s = some (kv, rest)) :
    (∃ c cs, kv.1.data = c :: cs ∧ isKeyStart c = true ∧
      ∀ x ∈ cs, isKeyChar x = true) ∧
    (∀ x ∈ kv.2, x ∈ s) ∧ (∀ x ∈ rest, x ∈ s) := by
  unfold matchLabelAt at h
  split at h
  · exact absurd h (by simp)
  · rename_i c r
    split at h
    · rename_i hks
      split at h
      · rename_i r2 hdrop
        split at h
        · rename_i b' rest' hscan
          simp only [Option.some.injEq, Prod.mk.injEq] at h
          obtain ⟨⟨hk, hb⟩, hr⟩ := h
          subst hr
          obtain ⟨hsub1, hsub2⟩ := scanBody_sub hscan
          have hr2sub : ∀ x ∈ r2, x ∈ c :: r := by
            intro x hx
            have hx2 : x ∈ '=' :: '"' :: r2 := by simp [hx]
            rw [← hdrop] at hx2
            exact List.mem_cons_of_mem _
              ((List.dropWhile_sublist isKeyChar).subset hx2)
          refine ⟨?_, ?_, ?_⟩
          · exact ⟨c, r.takeWhile isKeyChar, rfl, hks,
              fun x hx => mem_takeWhile_pred hx⟩
          · intro x hx
            exact hr2sub x (hsub1 x hx)
          · intro x hx
            exact hr2sub x (hsub2 x hx)
        · exact absurd h (by simp)
      · exact absurd h (by simp)
    · exact absurd h (by simp)

theorem extractLabelsAux_inv : ∀ (fuel : ℕ) (s : List Char)
    (kv : String × List Char), kv ∈ extractLabelsAux fuel s →
    (∃ c cs, kv.1.data = c :: cs ∧ isKeyStart c = true ∧
      ∀ x ∈ cs, isKeyChar x = true) ∧ (∀ x ∈ kv.2, x ∈ s) := by
  intro fuel
  induction fuel with
  | zero => intro s kv h; simp [extractLabelsAux] at h
  | succ f ih =>
    intro s kv h
    cases s with
    | nil =>
      rw [show extractLabelsAux (f + 1) [] = [] from rfl] at h
      simp at h
    | cons c r =>
      rw [show extractLabelsAux (f + 1) (c :: r) =
          (match matchLabelAt (c :: r) with
           | some (kv2, rest) => kv2 :: extractLabelsAux f rest
           | none => extractLabelsAux f r) from rfl] at h
      cases hm : matchLabelAt (c :: r) with
      | some p =>
        obtain ⟨kv2, rest⟩ := p
        simp only [hm] at h
        rcases List.mem_cons.1 h with h | h
        · subst h
          obtain ⟨hkey, hb, hrest⟩ := matchLabelAt_inv hm
          exact ⟨hkey, hb⟩
        · obtain ⟨hkey, hsub⟩ := ih rest kv h
          obtain ⟨-, -, hrest⟩ := matchLabelAt_inv hm
          exact ⟨hkey, fun x hx => hrest x (hsub x hx)⟩
      | none =>
        simp only [hm] at h
        obtain ⟨hkey, hsub⟩ := ih r kv h
        exact ⟨hkey, fun x hx => List.mem_cons_of_mem _ (hsub x hx)⟩

theorem extractLabels_inv {s : List Char} {kv : String × List Char}
    (h : kv ∈ extractLabels s) :
    (∃ c cs, kv.1.data = c :: cs ∧ isKeyStart c = true ∧
      ∀ x ∈ cs, isKeyChar x = true) ∧ (∀ x ∈ kv.2, x ∈ s) :=
  extractLabelsAux_inv _ s kv h

theorem matchData_inv {s : List Char} {md : DataMatch}
    (h : matchData s = some md) :
    (∃ c cs, md.name = c :: cs ∧ isNameStart c = true ∧
      ∀ x ∈ cs, isNameChar x = true) ∧
    (∀ ls, md.labelStr = some ls → ∀ x ∈ ls, x ≠ '}') := by
  simp only [matchData] at h
  split at h
  · exact absurd h (by simp)
  · rename_i c r
    split at h
    · rename_i hns
      split at h
      · exact absurd h (by simp)
      · rename_i lab r2 hlabres
        have hlab : ∀ ls, lab = some ls → ∀ x ∈ ls, x ≠ '}' := by
          intro ls hls x hx
          split at hlabres
          · split at hlabres
            · rename_i r3 hdrop
              simp only [Option.some.injEq, Prod.mk.injEq] at hlabres
              obtain ⟨hl, -⟩ := hlabres
              rw [← hl] at hls
              injection hls with hls2
              rw [← hls2] at hx
              have := mem_takeWhile_pred hx
              simpa using this
            · exact absurd hlabres (by simp)
          · simp only [Option.some.injEq, Prod.mk.injEq] at hlabres
            obtain ⟨hl, -⟩ := hlabres
            rw [← hl] at hls
            exact absurd hls (by simp)
        split at h
        · exact absurd h (by simp)
        · rename_i w wr
          split at h
          · split at h
            · exact absurd h (by simp)
            · rename_i v2 vr
              split at h
              · split at h
                · rename_i t tr
                  simp only [Option.some.injEq] at h
                  subst h
                  refine ⟨⟨c, r.takeWhile isNameChar, rfl, hns,
                    fun x hx => mem_takeWhile_pred hx⟩, hlab⟩
                · split at h
                  · split at h
                    · simp only [Option.some.injEq] at h
                      subst h
                      refine ⟨⟨c, r.takeWhile isNameChar, rfl, hns,
                        fun x hx => mem_takeWhile_pred hx⟩, hlab⟩
                    · exact absurd h (by simp)
                  · exact absurd h (by simp)
              · exact absurd h (by simp)
          · exact absurd h (by simp)
    · exact absurd h (by simp)

theorem keyStart_ne_brace {c : Char} (h : isKeyStart c = true) : c ≠ '}' := by
  intro he
  subst he
  exact absurd h (by decide)

theorem keyChar_ne_brace {c : Char} (h : isKeyChar c = true) : c ≠ '}' := by
  intro he
  subst he
  exact absurd h (by decide)

theorem serializeLabels_chars : ∀ (labels : List (String × String)),
    (∀ kv ∈ labels, (∃ c cs, kv.1.data = c :: cs ∧ isKeyStart c = true ∧
      ∀ x ∈ cs, isKeyChar x = true) ∧ ∀ x ∈ kv.2.data, x ≠ '}') →
    ∀ x ∈ serializeLabels labels, x ≠ '}' := by
  intro labels
  induction labels with
  | nil => intro h x hx; simp [serializeLabels] at hx
  | cons kv t ih =>
    intro h x hx
    obtain ⟨⟨c, cs, hkd, hcs, hall⟩, hv⟩ := h kv (by simp)
    cases t with
    | nil =>
      rw [show serializeLabels [kv] = kv.1.data ++ '=' :: '"' ::
          (esc kv.2.data ++ '"' :: []) from rfl] at hx
      rcases List.mem_append.1 hx with hx | hx
      · rw [hkd] at hx
        rcases List.mem_cons.1 hx with hx | hx
        · subst hx
          exact keyStart_ne_brace hcs
        · exact keyChar_ne_brace (hall x hx)
      · rcases List.mem_cons.1 hx with hx | hx
        · subst hx; decide
        · rcases List.mem_cons.1 hx with hx | hx
          · subst hx; decide
          · rcases List.mem_append.1 hx with hx | hx
            · rcases mem_esc hx with hx | hx | hx | hx
              · subst hx; decide
              · subst hx; decide
              · subst hx; decide
              · exact hv x hx
            · rcases List.mem_cons.1 hx with hx | hx
              · subst hx; decide
              · simp at hx
    | cons kv2 t2 =>
      rw [show serializeLabels (kv :: kv2 :: t2) = kv.1.data ++ '=' :: '"' ::
          (esc kv.2.data ++ '"' :: (',' :: serializeLabels (kv2 :: t2)))
          from rfl] at hx
      rcases List.mem_append.1 hx with hx | hx
      · rw [hkd] at hx
        rcases List.mem_cons.1 hx with hx | hx
        · subst hx
          exact keyStart_ne_brace hcs
        · exact keyChar_ne_brace (hall x hx)
      · rcases List.mem_cons.1 hx with hx | hx
        · subst hx; decide
        · rcases List.mem_cons.1 hx with hx | hx
          · subst hx; decide
          · rcases List.mem_append.1 hx with hx | hx
            · rcases mem_esc hx with hx | hx | hx | hx
              · subst hx; decide
              · subst hx; decide
              · subst hx; decide
              · exact hv x hx
            · rcases List.mem_cons.1 hx with hx | hx
              · subst hx; decide
              · rcases List.mem_cons.1 hx with hx | hx
                · subst hx; decide
                · exact ih (fun kv3 hk3 => h kv3 (by simp [hk3])) x hx

/-- C2: for every valid data line — one the data regex accepts, with any
well-formed label list whose values may use the escapes `\"`, `\\` and
`\n`, and a numeric value — serializing the parsed sample back to
exposition text (canonical escaping, comma-joined labels in braces,
Prometheus value tokens) and parsing that line again recovers exactly the
original metric name, decoded label map, and value. -/
theorem c2_roundtrip {t : List Char} {name : String}
    {labels : List (String × String)} {v : JsNum}
    (h : dataLineParse t = some (name, labels, v)) :
    dataLineParse (serializeSample name labels v) = some (name, labels, v) := by
  unfold dataLineParse at h
  split at h
  · exact absurd h (by simp)
  · rename_i md hmd
    simp only [Option.some.injEq, Prod.mk.injEq] at h
    obtain ⟨hname, hlabels, hv⟩ := h
    obtain ⟨⟨nh, nt, hnd, hnh, hnt⟩, hnolab⟩ := matchData_inv hmd
    have hvne : v ≠ .nan := by
      rw [← hv]
      exact fallbackVal_ne_nan _
    have hvden : ∀ q : ℚ, v = .finite q → ∃ j, (q.den : ℕ) ∣ 10 ^ j := by
      intro q hq
      exact fallbackVal_den (hq ▸ hv)
    have hfb : fallbackVal (serializeVal v) = v :=
      fallbackVal_serializeVal hvne hvden
    obtain ⟨vh, vt, hvs⟩ : ∃ vh vt, serializeVal v = vh :: vt := by
      cases hsv : serializeVal v with
      | nil => exact absurd hsv (serializeVal_ne_nil v)
      | cons a b => exact ⟨a, b, rfl⟩
    have hvh : isValueChar vh = true :=
      serializeVal_valueChars v vh (by rw [hvs]; simp)
    have hvt : ∀ c ∈ vt, isValueChar c = true :=
      fun c hc => serializeVal_valueChars v c (by rw [hvs]; simp [hc])
    have hnamedata : name.data = nh :: nt := by
      rw [← hname]
      exact hnd
    have hlabfacts : ∀ kv ∈ labels,
        (∃ c cs, kv.1.data = c :: cs ∧ isKeyStart c = true ∧
          ∀ x ∈ cs, isKeyChar x = true) ∧
        noBN kv.2.data = true ∧ (∀ x ∈ kv.2.data, x ≠ '}') := by
      intro kv hkv
      rw [← hlabels] at hkv
      cases hls : md.labelStr with
      | none =>
        simp only [hls] at hkv
        simp at hkv
      | some ls =>
        simp only [hls] at hkv
        have hkv2 := buildObj_mem hkv
        obtain ⟨⟨k2, raw⟩, hmem, hkveq⟩ := List.mem_map.1 hkv2
        obtain ⟨hkey, hsub⟩ := extractLabels_inv hmem
        subst hkveq
        refine ⟨hkey, noBN_decodeEsc raw, ?_⟩
        intro x hx
        rcases mem_decodeEsc hx with hx | hx | hx | hx
        · subst hx; decide
        · subst hx; decide
        · subst hx; decide
        · exact hnolab ls hls x (hsub x hx)
    have hkeysnodup : (labels.map Prod.fst).Nodup := by
      rw [← hlabels]
      cases hls : md.labelStr with
      | none => simp
      | some ls =>
        simp only [hls]
        exact buildObj_keys_nodup _
    cases labels with
    | nil =>
      have hshape : serializeSample name [] v =
          nh :: nt ++ ' ' :: vh :: vt := by
        simp only [serializeSample, hvs, hnamedata]
        simp [List.cons_append, List.append_assoc]
      rw [hshape]
      rw [show dataLineParse (nh :: nt ++ ' ' :: vh :: vt) =
          some (String.mk (nh :: nt), [], fallbackVal (vh :: vt)) from by
        unfold dataLineParse
        rw [matchData_nolabel nh nt vh vt hnh hnt hvh hvt]]
      rw [← hnamedata, ← hvs, hfb]
    | cons kv0 t0 =>
      have hshape : serializeSample name (kv0 :: t0) v =
          nh :: nt ++ '{' :: serializeLabels (kv0 :: t0) ++
            '}' :: ' ' :: vh :: vt := by
        simp only [serializeSample, hvs, hnamedata]
        simp [List.cons_append, List.append_assoc]
      rw [hshape]
      have hnobrace : ∀ x ∈ serializeLabels (kv0 :: t0), x ≠ '}' :=
        serializeLabels_chars _ (fun kv hkv =>
          ⟨(hlabfacts kv hkv).1, (hlabfacts kv hkv).2.2⟩)
      have hmd2 := c9_first_brace_capture nh nt (serializeLabels (kv0 :: t0))
        vh vt hnh hnt hnobrace hvh hvt
      rw [show dataLineParse (nh :: nt ++ '{' :: serializeLabels (kv0 :: t0)
            ++ '}' :: ' ' :: vh :: vt) =
          some (String.mk (nh :: nt),
            buildObj ((extractLabels (serializeLabels (kv0 :: t0))).map
              (fun kv => (kv.1, String.mk (decodeEsc kv.2)))),
            fallbackVal (vh :: vt)) from by
        unfold dataLineParse
        rw [hmd2]]
      rw [extractLabels_serializeLabels _ (fun kv hkv => (hlabfacts kv hkv).1)]
      have hmap : (((kv0 :: t0).map (fun kv => (kv.1, esc kv.2.data))).map
          (fun kv => (kv.1, String.mk (decodeEsc kv.2)))) = kv0 :: t0 := by
        rw [List.map_map]
        conv_rhs => rw [show (kv0 :: t0) = (kv0 :: t0).map id from
          (List.map_id _).symm]
        exact List.map_congr_left (fun kv hkv => by
          have hno := (hlabfacts kv hkv).2.1
          show (kv.1, String.mk (decodeEsc (esc kv.2.data))) = id kv
          rw [decodeEsc_esc _ hno]
          rfl)
      rw [hmap, buildObj_of_nodup hkeysnodup]
      rw [← hnamedata, ← hvs, hfb]

unseal Rat.add Rat.mul Rat.sub Rat.inv Rat.ofScientific in
/-- Witness for C2: the line `m\x7ba="x\"y\\z\nw"\x7d 2.5` — whose label
value uses all three escapes — parses, and serializing the parsed sample
and reparsing recovers the name, the decoded label map and the value
exactly. -/
theorem c2_roundtrip_witness :
    dataLineParse (serializeSample "m" [("a", "x\"y\\z\nw")]
        (.finite (5 / 2))) =
      some ("m", [("a", "x\"y\\z\nw")], .finite (5 / 2)) :=
  c2_roundtrip (t := "m\x7ba=\"x\\\"y\\\\z\\nw\"\x7d 2.5".data) (by decide)

end IMV
